import Mathlib

/-!
# Verification of the Kai financial-health solvency checker

A shallow embedding of `src/ocg.ts` (`checkEntitySolvency`,
`propagateShortfalls`, `propagateEntityShortfalls`) and proofs about it.

JavaScript `Map`s are modelled as insertion-ordered association lists
(`AList`), `Decimal` / `number` arithmetic as exact rationals (`ℚ`),
`bigint` as `ℤ`, and thrown exceptions as `Except String`.
-/

namespace Solvency

/-- Insertion-ordered association list, the model of a JS `Map`. -/
abbrev AList (α : Type) : Type := List (String × α)

/-- `Map.get`: the value at the first matching key, if any. -/
def mget {α : Type} (m : AList α) (k : String) : Option α :=
  match m with
  | [] => none
  | (k', v) :: rest => if k' = k then some v else mget rest k

/-- `Map.set`: overwrite in place if present (keeping the key's position),
otherwise append at the end. -/
def mset {α : Type} (m : AList α) (k : String) (v : α) : AList α :=
  match m with
  | [] => [(k, v)]
  | (k', v') :: rest => if k' = k then (k, v) :: rest else (k', v') :: mset rest k v

/-- `Map.delete`: remove the entry for the key, if present. -/
def mdel {α : Type} (m : AList α) (k : String) : AList α :=
  match m with
  | [] => []
  | (k', v') :: rest => if k' = k then rest else (k', v') :: mdel rest k

/-- Keys of an association list, in insertion order. -/
def mkeys {α : Type} (m : AList α) : List String := m.map (·.1)

/-! ## Data model (from `src/ocg.ts`) -/

/-- `CoinInfo`: the name of the coin type together with its decimal scale. -/
structure CoinInfo where
  typeName : String
  decimals : ℕ
deriving DecidableEq

/-- `Amount`: a raw integer quantity together with its decimal scale. -/
structure Amount where
  int : ℤ
  decimals : ℕ
deriving DecidableEq

/-- `Amount.fromInt`. -/
def Amount.fromInt (i : ℤ) (decimals : ℕ) : Amount := ⟨i, decimals⟩

/-- `CoinInfo.newAmount`. -/
def CoinInfo.newAmount (c : CoinInfo) (i : ℤ) : Amount := ⟨i, c.decimals⟩

/-- `Amount.toNumber` / `Amount.toDecimal`: the human-readable value
`int / 10^decimals` (exact, since the embedding works in `ℚ`). -/
def Amount.toQ (a : Amount) : ℚ := (a.int : ℚ) / (10 : ℚ) ^ a.decimals

/-- `Asset`: a single coin quantity or a paired liquidity position. -/
inductive Asset where
  | coin (coin : CoinInfo) (amount : ℤ)
  | lp (coinA coinB : CoinInfo) (amountA amountB : ℤ)
deriving DecidableEq

/-- `Obligation`: a directed debt (`from` is spelled `from_`, a Lean keyword). -/
structure Obligation where
  from_ : String
  to_ : String
  asset : Asset
deriving DecidableEq

/-- `EntityType`. -/
inductive EntityType where
  | savDepositors | sav | supplyPoolStrategy | supplyPool | position | lpUser
deriving DecidableEq

/-- `Entity`. -/
structure Entity where
  id : String
  type : EntityType
  name : String
  holdings : List Asset
  obligations : List Obligation
deriving DecidableEq

/-- `AssetBalance`. -/
structure AssetBalance where
  coinType : String
  amount : ℚ
deriving DecidableEq

/-- `ShortfallDetail`. -/
structure ShortfallDetail where
  coinType : String
  amount : ℚ
  usdValue : ℚ
  causedBy : String
deriving DecidableEq

/-- `EntityShortfall`. -/
structure EntityShortfall where
  owesTo : String
  shortfalls : List ShortfallDetail
  totalUsdValue : ℚ
deriving DecidableEq

/-- `ObligationDetail` (internal record of the first pass). -/
structure ObligationDetail where
  to_ : String
  coinType : String
  amount : Amount
  usdValue : ℚ
deriving DecidableEq

/-- `EntitySolvencyData` (the per-entity derived record). -/
structure EntitySolvencyData where
  entityId : String
  entityType : EntityType
  entityName : String
  totalAssets : List AssetBalance
  totalLiabilities : List AssetBalance
  totalAssetsUsd : ℚ
  totalLiabilitiesUsd : ℚ
  shortfallUsd : ℚ
  swapUsedUsd : ℚ
  swappedRepayments : List AssetBalance
  shortfallsByCoin : AList ℚ
  shortfallsReceived : List EntityShortfall
  shortfallsCaused : List EntityShortfall
deriving DecidableEq

/-- `SolvencyResult` (`details` carries the full per-entity records;
`shortfallsByCoin` stays an association list, the model of the JS object
produced by `Object.fromEntries`). -/
structure SolvencyResult where
  isSolvent : Bool
  insolventEntities : List String
  details : List EntitySolvencyData
deriving DecidableEq

/-- Price table: coin type → USD price, `none` when absent. -/
abbrev Prices : Type := String → Option ℚ

/-! ## First pass: per-entity solvency (source lines 610–893)

The source also accumulates a first-pass `insolventEntities` array (pushed at
two places); that array is dead — the returned result only uses the third
pass's `finalInsolventEntities` — so it is not modelled. -/

/-- Asset aggregation (source lines 612–659): the entity's own holdings plus
every inbound obligation, summed per coin type.  Each stored `Amount` carries
the decimals of the coin object that last wrote it, as `coin.newAmount(...)`
does; for an LP asset both previous values are read before either write, as in
the source. -/
def addAsset (ta : AList Amount) (a : Asset) : AList Amount :=
  match a with
  | .coin c amt =>
      let prev := ((mget ta c.typeName).map (·.int)).getD 0
      mset ta c.typeName (c.newAmount (prev + amt))
  | .lp cA cB amtA amtB =>
      let prevA := ((mget ta cA.typeName).map (·.int)).getD 0
      let prevB := ((mget ta cB.typeName).map (·.int)).getD 0
      mset (mset ta cA.typeName (cA.newAmount (prevA + amtA)))
        cB.typeName (cB.newAmount (prevB + amtB))

def aggregateAssets (entities : List Entity) (e : Entity) : AList Amount :=
  let afterHoldings := e.holdings.foldl addAsset []
  entities.foldl (fun ta other =>
    other.obligations.foldl (fun ta ob =>
      if ob.to_ = e.id then addAsset ta ob.asset else ta) ta) afterHoldings

/-- One step of liability flattening (source lines 663–698). -/
def flattenStep (prices : Prices) (acc : List ObligationDetail) (ob : Obligation) :
    Except String (List ObligationDetail) :=
  match ob.asset with
  | .coin c amt =>
      match prices c.typeName with
      | none => .error ("Price not found for coin type: \"" ++ c.typeName ++ "\"")
      | some price =>
          let amount := c.newAmount amt
          .ok (acc ++ [⟨ob.to_, c.typeName, amount, amount.toQ * price⟩])
  | .lp cA cB aA aB =>
      match prices cA.typeName, prices cB.typeName with
      | some pA, some pB =>
          let amountA := cA.newAmount aA
          let amountB := cB.newAmount aB
          .ok (acc ++ [⟨ob.to_, cA.typeName, amountA, amountA.toQ * pA⟩,
                       ⟨ob.to_, cB.typeName, amountB, amountB.toQ * pB⟩])
      | _, _ => .error "Price not found for LP asset coins"

/-- Liability flattening (source lines 661–699): one line per coin type with
its USD value; a missing price is a thrown error. -/
def flattenObligations (prices : Prices) (e : Entity) :
    Except String (List ObligationDetail) :=
  e.obligations.foldlM (flattenStep prices) []

/-- One step of asset USD valuation (source lines 705–711). -/
def assetsUsdStep (prices : Prices) (acc : ℚ) (entry : String × Amount) :
    Except String ℚ :=
  match prices entry.1 with
  | none => .error ("Price not found for coin type: \"" ++ entry.1 ++ "\"")
  | some price => .ok (acc + entry.2.toQ * price)

/-- USD value of the aggregated assets (source lines 702–711); a missing price
for any aggregated coin type is a thrown error. -/
def assetsUsd (prices : Prices) (ta : AList Amount) : Except String ℚ :=
  ta.foldlM (assetsUsdStep prices) 0

/-- One step of grouping obligation lines by coin type (source lines 726–731). -/
def obligationsByCoinStep (acc : AList (List ObligationDetail))
    (ob : ObligationDetail) : AList (List ObligationDetail) :=
  match mget acc ob.coinType with
  | some list => mset acc ob.coinType (list ++ [ob])
  | none => mset acc ob.coinType [ob]

/-- Obligation lines grouped by coin type (source lines 726–731), preserving
first-occurrence key order and line order within a group. -/
def obligationsByCoin (obs : List ObligationDetail) : AList (List ObligationDetail) :=
  obs.foldl obligationsByCoinStep []

/-- State threaded through the direct-netting loop (source lines 717–762). -/
structure NettingState where
  remainingByCoin : AList ℤ
  remainingLiabilitiesUsd : ℚ
  shortfallUsdByCoin : AList ℚ
deriving DecidableEq

/-- One iteration of the direct-netting loop (source lines 733–762). -/
def nettingStep (prices : Prices) (obligations : List ObligationDetail)
    (st : NettingState) (entry : String × List ObligationDetail) :
    Except String NettingState :=
  let coinType := entry.1
  let available := (mget st.remainingByCoin coinType).getD 0
  let totalObInt := (entry.2.map (fun o => o.amount.int)).sum
  if totalObInt ≤ available then
    let rest := available - totalObInt
    if 0 < rest then
      .ok { st with remainingByCoin := mset st.remainingByCoin coinType rest }
    else
      .ok { st with remainingByCoin := mdel st.remainingByCoin coinType }
  else
    match prices coinType with
    | none => .error ("Price not found for coin type: \"" ++ coinType ++ "\"")
    | some price =>
        let short := totalObInt - available
        match obligations.find? (fun ob => ob.coinType == coinType) with
        | some obligation =>
            let shortfallAmount := Amount.fromInt short obligation.amount.decimals
            let usdShort := shortfallAmount.toQ * price
            .ok { remainingByCoin := mdel st.remainingByCoin coinType,
                  remainingLiabilitiesUsd := st.remainingLiabilitiesUsd + usdShort,
                  shortfallUsdByCoin := mset st.shortfallUsdByCoin coinType usdShort }
        | none => .ok { st with remainingByCoin := mdel st.remainingByCoin coinType }

/-- The direct-netting loop over the grouped obligations. -/
def netting (prices : Prices) (obligations : List ObligationDetail)
    (remaining0 : AList ℤ) : Except String NettingState :=
  (obligationsByCoin obligations).foldlM (nettingStep prices obligations)
    ⟨remaining0, 0, []⟩

/-- Exact USD value of a raw-amount map under a fixed decimals table (proof
vocabulary for the netting invariant). -/
def remainingValueUsd (prices : Prices) (dec : String → ℕ) (m : AList ℤ) : ℚ :=
  (m.map (fun en => (en.2 : ℚ) / (10 : ℚ) ^ dec en.1 * ((prices en.1).getD 0))).sum

/-- One step of the leftover-asset USD valuation (source lines 771–784). -/
def remainingAssetsUsdStep (prices : Prices) (ta : AList Amount) (acc : ℚ)
    (entry : String × ℤ) : Except String ℚ :=
  match prices entry.1 with
  | none => .error ("Price not found for coin type: \"" ++ entry.1 ++ "\"")
  | some price =>
      match mget ta entry.1 with
      | some assetAmount =>
          .ok (acc + (Amount.fromInt entry.2 assetAmount.decimals).toQ * price)
      | none => .ok acc

/-- USD value of the assets left over after direct netting (source lines
769–785); coin types no longer found in `totalAssets` contribute nothing. -/
def remainingAssetsUsd (prices : Prices) (ta : AList Amount)
    (remaining : AList ℤ) : Except String ℚ :=
  remaining.foldlM (remainingAssetsUsdStep prices ta) 0

/-- Result of the cross-asset swap step. -/
structure SwapResult where
  swapUsedUsd : ℚ
  swappedRepayments : List AssetBalance
  remainingLiabilitiesUsd : ℚ
deriving DecidableEq

/-- One step of the swapped-repayment report (source lines 797–811). -/
def swapRepaymentStep (prices : Prices) (swapUsedUsd totalShortfallUsd : ℚ)
    (acc : List AssetBalance) (entry : String × ℚ) :
    Except String (List AssetBalance) :=
  let proportion := entry.2 / totalShortfallUsd
  let allocatedUsd := swapUsedUsd * proportion
  match prices entry.1 with
  | none => .error ("Price not found for coin type: \"" ++ entry.1 ++ "\"")
  | some price => .ok (acc ++ [⟨entry.1, allocatedUsd / price⟩])

/-- The swapped-repayment report lines (source lines 790–812). -/
def swapRepayments (prices : Prices) (swapUsedUsd : ℚ) (sfu : AList ℚ) :
    Except String (List AssetBalance) :=
  if 0 < swapUsedUsd ∧ sfu ≠ [] then
    sfu.foldlM (swapRepaymentStep prices swapUsedUsd ((sfu.map (·.2)).sum)) []
  else .ok []

/-- Cross-asset swap coverage (source lines 764–816). -/
def swapStep (prices : Prices) (ta : AList Amount) (nst : NettingState) :
    Except String SwapResult :=
  if 0 < nst.remainingLiabilitiesUsd ∧ nst.remainingByCoin ≠ [] then
    match remainingAssetsUsd prices ta nst.remainingByCoin with
    | .error msg => .error msg
    | .ok remAssetsUsd =>
        let swapUsedUsd := min remAssetsUsd nst.remainingLiabilitiesUsd
        match swapRepayments prices swapUsedUsd nst.shortfallUsdByCoin with
        | .error msg => .error msg
        | .ok reps => .ok ⟨swapUsedUsd, reps, nst.remainingLiabilitiesUsd - swapUsedUsd⟩
  else .ok ⟨0, [], nst.remainingLiabilitiesUsd⟩

/-- The per-coin map of residual shortfalls kept for propagation (source lines
847–873): the per-type deficits scaled so their USD values sum to the final
residual; a missing price here only skips the entry. -/
def shortfallsByCoinMap (prices : Prices) (finalShortfallUsd : ℚ)
    (sfu : AList ℚ) : AList ℚ :=
  if 0 < finalShortfallUsd ∧ sfu ≠ [] then
    let totalShortfallUsd := (sfu.map (·.2)).sum
    sfu.foldl (fun acc entry =>
      let proportion := entry.2 / totalShortfallUsd
      let remainingShortfallUsd := finalShortfallUsd * proportion
      match prices entry.1 with
      | some price =>
          let remainingShortfallAmount := remainingShortfallUsd / price
          if 0 < remainingShortfallAmount then
            mset acc entry.1 remainingShortfallAmount
          else acc
      | none => acc) []
  else []

/-- Total liabilities per coin type in display units (source lines 828–845). -/
def totalLiabilitiesList (obs : List ObligationDetail) : List AssetBalance :=
  (obs.foldl (fun acc ob =>
    match mget acc ob.coinType with
    | some ex => mset acc ob.coinType ⟨ob.coinType, ex.amount + ob.amount.toQ⟩
    | none => mset acc ob.coinType ⟨ob.coinType, ob.amount.toQ⟩) []).map (·.2)

/-- The complete first-pass computation for one entity (source lines 610–893). -/
def computeEntityData (entities : List Entity) (prices : Prices) (e : Entity) :
    Except String EntitySolvencyData :=
  let totalAssets := aggregateAssets entities e
  match flattenObligations prices e with
  | .error msg => .error msg
  | .ok obligations =>
  match assetsUsd prices totalAssets with
  | .error msg => .error msg
  | .ok totalAssetsUsd =>
  let totalLiabilitiesUsd := (obligations.map (·.usdValue)).sum
  match netting prices obligations (totalAssets.map (fun en => (en.1, en.2.int))) with
  | .error msg => .error msg
  | .ok nst =>
  match swapStep prices totalAssets nst with
  | .error msg => .error msg
  | .ok sw =>
  let finalShortfallUsd := max sw.remainingLiabilitiesUsd 0
  .ok { entityId := e.id
        entityType := e.type
        entityName := e.name
        totalAssets := totalAssets.map (fun en => AssetBalance.mk en.1 en.2.toQ)
        totalLiabilities := totalLiabilitiesList obligations
        totalAssetsUsd := totalAssetsUsd
        totalLiabilitiesUsd := totalLiabilitiesUsd
        shortfallUsd := finalShortfallUsd
        swapUsedUsd := sw.swapUsedUsd
        swappedRepayments := sw.swappedRepayments
        shortfallsByCoin := shortfallsByCoinMap prices finalShortfallUsd nst.shortfallUsdByCoin
        shortfallsReceived := []
        shortfallsCaused := [] }

/-- The whole first pass, one record per entity in input order. -/
def firstPass (entities : List Entity) (prices : Prices) :
    Except String (AList EntitySolvencyData) :=
  entities.foldlM (fun st e =>
    match computeEntityData entities prices e with
    | .error msg => .error msg
    | .ok d => .ok (mset st e.id d)) []

/-! ## Dependency graph (source lines 349–384) -/

/-- The graph's nodes: one per entity, in input order. -/
def nodeIds (entities : List Entity) : List String := entities.map (·.id)

/-- Deduplicated debtor→creditor edges; an edge is added only when both
endpoints are nodes (source lines 357–367). -/
def buildEdges (entities : List Entity) : List (String × String) :=
  entities.foldl (fun edges e =>
    e.obligations.foldl (fun edges ob =>
      if e.id ∈ nodeIds entities ∧ ob.to_ ∈ nodeIds entities then
        if (e.id, ob.to_) ∈ edges then edges else edges ++ [(e.id, ob.to_)]
      else edges) edges) []

/-- A node with no incoming edge from the remaining nodes (a self-loop keeps
its node from ever becoming a source, so self-loops are cycles). -/
def isSource (edges : List (String × String)) (remaining : List String)
    (n : String) : Bool :=
  !(edges.any (fun ed => ed.2 == n && remaining.contains ed.1))

/-- Kahn's algorithm with explicit fuel: repeatedly remove the first remaining
source node; `none` when stuck, i.e. when the graph has a cycle. -/
def topoGo (edges : List (String × String)) : ℕ → List String → Option (List String)
  | 0, remaining => if remaining.isEmpty then some [] else none
  | fuel + 1, remaining =>
      if remaining.isEmpty then some []
      else
        match remaining.find? (isSource edges remaining) with
        | none => none
        | some n => (topoGo edges fuel (remaining.erase n)).map (n :: ·)

/-- The topological sort used by the propagation pass; `none` iff `hasCycle`. -/
def topoSortK (nodes : List String) (edges : List (String × String)) :
    Option (List String) :=
  topoGo edges nodes.length nodes

/-- The cycle error thrown by `propagateShortfalls` (source lines 370–375). -/
def cycleErrorMsg : String :=
  "Dependency graph contains cycles. Shortfall propagation requires a DAG (Directed Acyclic Graph). Please resolve circular dependencies between entities before proceeding."

/-! ## Shortfall propagation (source lines 386–558) -/

/-- Outbound obligations grouped by creditor then coin type, in human-readable
units (source lines 401–448). -/
def obligationsByCreditor (e : Entity) : AList (AList ℚ) :=
  e.obligations.foldl (fun acc ob =>
    match ob.asset with
    | .coin c amt =>
        let creditorObs := (mget acc ob.to_).getD []
        mset acc ob.to_
          (mset creditorObs c.typeName
            (((mget creditorObs c.typeName).getD 0) + (c.newAmount amt).toQ))
    | .lp cA cB aA aB =>
        let creditorObs := (mget acc ob.to_).getD []
        let obs1 := mset creditorObs cA.typeName
          (((mget creditorObs cA.typeName).getD 0) + (cA.newAmount aA).toQ)
        let obs2 := mset obs1 cB.typeName
          (((mget obs1 cB.typeName).getD 0) + (cB.newAmount aB).toQ)
        mset acc ob.to_ obs2) []

/-- Total outbound obligation amount of one coin type, summed over all
creditors (source lines 452–454). -/
def coinTotal (obc : AList (AList ℚ)) (coinType : String) : ℚ :=
  (obc.map (fun en => (mget en.2 coinType).getD 0)).sum

/-- The pro-rata allocations of one coin type's shortfall across creditors
(source lines 461–468): each creditor with a positive obligation amount of the
coin gets `shortfall * (amount / total)`, in both units and USD. -/
def coinAllocations (obc : AList (AList ℚ)) (coinType : String)
    (shortfallAmount shortfallUsdValue : ℚ) : List (String × ℚ × ℚ) :=
  let total := coinTotal obc coinType
  obc.foldl (fun acc en =>
    let creditorObligationAmount := (mget en.2 coinType).getD 0
    if 0 < creditorObligationAmount then
      let proportion := creditorObligationAmount / total
      acc ++ [(en.1, shortfallAmount * proportion, shortfallUsdValue * proportion)]
    else acc) []

/-- Replace the first element satisfying `p` (JS mutates the object found by
`Array.prototype.find`, which is the first match). -/
def updateFirst {α : Type} (p : α → Bool) (f : α → α) : List α → List α
  | [] => []
  | x :: xs => if p x then f x :: xs else x :: updateFirst p f xs

/-- Merge one allocated `(coinType, amount, usd)` into a detail list: add into
the first detail of the same coin type if present, else push a new detail
(source lines 478–491 and 513–526). -/
def mergeDetail (coinType : String) (amt usd : ℚ) (causedBy : String)
    (dts : List ShortfallDetail) : List ShortfallDetail :=
  match dts.find? (fun d => d.coinType == coinType) with
  | some _ =>
      updateFirst (fun d => d.coinType == coinType)
        (fun d => { d with amount := d.amount + amt, usdValue := d.usdValue + usd }) dts
  | none => dts ++ [⟨coinType, amt, usd, causedBy⟩]

/-- Merge one allocation into an entry list keyed by counterparty: accumulate
into the first entry with the same key — merging the detail and adding to its
USD total — else push a new entry (source lines 473–506 and 509–541). -/
def mergeEntry (key coinType : String) (amt usd : ℚ) (causedBy : String)
    (lst : List EntityShortfall) : List EntityShortfall :=
  match lst.find? (fun s => s.owesTo == key) with
  | some _ =>
      updateFirst (fun s => s.owesTo == key)
        (fun s =>
          { s with
            shortfalls := mergeDetail coinType amt usd causedBy s.shortfalls
            totalUsdValue := s.totalUsdValue + usd })
        lst
  | none => lst ++ [⟨key, [⟨coinType, amt, usd, causedBy⟩], usd⟩]

/-- Record an allocation on the creditor's `shortfallsReceived` (source lines
470–506), keyed by the origin entity. -/
def addReceived (st : AList EntitySolvencyData) (creditorId originId coinType : String)
    (amt usd : ℚ) : AList EntitySolvencyData :=
  match mget st creditorId with
  | none => st
  | some cd =>
      let newReceived := mergeEntry originId coinType amt usd originId cd.shortfallsReceived
      mset st creditorId { cd with shortfallsReceived := newReceived }

/-- Record an allocation on the origin's `shortfallsCaused` (source lines
508–541), keyed by the creditor. -/
def addCaused (st : AList EntitySolvencyData) (originId creditorId coinType : String)
    (amt usd : ℚ) : AList EntitySolvencyData :=
  match mget st originId with
  | none => st
  | some d =>
      let newCaused := mergeEntry creditorId coinType amt usd originId d.shortfallsCaused
      mset st originId { d with shortfallsCaused := newCaused }

/-- Forward the allocation into the creditor's own per-coin shortfall map, but
only when the creditor has outgoing obligations (source lines 543–552). -/
def addSBC (st : AList EntitySolvencyData) (creditorId coinType : String)
    (amt : ℚ) : AList EntitySolvencyData :=
  match mget st creditorId with
  | none => st
  | some cd =>
      if cd.totalLiabilities ≠ [] then
        let newSBC := mset cd.shortfallsByCoin coinType
          (((mget cd.shortfallsByCoin coinType).getD 0) + amt)
        mset st creditorId { cd with shortfallsByCoin := newSBC }
      else st

/-- Apply one creditor's allocation: skipped entirely when the creditor has no
record (source lines 471–472); otherwise record received, then caused, then
forward (source lines 470–552). -/
def applyAllocation (originId coinType : String)
    (st : AList EntitySolvencyData) (alloc : String × ℚ × ℚ) :
    AList EntitySolvencyData :=
  match mget st alloc.1 with
  | none => st
  | some _ =>
      addSBC
        (addCaused (addReceived st alloc.1 originId coinType alloc.2.1 alloc.2.2)
          originId alloc.1 coinType alloc.2.1 alloc.2.2)
        alloc.1 coinType alloc.2.1

/-- Distribute one coin type's shortfall (the body of the loop at source lines
451–556): nothing happens when there are no outbound obligations of the coin,
and a missing price skips the coin type entirely. -/
def processCoinShortfall (entityId : String) (obc : AList (AList ℚ))
    (prices : Prices) (st : AList EntitySolvencyData) (entry : String × ℚ) :
    AList EntitySolvencyData :=
  let coinType := entry.1
  let shortfallAmount := entry.2
  if 0 < coinTotal obc coinType then
    match prices coinType with
    | none => st
    | some price =>
        (coinAllocations obc coinType shortfallAmount (shortfallAmount * price)).foldl
          (applyAllocation entityId coinType) st
  else st

/-- Process one entity during propagation (source lines 386–558): snapshot its
per-coin shortfalls and distribute each of them to its creditors. -/
def propagateEntityShortfalls (entityId : String)
    (entityData : AList EntitySolvencyData) (entities : List Entity)
    (prices : Prices) : AList EntitySolvencyData :=
  match entities.find? (fun e => e.id == entityId), mget entityData entityId with
  | some entity, some data =>
      data.shortfallsByCoin.foldl
        (processCoinShortfall entityId (obligationsByCreditor entity) prices)
        entityData
  | _, _ => entityData

/-- The propagation pass proper: process entities in the given order. -/
def runPropagation (order : List String) (st : AList EntitySolvencyData)
    (entities : List Entity) (prices : Prices) : AList EntitySolvencyData :=
  order.foldl (fun s eid => propagateEntityShortfalls eid s entities prices) st

/-! ## Third pass and result assembly (source lines 898–943) -/

/-- Final insolvency classification (source lines 898–917). -/
def classify (st : AList EntitySolvencyData) : List String :=
  st.foldl (fun acc en =>
    let data := en.2
    let hasDirectShortfall := data.shortfallsByCoin ≠ [] ∨ 0 < data.shortfallUsd
    let hasOutgoingObligations := data.totalLiabilities ≠ []
    let hasReceivedShortfalls := data.shortfallsReceived ≠ []
    if hasDirectShortfall ∨ (hasOutgoingObligations ∧ hasReceivedShortfalls) then
      acc ++ [data.entityId]
    else acc) []

/-- Assemble the returned result (source lines 919–942). -/
def finalize (st : AList EntitySolvencyData) : SolvencyResult :=
  let finalInsolventEntities := classify st
  { isSolvent := finalInsolventEntities.isEmpty,
    insolventEntities := finalInsolventEntities,
    details := st.map (·.2) }

/-- `checkEntitySolvency` with the propagation order passed explicitly (the
source computes it with `topologicalSort`; any function of the graph could be
substituted there, which is what claims about order-invariance quantify over). -/
def checkEntitySolvencyWithOrder (entities : List Entity) (prices : Prices)
    (order : List String) : Except String SolvencyResult :=
  match firstPass entities prices with
  | .error msg => .error msg
  | .ok st => .ok (finalize (runPropagation order st entities prices))

/-- The embedded `checkEntitySolvency` (source lines 602–943): first pass,
cycle check, propagation in topological order, final classification. -/
def checkEntitySolvency (entities : List Entity) (prices : Prices) :
    Except String SolvencyResult :=
  match firstPass entities prices with
  | .error msg => .error msg
  | .ok st =>
      match topoSortK (nodeIds entities) (buildEdges entities) with
      | none => .error cycleErrorMsg
      | some order => .ok (finalize (runPropagation order st entities prices))

/-! ## Input well-formedness (invariants stated by the spec) -/

/-- Non-negative amounts, the spec's invariant on `Asset`. -/
def NonnegAsset : Asset → Prop
  | .coin _ amt => 0 ≤ amt
  | .lp _ _ aA aB => 0 ≤ aA ∧ 0 ≤ aB

/-- Every amount appearing in the input is non-negative. -/
def NonnegAmounts (entities : List Entity) : Prop :=
  ∀ e ∈ entities, (∀ a ∈ e.holdings, NonnegAsset a) ∧
    (∀ ob ∈ e.obligations, NonnegAsset ob.asset)

/-- Every present price is positive, the spec's invariant on the price table. -/
def PositivePrices (prices : Prices) : Prop :=
  ∀ c p, prices c = some p → 0 < p

/-- All coin objects of one coin type agree with a fixed decimals table `d`. -/
def CoherentAsset (d : String → ℕ) : Asset → Prop
  | .coin c _ => c.decimals = d c.typeName
  | .lp cA cB _ _ => cA.decimals = d cA.typeName ∧ cB.decimals = d cB.typeName

/-- Decimal scales are consistent per coin type across the whole input. -/
def CoherentDecimals (d : String → ℕ) (entities : List Entity) : Prop :=
  ∀ e ∈ entities, (∀ a ∈ e.holdings, CoherentAsset d a) ∧
    (∀ ob ∈ e.obligations, CoherentAsset d ob.asset)

/-! ## The documented chain scenario (README `SOLVENCY_CHECK.md`, spec §8)

LP position owes 1000 USDC to a supply pool, the pool owes 800 USDC to a
strategy, the strategy owes 600 USDC to a vault; the position holds only
400 USDC. -/

/-- USDC with its 6 decimals. -/
def usdcChain : CoinInfo := ⟨"USDC", 6⟩

/-- Price table of the chain scenario: USDC at $1. -/
def chainPrices : Prices := fun c => if c = "USDC" then some 1 else none

/-- The four chain entities. -/
def chainEntities : List Entity :=
  [ ⟨"position", .position, "LP Position", [.coin usdcChain 400000000],
      [⟨"position", "pool", .coin usdcChain 1000000000⟩]⟩,
    ⟨"pool", .supplyPool, "Supply Pool", [],
      [⟨"pool", "strategy", .coin usdcChain 800000000⟩]⟩,
    ⟨"strategy", .supplyPoolStrategy, "Strategy", [],
      [⟨"strategy", "vault", .coin usdcChain 600000000⟩]⟩,
    ⟨"vault", .sav, "Vault", [], []⟩ ]

/-! ## Claim-level vocabulary -/

/-- The spec's obligation-graph edge relation: a directed edge from debtor `a`
to creditor `b`, both over entity ids present in the input. -/
def ObEdge (entities : List Entity) (a b : String) : Prop :=
  ∃ e ∈ entities, e.id = a ∧ ∃ ob ∈ e.obligations, ob.to_ = b ∧ b ∈ nodeIds entities

/-- A two-entity cycle: A owes B and B owes A. -/
def cycleEntities : List Entity :=
  [ ⟨"A", .sav, "A", [], [⟨"A", "B", .coin usdcChain 1⟩]⟩,
    ⟨"B", .sav, "B", [], [⟨"B", "A", .coin usdcChain 1⟩]⟩ ]

/-- Amount recorded in a detail list for one coin type. -/
def detailAmountIn (dts : List ShortfallDetail) (coinType : String) : ℚ :=
  (dts.map (fun dt => if dt.coinType = coinType then dt.amount else 0)).sum

/-- Amount recorded in an entry list for one counterparty key and coin type. -/
def entryAmountIn (lst : List EntityShortfall) (key coinType : String) : ℚ :=
  (lst.map (fun s => if s.owesTo = key then detailAmountIn s.shortfalls coinType else 0)).sum

/-- Total received-shortfall amount of one origin and coin type, summed over
every record of the state. -/
def allReceivedTotal (st : AList EntitySolvencyData) (originId coinType : String) : ℚ :=
  (st.map (fun en => entryAmountIn en.2.shortfallsReceived originId coinType)).sum

/-- Total caused-shortfall amount recorded toward one destination and coin
type, summed over every record of the state. -/
def allCausedToTotal (st : AList EntitySolvencyData) (destId coinType : String) : ℚ :=
  (st.map (fun en => entryAmountIn en.2.shortfallsCaused destId coinType)).sum

/-- A minimal per-entity record used as a concrete state entry. -/
def sampleData (id : String) : EntitySolvencyData :=
  ⟨id, .sav, id, [], [⟨"USDC", 1⟩], 0, 1, 0, 0, [], [], [], []⟩

/-- A concrete propagation state holding only a record for `c1`. -/
def c10State : AList EntitySolvencyData := [("c1", sampleData "c1")]

/-- Concrete grouped obligations: 1 USDC each to `c1` and to the absent `X`. -/
def c10Obc : AList (AList ℚ) := [("c1", [("USDC", 1)]), ("X", [("USDC", 1)])]

/-- A price is missing for an asset type referenced by an obligation. -/
def MissingObPrice (prices : Prices) (ob : Obligation) : Prop :=
  match ob.asset with
  | .coin c _ => prices c.typeName = none
  | .lp cA cB _ _ => prices cA.typeName = none ∨ prices cB.typeName = none

/-- An entity that merely holds one unit of coin `X` and owes nothing. -/
def c7HoldEntity : Entity := ⟨"e", .sav, "E", [.coin ⟨"X", 0⟩ 1], []⟩

/-- An empty price table. -/
def noPrices : Prices := fun _ => none

/-- A solvent one-entity input: holds 5 U against a 3 U obligation (C2).  -/
def c2Entity : Entity :=
  ⟨"e1", .sav, "E1", [.coin ⟨"U", 0⟩ 5], [⟨"e1", "x", .coin ⟨"U", 0⟩ 3⟩]⟩

/-- Price table for the C2 witness. -/
def c2Prices : Prices := fun c => if c = "U" then some 1 else none

/-- The expected first-pass record for `c2Entity`. -/
def c2Data : EntitySolvencyData :=
  ⟨"e1", .sav, "E1", [⟨"U", 5⟩], [⟨"U", 3⟩], 5, 3, 0, 0, [], [], [], []⟩

/-- Structural invariant of the propagation state (proof vocabulary): keys
are pairwise distinct, each record is keyed by its own entity id, per-coin
shortfall entries are positive, and a positive USD shortfall comes with a
non-empty per-coin shortfall map. -/
abbrev GoodState (st : AList EntitySolvencyData) : Prop :=
  (mkeys st).Nodup ∧
  (∀ en ∈ st, en.2.entityId = en.1) ∧
  (∀ en ∈ st, ∀ s ∈ en.2.shortfallsByCoin, 0 < s.2) ∧
  (∀ en ∈ st, 0 < en.2.shortfallUsd → en.2.shortfallsByCoin ≠ [])

/-- The record at `x` (if any) has no outbound liabilities, no per-coin
shortfalls and a zero USD shortfall (proof vocabulary). -/
abbrev ClosedAt (x : String) (st : AList EntitySolvencyData) : Prop :=
  ∀ cd, mget st x = some cd →
    cd.totalLiabilities = [] ∧ cd.shortfallsByCoin = [] ∧ cd.shortfallUsd = 0

/-! ## Order-equivalence vocabulary (C8) -/

/-- Lift a relation to options: both absent, or both present and related. -/
def OptRel {α : Type} (R : α → α → Prop) : Option α → Option α → Prop
  | none, none => True
  | some a, some b => R a b
  | _, _ => False

/-- Two detail lists agree as per-coin-type lookup tables. -/
def DetailsEquiv (l1 l2 : List ShortfallDetail) : Prop :=
  ∀ ct, l1.find? (fun dd => dd.coinType == ct) = l2.find? (fun dd => dd.coinType == ct)

/-- Two shortfall entries agree except for detail order. -/
def EntryEquiv (s1 s2 : EntityShortfall) : Prop :=
  s1.owesTo = s2.owesTo ∧ s1.totalUsdValue = s2.totalUsdValue ∧
  DetailsEquiv s1.shortfalls s2.shortfalls

/-- Two entry lists agree as per-counterparty lookup tables. -/
def EntriesEquiv (l1 l2 : List EntityShortfall) : Prop :=
  ∀ k, OptRel EntryEquiv (l1.find? (fun s => s.owesTo == k))
    (l2.find? (fun s => s.owesTo == k))

/-- Two per-entity records agree except for the order of entries in the
propagation-written collections. -/
def RecordEquiv (d1 d2 : EntitySolvencyData) : Prop :=
  d1.entityId = d2.entityId ∧ d1.entityType = d2.entityType ∧
  d1.entityName = d2.entityName ∧ d1.totalAssets = d2.totalAssets ∧
  d1.totalLiabilities = d2.totalLiabilities ∧
  d1.totalAssetsUsd = d2.totalAssetsUsd ∧
  d1.totalLiabilitiesUsd = d2.totalLiabilitiesUsd ∧
  d1.shortfallUsd = d2.shortfallUsd ∧ d1.swapUsedUsd = d2.swapUsedUsd ∧
  d1.swappedRepayments = d2.swappedRepayments ∧
  (∀ ct, mget d1.shortfallsByCoin ct = mget d2.shortfallsByCoin ct) ∧
  EntriesEquiv d1.shortfallsReceived d2.shortfallsReceived ∧
  EntriesEquiv d1.shortfallsCaused d2.shortfallsCaused

/-- Two propagation states agree up to entry order inside each record. -/
def StateEquiv (st1 st2 : AList EntitySolvencyData) : Prop :=
  mkeys st1 = mkeys st2 ∧ ∀ k, OptRel RecordEquiv (mget st1 k) (mget st2 k)

/-- An iteration order respects the edges: whenever `a` comes before `b`,
there is no edge from `b` back to `a`. -/
def ValidOrder (edges : List (String × String)) (order : List String) : Prop :=
  order.Pairwise (fun a b => (b, a) ∉ edges)

/-- Update-in-place of the record at a key, if present (proof vocabulary: the
common shape of the three propagation write primitives). -/
def upd (st : AList EntitySolvencyData) (k : String)
    (f : EntitySolvencyData → EntitySolvencyData) : AList EntitySolvencyData :=
  match mget st k with
  | none => st
  | some cd => mset st k (f cd)

/-- Per-record sbc keys are distinct (propagation invariant). -/
def NodupSBC (st : AList EntitySolvencyData) : Prop :=
  ∀ en ∈ st, (mkeys en.2.shortfallsByCoin).Nodup

/-- The diamond input: A owes both B and C, who each owe D (C8). -/
def diamondEntities : List Entity :=
  [ ⟨"A", .position, "A", [],
      [⟨"A", "B", .coin ⟨"U", 0⟩ 10⟩, ⟨"A", "C", .coin ⟨"U", 0⟩ 10⟩]⟩,
    ⟨"B", .supplyPool, "B", [], [⟨"B", "D", .coin ⟨"U", 0⟩ 5⟩]⟩,
    ⟨"C", .supplyPool, "C", [], [⟨"C", "D", .coin ⟨"U", 0⟩ 5⟩]⟩,
    ⟨"D", .sav, "D", [], []⟩ ]

/-- Price table for the diamond input. -/
def diamondPrices : Prices := fun c => if c = "U" then some 1 else none

/-- The received-entry key order per entity, the observable that
distinguishes the two topological orders of the diamond. -/
def receivedOrders (r : Except String SolvencyResult) : List (List String) :=
  match r with
  | .ok res => res.details.map (fun d => d.shortfallsReceived.map (fun s => s.owesTo))
  | .error _ => []

/-- The received-merge record update of `addReceived` (proof vocabulary). -/
def recvF (o ct : String) (a u : ℚ) (cd : EntitySolvencyData) : EntitySolvencyData :=
  { cd with shortfallsReceived := mergeEntry o ct a u o cd.shortfallsReceived }

/-- The caused-merge record update of `addCaused` (proof vocabulary). -/
def causF (c ct : String) (a u : ℚ) (o : String) (d : EntitySolvencyData) :
    EntitySolvencyData :=
  { d with shortfallsCaused := mergeEntry c ct a u o d.shortfallsCaused }

/-- The per-coin forwarding record update of `addSBC` (proof vocabulary). -/
def sbcF (ct : String) (a : ℚ) (cd : EntitySolvencyData) : EntitySolvencyData :=
  if cd.totalLiabilities ≠ [] then
    { cd with shortfallsByCoin := mset cd.shortfallsByCoin ct (((mget cd.shortfallsByCoin ct).getD 0) + a) }
  else cd

/-- A sequence of keyed record updates, applied left to right. -/
def updList : List (String × (EntitySolvencyData → EntitySolvencyData)) →
    AList EntitySolvencyData → AList EntitySolvencyData
  | [], st => st
  | p :: rest, st => updList rest (upd st p.1 p.2)

/-- Two keyed updates commute up to record equivalence when they hit the same
key. -/
def CommPair (p q : String × (EntitySolvencyData → EntitySolvencyData)) : Prop :=
  p.1 = q.1 → ∀ d, RecordEquiv (p.2 (q.2 d)) (q.2 (p.2 d))

/-- A record update respects record equivalence. -/
def MonoF (f : EntitySolvencyData → EntitySolvencyData) : Prop :=
  ∀ d1 d2, RecordEquiv d1 d2 → RecordEquiv (f d1) (f d2)

/-- The three keyed record updates an allocation performs, in program order. -/
def allocUpds (o ct : String) (al : String × ℚ × ℚ) :
    List (String × (EntitySolvencyData → EntitySolvencyData)) :=
  [⟨al.1, recvF o ct al.2.1 al.2.2⟩, ⟨o, causF al.1 ct al.2.1 al.2.2 o⟩,
    ⟨al.1, sbcF ct al.2.1⟩]

/-- The allocation list one coin-shortfall entry produces (proof vocabulary:
`processCoinShortfall` is the fold of `applyAllocation` over this list). -/
def pcsList (obc : AList (AList ℚ)) (prices : Prices) (en : String × ℚ) :
    List (String × ℚ × ℚ) :=
  if 0 < coinTotal obc en.1 then
    match prices en.1 with
    | none => []
    | some price => coinAllocations obc en.1 en.2 (en.2 * price)
  else []

/-- The classification fold step (proof vocabulary, the body of `classify`). -/
def classifyStep (acc : List String) (en : String × EntitySolvencyData) :
    List String :=
  if (en.2.shortfallsByCoin ≠ [] ∨ 0 < en.2.shortfallUsd) ∨
      (en.2.totalLiabilities ≠ [] ∧ en.2.shortfallsReceived ≠ []) then
    acc ++ [en.2.entityId]
  else acc

section ClaimProofs

set_option allowUnsafeReducibility true
attribute [local semireducible] Rat.add Rat.mul Rat.div Rat.sub Rat.neg Rat.inv

/-! ### Association-list lemmas -/

theorem mget_mset_self {α : Type} (m : AList α) (k : String) (v : α) :
    mget (mset m k v) k = some v := by
  induction m with
  | nil => simp [mget, mset]
  | cons hd t ih =>
    obtain ⟨a, b⟩ := hd
    by_cases hak : a = k
    · subst hak; simp [mset, mget]
    · simp [mset, hak, mget, ih]

theorem mget_mset_ne {α : Type} (m : AList α) (k k' : String) (v : α) (h : k ≠ k') :
    mget (mset m k v) k' = mget m k' := by
  induction m with
  | nil => simp [mget, mset, h]
  | cons hd t ih =>
    obtain ⟨a, b⟩ := hd
    by_cases hak : a = k
    · subst hak; simp [mset, mget, h]
    · simp [mset, hak, mget, ih]

theorem mem_mkeys_mset {α : Type} (m : AList α) (k k' : String) (v : α) :
    k' ∈ mkeys (mset m k v) ↔ k' = k ∨ k' ∈ mkeys m := by
  induction m with
  | nil => simp [mset, mkeys]
  | cons hd t ih =>
    obtain ⟨a, b⟩ := hd
    by_cases hak : a = k
    · subst hak; simp [mset, mkeys]
    · have h1 : mkeys ((a, b) :: mset t k v) = a :: mkeys (mset t k v) := rfl
      have h2 : mkeys ((a, b) :: t) = a :: mkeys t := rfl
      simp only [mset, if_neg hak, h1, h2, List.mem_cons, ih]
      tauto

theorem nodup_mkeys_mset {α : Type} (m : AList α) (k : String) (v : α)
    (h : (mkeys m).Nodup) : (mkeys (mset m k v)).Nodup := by
  induction m with
  | nil => simp [mset, mkeys]
  | cons hd t ih =>
    obtain ⟨a, b⟩ := hd
    simp only [mkeys, List.map_cons, List.nodup_cons] at h
    by_cases hak : a = k
    · subst hak; simpa [mset, mkeys] using h
    · simp only [mset, if_neg hak, mkeys, List.map_cons, List.nodup_cons]
      refine ⟨?_, ih h.2⟩
      rw [show List.map (·.1) (mset t k v) = mkeys (mset t k v) from rfl]
      intro hmem
      rcases (mem_mkeys_mset t k a v).mp hmem with h1 | h2
      · exact hak h1
      · exact h.1 h2

theorem mem_mset_cases {α : Type} :
    ∀ (m : AList α) (k : String) (v : α) (x : String × α),
      x ∈ mset m k v → x ∈ m ∨ (x.1 = k ∧ x.2 = v) := by
  intro m
  induction m with
  | nil =>
    intro k v x hx
    rcases List.mem_singleton.mp hx with rfl
    exact Or.inr ⟨rfl, rfl⟩
  | cons hd t ih =>
    intro k v x hx
    obtain ⟨a, b⟩ := hd
    by_cases hak : a = k
    · subst hak
      rw [show mset ((a, b) :: t) a v = (a, v) :: t by simp [mset]] at hx
      rcases List.mem_cons.mp hx with rfl | h
      · exact Or.inr ⟨rfl, rfl⟩
      · exact Or.inl (List.mem_cons_of_mem _ h)
    · rw [show mset ((a, b) :: t) k v = (a, b) :: mset t k v by simp [mset, hak]] at hx
      rcases List.mem_cons.mp hx with rfl | h
      · exact Or.inl (List.mem_cons_self _ _)
      · rcases ih k v x h with h' | h'
        · exact Or.inl (List.mem_cons_of_mem _ h')
        · exact Or.inr h'

theorem mget_mem {α : Type} :
    ∀ (m : AList α) (k : String) (v : α), mget m k = some v → (k, v) ∈ m := by
  intro m
  induction m with
  | nil => intro k v h; simp [mget] at h
  | cons hd t ih =>
    intro k v h
    obtain ⟨a, b⟩ := hd
    by_cases hak : a = k
    · subst hak
      have : b = v := by simpa [mget] using h
      subst this
      exact List.mem_cons_self _ _
    · have h' : mget t k = some v := by simpa [mget, hak] using h
      exact List.mem_cons_of_mem _ (ih k v h')

theorem mget_eq_none_iff {α : Type} (m : AList α) (k : String) :
    mget m k = none ↔ k ∉ mkeys m := by
  induction m with
  | nil => simp [mget, mkeys]
  | cons hd t ih =>
    obtain ⟨a, b⟩ := hd
    by_cases hak : a = k
    · subst hak; simp [mget, mkeys]
    · have hka : ¬ k = a := fun hh => hak hh.symm
      simp [mget, hak, mkeys, ih, hka]

theorem mget_isSome_iff {α : Type} (m : AList α) (k : String) :
    (mget m k).isSome ↔ k ∈ mkeys m := by
  rw [Option.isSome_iff_ne_none, not_iff_comm, ← mget_eq_none_iff]


/-- C1: on the documented chain the code does give the pool a 600 USDC received
shortfall from the position, but it then forwards the *entire* 600 unchanged —
it never nets a received shortfall against the intermediary's own surplus — so
the strategy receives 600 from the pool and the vault's received entry is
600 USDC, not the 200 the claim (and the repository's `SOLVENCY_CHECK.md`)
state. -/
theorem c1_chain_vault_receives_600 :
    ((checkEntitySolvency chainEntities chainPrices).toOption.map fun r =>
      r.details.map fun d => d.entityId) =
      some ["position", "pool", "strategy", "vault"] ∧
    ((checkEntitySolvency chainEntities chainPrices).toOption.map fun r =>
      r.details.map fun d =>
        d.shortfallsReceived.map fun s => (s.owesTo, s.totalUsdValue)) =
      some [[], [("position", 600)], [("pool", 600)], [("strategy", 600)]] ∧
    ((checkEntitySolvency chainEntities chainPrices).toOption.map fun r =>
      r.details.map fun d =>
        d.shortfallsReceived.map fun s =>
          s.shortfalls.map fun dt => (dt.coinType, dt.amount)) =
      some [[], [[("USDC", 600)]], [[("USDC", 600)]], [[("USDC", 600)]]] := by
  refine ⟨?_, ?_, ?_⟩ <;> decide

/-! ### Dependency-graph lemmas -/

theorem foldl_grow {α β : Type} (f : List α → β → List α)
    (hf : ∀ acc b, acc ⊆ f acc b) :
    ∀ (l : List β) (acc : List α), acc ⊆ l.foldl f acc := by
  intro l
  induction l with
  | nil => intro acc a ha; exact ha
  | cons b t ih => intro acc a ha; exact ih (f acc b) (hf acc b ha)

theorem foldl_sound {α β : Type} (f : List α → β → List α) (P : β → α → Prop)
    (hf : ∀ acc b x, x ∈ f acc b → x ∈ acc ∨ P b x) :
    ∀ (l : List β) (acc : List α) (x : α),
      x ∈ l.foldl f acc → x ∈ acc ∨ ∃ b ∈ l, P b x := by
  intro l
  induction l with
  | nil => intro acc x hx; exact Or.inl hx
  | cons b t ih =>
    intro acc x hx
    rcases ih (f acc b) x hx with h | ⟨b', hb', hP⟩
    · rcases hf acc b x h with h' | hP
      · exact Or.inl h'
      · exact Or.inr ⟨b, List.mem_cons_self b t, hP⟩
    · exact Or.inr ⟨b', List.mem_cons_of_mem b hb', hP⟩

theorem foldl_complete {α β : Type} (f : List α → β → List α) (P : β → α → Prop)
    (hmono : ∀ acc b, acc ⊆ f acc b) (hf : ∀ acc b x, P b x → x ∈ f acc b) :
    ∀ (l : List β) (acc : List α) (x : α) (b : β),
      b ∈ l → P b x → x ∈ l.foldl f acc := by
  intro l
  induction l with
  | nil => intro acc x b hb; exact absurd hb (List.not_mem_nil b)
  | cons b0 t ih =>
    intro acc x b hb hP
    rcases List.mem_cons.mp hb with rfl | hbt
    · exact foldl_grow f hmono t (f acc b) (hf acc b x hP)
    · exact ih (f acc b0) x b hbt hP

/-- Membership in the computed edge list is exactly the spec's obligation-graph
edge relation. -/
theorem mem_buildEdges (entities : List Entity) (x : String × String) :
    x ∈ buildEdges entities ↔ ObEdge entities x.1 x.2 := by
  obtain ⟨x1, x2⟩ := x
  have hinnerMono : ∀ (e : Entity) (acc : List (String × String)) (ob : Obligation),
      acc ⊆ (fun edges ob =>
        if e.id ∈ nodeIds entities ∧ ob.to_ ∈ nodeIds entities then
          if (e.id, ob.to_) ∈ edges then edges else edges ++ [(e.id, ob.to_)]
        else edges) acc ob := by
    intro e acc ob y hy
    show y ∈ if e.id ∈ nodeIds entities ∧ ob.to_ ∈ nodeIds entities then
      if (e.id, ob.to_) ∈ acc then acc else acc ++ [(e.id, ob.to_)] else acc
    split
    · split
      · exact hy
      · exact List.mem_append_left _ hy
    · exact hy
  constructor
  · intro hx
    unfold buildEdges at hx
    have hstepInner : ∀ (e : Entity) (acc : List (String × String)) (ob : Obligation)
        (y : String × String),
        y ∈ (fun edges ob =>
          if e.id ∈ nodeIds entities ∧ ob.to_ ∈ nodeIds entities then
            if (e.id, ob.to_) ∈ edges then edges else edges ++ [(e.id, ob.to_)]
          else edges) acc ob →
        y ∈ acc ∨ (y.1 = e.id ∧ y.2 = ob.to_ ∧ ob.to_ ∈ nodeIds entities) := by
    
      intro e acc ob y hy
      rw [show (fun edges ob =>
          if e.id ∈ nodeIds entities ∧ ob.to_ ∈ nodeIds entities then
            if (e.id, ob.to_) ∈ edges then edges else edges ++ [(e.id, ob.to_)]
          else edges) acc ob = if e.id ∈ nodeIds entities ∧ ob.to_ ∈ nodeIds entities then
            if (e.id, ob.to_) ∈ acc then acc else acc ++ [(e.id, ob.to_)]
          else acc from rfl] at hy
      split at hy
      · rename_i hcond
        split at hy
        · exact Or.inl hy
        · rcases List.mem_append.mp hy with h | h
          · exact Or.inl h
          · rcases List.mem_singleton.mp h with rfl
            exact Or.inr ⟨rfl, rfl, hcond.2⟩
      · exact Or.inl hy
    have hstepOuter : ∀ (acc : List (String × String)) (e : Entity) (y : String × String),
        y ∈ e.obligations.foldl (fun edges ob =>
          if e.id ∈ nodeIds entities ∧ ob.to_ ∈ nodeIds entities then
            if (e.id, ob.to_) ∈ edges then edges else edges ++ [(e.id, ob.to_)]
          else edges) acc →
        y ∈ acc ∨ ∃ ob ∈ e.obligations,
          y.1 = e.id ∧ y.2 = ob.to_ ∧ ob.to_ ∈ nodeIds entities := by
      intro acc e y hy
      exact foldl_sound _ _ (hstepInner e) e.obligations acc y hy
    rcases foldl_sound _ _ hstepOuter entities [] (x1, x2) hx with h | ⟨e, he, ob, hob, h1, h2, h3⟩
    · exact absurd h (List.not_mem_nil (x1, x2))
    · refine ⟨e, he, h1.symm, ob, hob, h2.symm, ?_⟩
      show x2 ∈ nodeIds entities
      have h2' : x2 = ob.to_ := h2
      rw [h2']
      exact h3
  · rintro ⟨e, he, hid, ob, hob, hto, hn2⟩
    have hid' : e.id = x1 := hid
    have hto' : ob.to_ = x2 := hto
    subst hid'
    subst hto'
    unfold buildEdges
    have hn1 : e.id ∈ nodeIds entities := List.mem_map_of_mem (·.id) he
    refine foldl_complete _
      (fun (e' : Entity) (y : String × String) => e = e' ∧ y = (e.id, ob.to_))
      ?_ ?_ entities [] (e.id, ob.to_) e he ⟨rfl, rfl⟩
    · intro acc e' a ha
      exact foldl_grow _ (hinnerMono e') e'.obligations acc ha
    · rintro acc e' y ⟨heq, rfl⟩
      subst heq
      refine foldl_complete _
        (fun (ob' : Obligation) (y : String × String) => ob = ob' ∧ y = (e.id, ob.to_))
        (hinnerMono e) ?_ e.obligations acc (e.id, ob.to_) ob hob ⟨rfl, rfl⟩
      rintro acc' ob' y ⟨heq', rfl⟩
      subst heq'
      show (e.id, ob.to_) ∈ if e.id ∈ nodeIds entities ∧ ob.to_ ∈ nodeIds entities then
        if (e.id, ob.to_) ∈ acc' then acc' else acc' ++ [(e.id, ob.to_)] else acc'
      rw [if_pos ⟨hn1, hn2⟩]
      split
      · assumption
      · exact List.mem_append_right _ (List.mem_singleton.mpr rfl)

/-- Whenever Kahn's algorithm returns an order, that order is a permutation of
the remaining nodes along which every edge between remaining nodes points
strictly forward. -/
theorem topoGo_sound (edges : List (String × String)) :
    ∀ (fuel : ℕ) (remaining o : List String),
      topoGo edges fuel remaining = some o →
      o.Perm remaining ∧
        ∀ a b, (a, b) ∈ edges → a ∈ remaining → b ∈ remaining →
          o.indexOf a < o.indexOf b := by
  intro fuel
  induction fuel with
  | zero =>
    intro remaining o h
    unfold topoGo at h
    split at h
    · rename_i hemp
      cases h
      rcases List.isEmpty_iff.mp hemp with rfl
      exact ⟨List.Perm.refl _, fun a b _ _ hb => absurd hb (List.not_mem_nil b)⟩
    · cases h
  | succ fuel ih =>
    intro remaining o h
    unfold topoGo at h
    split at h
    · rename_i hemp
      cases h
      rcases List.isEmpty_iff.mp hemp with rfl
      exact ⟨List.Perm.refl _, fun a b _ _ hb => absurd hb (List.not_mem_nil b)⟩
    · split at h
      · cases h
      · rename_i n hfind
        rw [Option.map_eq_some'] at h
        obtain ⟨o', ho', rfl⟩ := h
        have hn : n ∈ remaining := List.mem_of_find?_eq_some hfind
        have hsrc : isSource edges remaining n = true := List.find?_some hfind
        have hsrc' : ∀ ed ∈ edges, ¬(ed.2 = n ∧ ed.1 ∈ remaining) := by
          intro ed hed
          simp only [isSource, Bool.not_eq_true', List.any_eq_false] at hsrc
          have := hsrc ed hed
          simp only [Bool.and_eq_true, beq_iff_eq, List.elem_iff, not_and] at this
          rintro ⟨h1, h2⟩
          exact this h1 h2
        obtain ⟨hperm, hidx⟩ := ih (remaining.erase n) o' ho'
        constructor
        · exact (hperm.cons n).trans (List.perm_cons_erase hn).symm
        · intro a b hab ha hb
          by_cases hbn : b = n
          · exact absurd ⟨hbn, ha⟩ (hsrc' (a, b) hab)
          · by_cases han : a = n
            · subst han
              rw [List.indexOf_cons_self,
                List.indexOf_cons_ne o' (fun hh => hbn hh.symm)]
              exact Nat.succ_pos _
            · have ha' : a ∈ remaining.erase n := (List.mem_erase_of_ne han).mpr ha
              have hb' : b ∈ remaining.erase n := (List.mem_erase_of_ne hbn).mpr hb
              rw [List.indexOf_cons_ne o' (fun hh => han hh.symm),
                List.indexOf_cons_ne o' (fun hh => hbn hh.symm)]
              exact Nat.succ_lt_succ (hidx a b hab ha' hb')

/-- C4: a cycle in the obligation graph makes `checkEntitySolvency` throw — it
produces an `error`, never an `ok`, so no first-pass record escapes. -/
theorem c4_cyclic_graph_aborts (entities : List Entity) (prices : Prices)
    (hcycle : ∃ a, Relation.TransGen (ObEdge entities) a a) :
    ∃ msg, checkEntitySolvency entities prices = Except.error msg := by
  obtain ⟨a, htg⟩ := hcycle
  unfold checkEntitySolvency
  cases hfp : firstPass entities prices with
  | error msg => exact ⟨msg, rfl⟩
  | ok st =>
    cases htopo : topoSortK (nodeIds entities) (buildEdges entities) with
    | none => exact ⟨cycleErrorMsg, rfl⟩
    | some o =>
      exfalso
      have hsound := topoGo_sound (buildEdges entities)
        (nodeIds entities).length (nodeIds entities) o htopo
      have hmono : ∀ x y, ObEdge entities x y → o.indexOf x < o.indexOf y := by
        intro x y hxy
        have hmem : (x, y) ∈ buildEdges entities :=
          (mem_buildEdges entities (x, y)).mpr hxy
        obtain ⟨e, he, hid, ob, hob, hto, hy⟩ := hxy
        have hx : x ∈ nodeIds entities := hid ▸ List.mem_map_of_mem (·.id) he
        exact hsound.2 x y hmem hx hy
      have hlt : ∀ x y, Relation.TransGen (ObEdge entities) x y →
          o.indexOf x < o.indexOf y := by
        intro x y h
        induction h with
        | single h => exact hmono _ _ h
        | tail _ step ih => exact lt_trans ih (hmono _ _ step)
      exact lt_irrefl _ (hlt a a htg)

/-- Witness for C4 at the two-entity cycle A↔B. -/
theorem c4_witness :
    ∃ msg, checkEntitySolvency cycleEntities chainPrices = Except.error msg := by
  have h1 : ObEdge cycleEntities "A" "B" := by unfold ObEdge; decide
  have h2 : ObEdge cycleEntities "B" "A" := by unfold ObEdge; decide
  exact c4_cyclic_graph_aborts cycleEntities chainPrices
    ⟨"A", Relation.TransGen.head h1 (Relation.TransGen.single h2)⟩

/-! ### C9: missing price during propagation -/

/-- C9: a missing price for a shortfall coin type makes the propagation step
skip that coin type's distribution entirely — the state is returned untouched,
so no received entry, no caused entry and no forwarding are recorded — while
the entity's other coin types are still processed: folding over a snapshot
containing the priceless coin type equals folding over the snapshot with that
entry dropped, and no error is raised. -/
theorem c9_missing_price_skips_coin (entityId : String) (obc : AList (AList ℚ))
    (prices : Prices) (coinType : String) (amt : ℚ)
    (hmissing : prices coinType = none) :
    (∀ st : AList EntitySolvencyData,
      processCoinShortfall entityId obc prices st (coinType, amt) = st) ∧
    (∀ (l1 l2 : AList ℚ) (st : AList EntitySolvencyData),
      (l1 ++ (coinType, amt) :: l2).foldl
          (processCoinShortfall entityId obc prices) st =
        (l1 ++ l2).foldl (processCoinShortfall entityId obc prices) st) := by
  have hskip : ∀ st, processCoinShortfall entityId obc prices st (coinType, amt) = st := by
    intro st
    by_cases hc : 0 < coinTotal obc coinType
    · simp [processCoinShortfall, hc, hmissing]
    · simp [processCoinShortfall, hc]
  refine ⟨hskip, ?_⟩
  intro l1 l2 st
  rw [List.foldl_append, List.foldl_append, List.foldl_cons, hskip]

/-- Witness for C9: a concrete skipped coin type. -/
theorem c9_witness :
    (fun _ => (none : Option ℚ)) "X" = none ∧
    processCoinShortfall "e" [("c", [("X", (5 : ℚ))])] (fun _ => none) [] ("X", 3) = [] :=
  ⟨rfl,
    (c9_missing_price_skips_coin "e" [("c", [("X", 5)])] (fun _ => none) "X" 3 rfl).1 []⟩

/-! ### C5: pro-rata distribution across creditors -/

theorem coinAllocations_go (ct : String) (a u total : ℚ) :
    ∀ (obc : AList (AList ℚ)) (acc : List (String × ℚ × ℚ)),
      obc.foldl (fun acc en =>
        let creditorObligationAmount := (mget en.2 ct).getD 0
        if 0 < creditorObligationAmount then
          let proportion := creditorObligationAmount / total
          acc ++ [(en.1, a * proportion, u * proportion)]
        else acc) acc =
      acc ++ obc.filterMap (fun en =>
        let s := (mget en.2 ct).getD 0
        if 0 < s then some (en.1, a * (s / total), u * (s / total)) else none) := by
  intro obc
  induction obc with
  | nil => intro acc; simp
  | cons en t ih =>
    intro acc
    rw [List.foldl_cons, List.filterMap_cons]
    by_cases hs : 0 < (mget en.2 ct).getD 0
    · simp only [hs, if_pos, ih]
      simp
    · simp only [hs, if_neg, ih]
      simp [hs]

/-- `coinAllocations` as a `filterMap`. -/
theorem coinAllocations_eq (obc : AList (AList ℚ)) (ct : String) (a u : ℚ) :
    coinAllocations obc ct a u =
      obc.filterMap (fun en =>
        let s := (mget en.2 ct).getD 0
        if 0 < s then
          some (en.1, a * (s / coinTotal obc ct), u * (s / coinTotal obc ct))
        else none) := by
  show obc.foldl _ [] = _
  rw [coinAllocations_go]
  exact List.nil_append _

/-- C5: when an entity's shortfall in one coin type is distributed over its
creditors, every creditor with a positive obligation amount `s` of that coin is
allocated exactly `shortfall * s / S` of the shortfall amount and
`shortfallUsd * s / S` of its USD value, and the allocations over all the
creditors sum exactly to the original shortfall amount and USD value. -/
theorem c5_prorata_allocation (obc : AList (AList ℚ)) (coinType : String)
    (shortfallAmount shortfallUsdValue : ℚ)
    (hnn : ∀ en ∈ obc, 0 ≤ (mget en.2 coinType).getD 0)
    (hS : 0 < coinTotal obc coinType) :
    (∀ en ∈ obc, 0 < (mget en.2 coinType).getD 0 →
      (en.1,
        shortfallAmount * ((mget en.2 coinType).getD 0 / coinTotal obc coinType),
        shortfallUsdValue * ((mget en.2 coinType).getD 0 / coinTotal obc coinType)) ∈
        coinAllocations obc coinType shortfallAmount shortfallUsdValue) ∧
    ((coinAllocations obc coinType shortfallAmount shortfallUsdValue).map
      (fun t => t.2.1)).sum = shortfallAmount ∧
    ((coinAllocations obc coinType shortfallAmount shortfallUsdValue).map
      (fun t => t.2.2)).sum = shortfallUsdValue := by
  refine ⟨?_, ?_, ?_⟩
  · intro en hen hpos
    rw [coinAllocations_eq]
    rw [List.mem_filterMap]
    exact ⟨en, hen, by simp only [hpos, if_pos]⟩
  · rw [coinAllocations_eq]
    have : ∀ (l : AList (AList ℚ)), (∀ en ∈ l, 0 ≤ (mget en.2 coinType).getD 0) →
        ((l.filterMap (fun en =>
          let s := (mget en.2 coinType).getD 0
          if 0 < s then
            some (en.1, shortfallAmount * (s / coinTotal obc coinType),
              shortfallUsdValue * (s / coinTotal obc coinType))
          else none)).map (fun t => t.2.1)).sum =
        (l.map (fun en => (mget en.2 coinType).getD 0)).sum *
          (shortfallAmount / coinTotal obc coinType) := by
      intro l hl
      induction l with
      | nil => simp
      | cons en t ih =>
        have hnn0 := hl en (List.mem_cons_self en t)
        have iht := ih (fun x hx => hl x (List.mem_cons_of_mem en hx))
        by_cases hs : 0 < (mget en.2 coinType).getD 0
        · simp only [List.filterMap_cons, List.map_cons, List.sum_cons, hs, ite_true, iht]
          ring
        · have hz : (mget en.2 coinType).getD 0 = 0 := le_antisymm (not_lt.mp hs) hnn0
          simp only [List.filterMap_cons, List.map_cons, List.sum_cons, hz,
            lt_self_iff_false, ite_false, iht]
          ring
    rw [this obc hnn]
    show coinTotal obc coinType * (shortfallAmount / coinTotal obc coinType) = _
    field_simp
  · rw [coinAllocations_eq]
    have : ∀ (l : AList (AList ℚ)), (∀ en ∈ l, 0 ≤ (mget en.2 coinType).getD 0) →
        ((l.filterMap (fun en =>
          let s := (mget en.2 coinType).getD 0
          if 0 < s then
            some (en.1, shortfallAmount * (s / coinTotal obc coinType),
              shortfallUsdValue * (s / coinTotal obc coinType))
          else none)).map (fun t => t.2.2)).sum =
        (l.map (fun en => (mget en.2 coinType).getD 0)).sum *
          (shortfallUsdValue / coinTotal obc coinType) := by
      intro l hl
      induction l with
      | nil => simp
      | cons en t ih =>
        have hnn0 := hl en (List.mem_cons_self en t)
        have iht := ih (fun x hx => hl x (List.mem_cons_of_mem en hx))
        by_cases hs : 0 < (mget en.2 coinType).getD 0
        · simp only [List.filterMap_cons, List.map_cons, List.sum_cons, hs, ite_true, iht]
          ring
        · have hz : (mget en.2 coinType).getD 0 = 0 := le_antisymm (not_lt.mp hs) hnn0
          simp only [List.filterMap_cons, List.map_cons, List.sum_cons, hz,
            lt_self_iff_false, ite_false, iht]
          ring
    rw [this obc hnn]
    show coinTotal obc coinType * (shortfallUsdValue / coinTotal obc coinType) = _
    field_simp

/-- Witness for C5: shortfall 4 (worth 8 USD) split 3:1 over two creditors. -/
theorem c5_witness :
    (∀ en ∈ ([("c1", [("X", (3 : ℚ))]), ("c2", [("X", (1 : ℚ))])] : AList (AList ℚ)),
      0 ≤ (mget en.2 "X").getD 0) ∧
    0 < coinTotal [("c1", [("X", (3 : ℚ))]), ("c2", [("X", (1 : ℚ))])] "X" ∧
    ((coinAllocations [("c1", [("X", (3 : ℚ))]), ("c2", [("X", (1 : ℚ))])] "X" 4 8).map
      (fun t => t.2.1)).sum = 4 := by
  refine ⟨by decide, by decide, ?_⟩
  exact (c5_prorata_allocation
    [("c1", [("X", 3)]), ("c2", [("X", 1)])] "X" 4 8 (by decide) (by decide)).2.1

/-! ### State-observable lemmas for the propagation primitives -/

theorem sum_map_mset {α : Type} (f : String × α → ℚ) :
    ∀ (st : AList α) (k : String) (v v' : α), mget st k = some v →
      ((mset st k v').map f).sum = (st.map f).sum - f (k, v) + f (k, v') := by
  intro st
  induction st with
  | nil => intro k v v' h; simp [mget] at h
  | cons hd t ih =>
    intro k v v' h
    obtain ⟨a, b⟩ := hd
    by_cases hak : a = k
    · subst hak
      have hbv : b = v := by simpa [mget] using h
      subst hbv
      have hms : mset ((a, b) :: t) a v' = (a, v') :: t := by simp [mset]
      rw [hms, List.map_cons, List.sum_cons, List.map_cons, List.sum_cons]
      ring
    · have h' : mget t k = some v := by simpa [mget, hak] using h
      simp only [mset, if_neg hak, List.map_cons, List.sum_cons, ih k v v' h']
      ring

theorem mkeys_mset_present {α : Type} :
    ∀ (st : AList α) (k : String) (v' : α), k ∈ mkeys st →
      mkeys (mset st k v') = mkeys st := by
  intro st
  induction st with
  | nil => intro k v' h; simp [mkeys] at h
  | cons hd t ih =>
    intro k v' h
    obtain ⟨a, b⟩ := hd
    by_cases hak : a = k
    · subst hak; simp [mset, mkeys]
    · have h' : k ∈ mkeys t := by
        rcases List.mem_cons.mp h with h1 | h1
        · exact absurd h1.symm hak
        · exact h1
      simp only [mset, if_neg hak]
      show a :: mkeys (mset t k v') = a :: mkeys t
      rw [ih k v' h']

theorem detailAmountIn_updateFirst {f : ShortfallDetail → ShortfallDetail}
    (ct : String) (δ : ℚ)
    (hf1 : ∀ d, (f d).coinType = d.coinType)
    (hf2 : ∀ d, d.coinType = ct → (f d).amount = d.amount + δ) :
    ∀ dts : List ShortfallDetail,
      (dts.find? (fun d => d.coinType == ct)).isSome →
      detailAmountIn (updateFirst (fun d => d.coinType == ct) f dts) ct =
        detailAmountIn dts ct + δ := by
  intro dts
  induction dts with
  | nil => intro h; simp at h
  | cons d t ih =>
    intro h
    by_cases hd : (d.coinType == ct) = true
    · have hct : d.coinType = ct := by simpa using hd
      have hup : updateFirst (fun d => d.coinType == ct) f (d :: t) = f d :: t := by
        simp [updateFirst, hd]
      rw [hup]
      simp only [detailAmountIn, List.map_cons, List.sum_cons, hf1 d, hct,
        eq_self_iff_true, if_true, hf2 d hct]
      ring
    · have hct : ¬ d.coinType = ct := by simpa using hd
      have h' : (t.find? (fun d => d.coinType == ct)).isSome := by
        rw [List.find?_cons_of_neg _ (by simpa using hd)] at h
        exact h
      have hup : updateFirst (fun d => d.coinType == ct) f (d :: t) =
          d :: updateFirst (fun d => d.coinType == ct) f t := by
        simp [updateFirst, hd]
      rw [hup]
      simp only [detailAmountIn, List.map_cons, List.sum_cons, if_neg hct]
      have hih := ih h'
      rw [detailAmountIn, detailAmountIn] at hih
      rw [hih]
      ring

theorem entryAmountIn_updateFirst {g : EntityShortfall → EntityShortfall}
    (key ct : String) (δ : ℚ)
    (hg1 : ∀ s, (g s).owesTo = s.owesTo)
    (hg2 : ∀ s, s.owesTo = key →
      detailAmountIn (g s).shortfalls ct = detailAmountIn s.shortfalls ct + δ) :
    ∀ lst : List EntityShortfall,
      (lst.find? (fun s => s.owesTo == key)).isSome →
      entryAmountIn (updateFirst (fun s => s.owesTo == key) g lst) key ct =
        entryAmountIn lst key ct + δ := by
  intro lst
  induction lst with
  | nil => intro h; simp at h
  | cons s t ih =>
    intro h
    by_cases hs : (s.owesTo == key) = true
    · have hkey : s.owesTo = key := by simpa using hs
      have hup : updateFirst (fun s => s.owesTo == key) g (s :: t) = g s :: t := by
        simp [updateFirst, hs]
      rw [hup]
      simp only [entryAmountIn, List.map_cons, List.sum_cons, hg1 s, hkey,
        eq_self_iff_true, if_true, hg2 s hkey]
      ring
    · have hkey : ¬ s.owesTo = key := by simpa using hs
      have h' : (t.find? (fun s => s.owesTo == key)).isSome := by
        rw [List.find?_cons_of_neg _ (by simpa using hs)] at h
        exact h
      have hup : updateFirst (fun s => s.owesTo == key) g (s :: t) =
          s :: updateFirst (fun s => s.owesTo == key) g t := by
        simp [updateFirst, hs]
      rw [hup]
      simp only [entryAmountIn, List.map_cons, List.sum_cons, if_neg hkey]
      have hih := ih h'
      rw [entryAmountIn, entryAmountIn] at hih
      rw [hih]
      ring

theorem entryAmountIn_updateFirst_other {g : EntityShortfall → EntityShortfall}
    (p : EntityShortfall → Bool) (k' ct' : String)
    (h : ∀ s, p s = true → (g s).owesTo ≠ k' ∧ s.owesTo ≠ k') :
    ∀ lst : List EntityShortfall,
      entryAmountIn (updateFirst p g lst) k' ct' = entryAmountIn lst k' ct' := by
  intro lst
  induction lst with
  | nil => rfl
  | cons s t ih =>
    by_cases hs : p s = true
    · obtain ⟨h1, h2⟩ := h s hs
      have hup : updateFirst p g (s :: t) = g s :: t := by simp [updateFirst, hs]
      rw [hup]
      simp only [entryAmountIn, List.map_cons, List.sum_cons, if_neg h1, if_neg h2]
    · have hup : updateFirst p g (s :: t) = s :: updateFirst p g t := by
        simp [updateFirst, hs]
      rw [hup]
      simp only [entryAmountIn, List.map_cons, List.sum_cons]
      have hih := ih
      rw [entryAmountIn, entryAmountIn] at hih
      rw [hih]

/-- Merging a detail adds exactly the allocated amount to the coin's total. -/
theorem detailAmountIn_mergeDetail (dts : List ShortfallDetail)
    (ct : String) (amt usd : ℚ) (cb : String) :
    detailAmountIn (mergeDetail ct amt usd cb dts) ct = detailAmountIn dts ct + amt := by
  unfold mergeDetail
  cases hfind : dts.find? (fun d => d.coinType == ct) with
  | none => simp [detailAmountIn]
  | some d =>
      refine detailAmountIn_updateFirst ct amt ?_ ?_ dts ?_
      · intro d'; rfl
      · intro d' _; rfl
      · rw [hfind]; rfl

/-- Merging an entry adds exactly the allocated amount to the key's total for
that coin type. -/
theorem entryAmountIn_mergeEntry (lst : List EntityShortfall)
    (key ct : String) (amt usd : ℚ) (cb : String) :
    entryAmountIn (mergeEntry key ct amt usd cb lst) key ct =
      entryAmountIn lst key ct + amt := by
  unfold mergeEntry
  cases hfind : lst.find? (fun s => s.owesTo == key) with
  | none => simp [entryAmountIn, detailAmountIn]
  | some e =>
      refine entryAmountIn_updateFirst key ct amt ?_ ?_ lst ?_
      · intro s; rfl
      · intro s _; exact detailAmountIn_mergeDetail s.shortfalls ct amt usd cb
      · rw [hfind]; rfl

/-- Merging under one key never changes another key's totals. -/
theorem entryAmountIn_mergeEntry_ne (lst : List EntityShortfall)
    (key ct : String) (amt usd : ℚ) (cb k' ct' : String) (hne : key ≠ k') :
    entryAmountIn (mergeEntry key ct amt usd cb lst) k' ct' =
      entryAmountIn lst k' ct' := by
  unfold mergeEntry
  cases hfind : lst.find? (fun s => s.owesTo == key) with
  | none =>
      have : ¬ key = k' := hne
      simp [entryAmountIn, detailAmountIn, this]
  | some e =>
      exact entryAmountIn_updateFirst_other _ k' ct'
        (fun s hs => by
          have : s.owesTo = key := by simpa using hs
          exact ⟨by rw [this]; exact hne, by rw [this]; exact hne⟩) lst

theorem allReceivedTotal_mset (st : AList EntitySolvencyData) (k : String)
    (v v' : EntitySolvencyData) (hc : mget st k = some v) (origin ct : String) :
    allReceivedTotal (mset st k v') origin ct =
      allReceivedTotal st origin ct - entryAmountIn v.shortfallsReceived origin ct
        + entryAmountIn v'.shortfallsReceived origin ct := by
  unfold allReceivedTotal
  exact sum_map_mset _ st k v v' hc

theorem allCausedToTotal_mset (st : AList EntitySolvencyData) (k : String)
    (v v' : EntitySolvencyData) (hc : mget st k = some v) (dest ct : String) :
    allCausedToTotal (mset st k v') dest ct =
      allCausedToTotal st dest ct - entryAmountIn v.shortfallsCaused dest ct
        + entryAmountIn v'.shortfallsCaused dest ct := by
  unfold allCausedToTotal
  exact sum_map_mset _ st k v v' hc

theorem mkeys_addReceived (st : AList EntitySolvencyData)
    (cid origin ct : String) (amt usd : ℚ) :
    mkeys (addReceived st cid origin ct amt usd) = mkeys st := by
  cases hc : mget st cid with
  | none => simp [addReceived, hc]
  | some cd =>
      simp only [addReceived, hc]
      exact mkeys_mset_present st cid _ ((mget_isSome_iff st cid).mp (by rw [hc]; rfl))

theorem mkeys_addCaused (st : AList EntitySolvencyData)
    (origin cid ct : String) (amt usd : ℚ) :
    mkeys (addCaused st origin cid ct amt usd) = mkeys st := by
  cases hc : mget st origin with
  | none => simp [addCaused, hc]
  | some d =>
      simp only [addCaused, hc]
      exact mkeys_mset_present st origin _ ((mget_isSome_iff st origin).mp (by rw [hc]; rfl))

theorem mkeys_addSBC (st : AList EntitySolvencyData) (cid ct : String) (amt : ℚ) :
    mkeys (addSBC st cid ct amt) = mkeys st := by
  cases hc : mget st cid with
  | none => simp [addSBC, hc]
  | some cd =>
      by_cases hl : cd.totalLiabilities ≠ []
      · simp only [addSBC, hc, if_pos hl]
        exact mkeys_mset_present st cid _ ((mget_isSome_iff st cid).mp (by rw [hc]; rfl))
      · simp [addSBC, hc, hl]

theorem allReceivedTotal_addReceived (st : AList EntitySolvencyData)
    (cid origin ct : String) (amt usd : ℚ) :
    allReceivedTotal (addReceived st cid origin ct amt usd) origin ct =
      allReceivedTotal st origin ct + (if (mget st cid).isSome then amt else 0) := by
  cases hc : mget st cid with
  | none => simp [addReceived, hc]
  | some cd =>
      simp only [addReceived, hc, Option.isSome_some, ite_true]
      rw [allReceivedTotal_mset st cid cd _ hc origin ct]
      show allReceivedTotal st origin ct - entryAmountIn cd.shortfallsReceived origin ct
        + entryAmountIn (mergeEntry origin ct amt usd origin cd.shortfallsReceived) origin ct = _
      rw [entryAmountIn_mergeEntry]
      ring

theorem allCausedToTotal_addReceived (st : AList EntitySolvencyData)
    (cid origin ct : String) (amt usd : ℚ) (dest ct' : String) :
    allCausedToTotal (addReceived st cid origin ct amt usd) dest ct' =
      allCausedToTotal st dest ct' := by
  cases hc : mget st cid with
  | none => simp [addReceived, hc]
  | some cd =>
      simp only [addReceived, hc]
      rw [allCausedToTotal_mset st cid cd _ hc dest ct']
      show allCausedToTotal st dest ct' - entryAmountIn cd.shortfallsCaused dest ct'
        + entryAmountIn cd.shortfallsCaused dest ct' = _
      ring

theorem allReceivedTotal_addCaused (st : AList EntitySolvencyData)
    (origin cid ct : String) (amt usd : ℚ) (o' ct' : String) :
    allReceivedTotal (addCaused st origin cid ct amt usd) o' ct' =
      allReceivedTotal st o' ct' := by
  cases hc : mget st origin with
  | none => simp [addCaused, hc]
  | some d =>
      simp only [addCaused, hc]
      rw [allReceivedTotal_mset st origin d _ hc o' ct']
      show allReceivedTotal st o' ct' - entryAmountIn d.shortfallsReceived o' ct'
        + entryAmountIn d.shortfallsReceived o' ct' = _
      ring

theorem allCausedToTotal_addCaused_ne (st : AList EntitySolvencyData)
    (origin cid ct : String) (amt usd : ℚ) (X ct' : String) (hne : cid ≠ X) :
    allCausedToTotal (addCaused st origin cid ct amt usd) X ct' =
      allCausedToTotal st X ct' := by
  cases hc : mget st origin with
  | none => simp [addCaused, hc]
  | some d =>
      simp only [addCaused, hc]
      rw [allCausedToTotal_mset st origin d _ hc X ct']
      show allCausedToTotal st X ct' - entryAmountIn d.shortfallsCaused X ct'
        + entryAmountIn (mergeEntry cid ct amt usd origin d.shortfallsCaused) X ct' = _
      rw [entryAmountIn_mergeEntry_ne _ _ _ _ _ _ _ _ hne]
      ring

theorem allReceivedTotal_addSBC (st : AList EntitySolvencyData)
    (cid ct : String) (amt : ℚ) (o' ct' : String) :
    allReceivedTotal (addSBC st cid ct amt) o' ct' = allReceivedTotal st o' ct' := by
  cases hc : mget st cid with
  | none => simp [addSBC, hc]
  | some cd =>
      by_cases hl : cd.totalLiabilities ≠ []
      · simp only [addSBC, hc, if_pos hl]
        rw [allReceivedTotal_mset st cid cd _ hc o' ct']
        show allReceivedTotal st o' ct' - entryAmountIn cd.shortfallsReceived o' ct'
          + entryAmountIn cd.shortfallsReceived o' ct' = _
        ring
      · simp [addSBC, hc, hl]

theorem allCausedToTotal_addSBC (st : AList EntitySolvencyData)
    (cid ct : String) (amt : ℚ) (dest ct' : String) :
    allCausedToTotal (addSBC st cid ct amt) dest ct' = allCausedToTotal st dest ct' := by
  cases hc : mget st cid with
  | none => simp [addSBC, hc]
  | some cd =>
      by_cases hl : cd.totalLiabilities ≠ []
      · simp only [addSBC, hc, if_pos hl]
        rw [allCausedToTotal_mset st cid cd _ hc dest ct']
        show allCausedToTotal st dest ct' - entryAmountIn cd.shortfallsCaused dest ct'
          + entryAmountIn cd.shortfallsCaused dest ct' = _
        ring
      · simp [addSBC, hc, hl]

theorem applyAllocation_absent (origin ct : String) (st : AList EntitySolvencyData)
    (alloc : String × ℚ × ℚ) (h : mget st alloc.1 = none) :
    applyAllocation origin ct st alloc = st := by
  simp [applyAllocation, h]

theorem mkeys_applyAllocation (origin ct : String) (st : AList EntitySolvencyData)
    (alloc : String × ℚ × ℚ) :
    mkeys (applyAllocation origin ct st alloc) = mkeys st := by
  cases h : mget st alloc.1 with
  | none => rw [applyAllocation_absent origin ct st alloc h]
  | some cd =>
      simp only [applyAllocation, h]
      rw [mkeys_addSBC, mkeys_addCaused, mkeys_addReceived]

theorem allReceivedTotal_applyAllocation (origin ct : String)
    (st : AList EntitySolvencyData) (alloc : String × ℚ × ℚ) :
    allReceivedTotal (applyAllocation origin ct st alloc) origin ct =
      allReceivedTotal st origin ct +
        (if alloc.1 ∈ mkeys st then alloc.2.1 else 0) := by
  cases h : mget st alloc.1 with
  | none =>
      rw [applyAllocation_absent origin ct st alloc h]
      rw [if_neg (by rw [← mget_eq_none_iff]; exact h)]
      ring
  | some cd =>
      simp only [applyAllocation, h]
      rw [allReceivedTotal_addSBC, allReceivedTotal_addCaused,
        allReceivedTotal_addReceived, h]
      rw [if_pos ((mget_isSome_iff st alloc.1).mp (by rw [h]; rfl))]
      rfl

theorem allCausedToTotal_applyAllocation_ne (origin ct : String)
    (st : AList EntitySolvencyData) (alloc : String × ℚ × ℚ) (X ct' : String)
    (hne : alloc.1 ≠ X) :
    allCausedToTotal (applyAllocation origin ct st alloc) X ct' =
      allCausedToTotal st X ct' := by
  cases h : mget st alloc.1 with
  | none => rw [applyAllocation_absent origin ct st alloc h]
  | some cd =>
      simp only [applyAllocation, h]
      rw [allCausedToTotal_addSBC, allCausedToTotal_addCaused_ne _ _ _ _ _ _ _ _ hne,
        allCausedToTotal_addReceived]

theorem mkeys_foldAllocs (origin ct : String) :
    ∀ (allocs : List (String × ℚ × ℚ)) (st : AList EntitySolvencyData),
      mkeys (allocs.foldl (applyAllocation origin ct) st) = mkeys st := by
  intro allocs
  induction allocs with
  | nil => intro st; rfl
  | cons a t ih =>
    intro st
    rw [List.foldl_cons, ih, mkeys_applyAllocation]

theorem allReceivedTotal_foldAllocs (origin ct : String) :
    ∀ (allocs : List (String × ℚ × ℚ)) (st : AList EntitySolvencyData),
      allReceivedTotal (allocs.foldl (applyAllocation origin ct) st) origin ct =
        allReceivedTotal st origin ct +
          (allocs.map (fun a => if a.1 ∈ mkeys st then a.2.1 else 0)).sum := by
  intro allocs
  induction allocs with
  | nil => intro st; simp
  | cons a t ih =>
    intro st
    rw [List.foldl_cons, ih, allReceivedTotal_applyAllocation,
      List.map_cons, List.sum_cons]
    have hk : mkeys (applyAllocation origin ct st a) = mkeys st :=
      mkeys_applyAllocation origin ct st a
    have : (t.map (fun a' => if a'.1 ∈ mkeys (applyAllocation origin ct st a)
        then a'.2.1 else 0)) = t.map (fun a' => if a'.1 ∈ mkeys st then a'.2.1 else 0) := by
      apply List.map_congr_left
      intro a' _
      rw [hk]
    rw [this]
    ring

theorem allCausedToTotal_foldAllocs_ne (origin ct X ct' : String) :
    ∀ (allocs : List (String × ℚ × ℚ)) (st : AList EntitySolvencyData),
      mget st X = none →
      allCausedToTotal (allocs.foldl (applyAllocation origin ct) st) X ct' =
        allCausedToTotal st X ct' := by
  intro allocs
  induction allocs with
  | nil => intro st _; rfl
  | cons a t ih =>
    intro st habs
    rw [List.foldl_cons]
    have habs' : mget (applyAllocation origin ct st a) X = none := by
      rw [mget_eq_none_iff, mkeys_applyAllocation]
      rw [mget_eq_none_iff] at habs
      exact habs
    rw [ih _ habs']
    by_cases hne : a.1 = X
    · rw [applyAllocation_absent origin ct st a (hne ▸ habs)]
    · rw [allCausedToTotal_applyAllocation_ne origin ct st a X ct' hne]

theorem sum_map_ite_lt {γ : Type} (q : γ → Prop) [DecidablePred q] (v : γ → ℚ) :
    ∀ L : List γ, (∀ x ∈ L, 0 ≤ v x) → (∃ x ∈ L, ¬ q x ∧ 0 < v x) →
      (L.map (fun x => if q x then v x else 0)).sum < (L.map v).sum := by
  have hle : ∀ L : List γ, (∀ x ∈ L, 0 ≤ v x) →
      (L.map (fun x => if q x then v x else 0)).sum ≤ (L.map v).sum := by
    intro L hv
    induction L with
    | nil => simp
    | cons x t ih =>
      rw [List.map_cons, List.sum_cons, List.map_cons, List.sum_cons]
      have h1 : (if q x then v x else 0) ≤ v x := by
        split
        · exact le_refl _
        · exact hv x (List.mem_cons_self x t)
      exact add_le_add h1 (ih (fun y hy => hv y (List.mem_cons_of_mem x hy)))
  intro L
  induction L with
  | nil => rintro _ ⟨x, hx, _⟩; exact absurd hx (List.not_mem_nil x)
  | cons x t ih =>
    rintro hv ⟨y, hy, hqy, hvy⟩
    rw [List.map_cons, List.sum_cons, List.map_cons, List.sum_cons]
    rcases List.mem_cons.mp hy with rfl | hyt
    · have h1 : (if q y then v y else 0) = 0 := by rw [if_neg hqy]
      rw [h1]
      have h2 := hle t (fun z hz => hv z (List.mem_cons_of_mem y hz))
      linarith
    · have h1 : (if q x then v x else 0) ≤ v x := by
        split
        · exact le_refl _
        · exact hv x (List.mem_cons_self x t)
      have h2 := ih (fun z hz => hv z (List.mem_cons_of_mem x hz)) ⟨y, hyt, hqy, hvy⟩
      linarith

/-- C10: when a shortfall-bearing entity has an obligation to a creditor id
absent from the state, the allocation to that creditor is silently dropped —
no record appears for it, nothing is recorded as caused toward it — while its
obligation amount still inflates the pro-rata denominator, so the received
allocations actually recorded sum to strictly less than the distributed
per-type shortfall. -/
theorem c10_missing_creditor (prices : Prices) (st : AList EntitySolvencyData)
    (entityId X coinType : String) (amt p : ℚ) (obc : AList (AList ℚ))
    (hp : prices coinType = some p)
    (hnn : ∀ en ∈ obc, 0 ≤ (mget en.2 coinType).getD 0)
    (hS : 0 < coinTotal obc coinType)
    (hamt : 0 < amt)
    (hX : ∃ en ∈ obc, en.1 = X ∧ 0 < (mget en.2 coinType).getD 0)
    (habs : mget st X = none) :
    mkeys (processCoinShortfall entityId obc prices st (coinType, amt)) = mkeys st ∧
    allCausedToTotal (processCoinShortfall entityId obc prices st (coinType, amt))
      X coinType = allCausedToTotal st X coinType ∧
    allReceivedTotal (processCoinShortfall entityId obc prices st (coinType, amt))
      entityId coinType < allReceivedTotal st entityId coinType + amt := by
  have hred : processCoinShortfall entityId obc prices st (coinType, amt) =
      (coinAllocations obc coinType amt (amt * p)).foldl
        (applyAllocation entityId coinType) st := by
    simp [processCoinShortfall, hS, hp]
  refine ⟨?_, ?_, ?_⟩
  · rw [hred, mkeys_foldAllocs]
  · rw [hred, allCausedToTotal_foldAllocs_ne _ _ _ _ _ _ habs]
  · rw [hred, allReceivedTotal_foldAllocs]
    have hsum := (c5_prorata_allocation obc coinType amt (amt * p) hnn hS).2.1
    have hvpos : ∀ a ∈ coinAllocations obc coinType amt (amt * p), 0 ≤ a.2.1 := by
      intro a ha
      rw [coinAllocations_eq] at ha
      rcases List.mem_filterMap.mp ha with ⟨en, _, hgen⟩
      by_cases hs : 0 < (mget en.2 coinType).getD 0
      · simp only [hs, ite_true] at hgen
        cases hgen
        show 0 ≤ amt * ((mget en.2 coinType).getD 0 / coinTotal obc coinType)
        positivity
      · simp only [hs, ite_false] at hgen
        cases hgen
    have hex : ∃ a ∈ coinAllocations obc coinType amt (amt * p),
        ¬ a.1 ∈ mkeys st ∧ 0 < a.2.1 := by
      obtain ⟨en, hen, henX, hs⟩ := hX
      have hmem := (c5_prorata_allocation obc coinType amt (amt * p) hnn hS).1 en hen hs
      refine ⟨_, hmem, ?_, ?_⟩
      · show ¬ en.1 ∈ mkeys st
        rw [henX, ← mget_eq_none_iff] at *
        exact habs
      · show 0 < amt * ((mget en.2 coinType).getD 0 / coinTotal obc coinType)
        positivity
    have hlt := sum_map_ite_lt (fun a : String × ℚ × ℚ => a.1 ∈ mkeys st)
      (fun a => a.2.1) (coinAllocations obc coinType amt (amt * p)) hvpos hex
    rw [hsum] at hlt
    linarith

/-- Witness for C10: a 2-unit shortfall split 1:1 between a present creditor
`c1` and an absent creditor `X`; only 1 is recorded. -/
theorem c10_witness :
    mget c10State "X" = none ∧
    allReceivedTotal (processCoinShortfall "e" c10Obc chainPrices c10State ("USDC", 2))
      "e" "USDC" < allReceivedTotal c10State "e" "USDC" + 2 := by
  refine ⟨rfl, ?_⟩
  exact (c10_missing_creditor chainPrices c10State "e" "X" "USDC" 2 1 c10Obc rfl
    (by decide) (by decide) (by decide) (by decide) rfl).2.2

/-! ### Except-fold lemmas -/

theorem foldlM_except_nil {σ α : Type} (f : σ → α → Except String σ) (b : σ) :
    ([] : List α).foldlM f b = .ok b := rfl

theorem foldlM_except_cons_error {σ α : Type} (f : σ → α → Except String σ)
    (a : α) (l : List α) (b : σ) (m : String) (h : f b a = .error m) :
    (a :: l).foldlM f b = .error m := by
  show f b a >>= _ = _
  rw [h]
  rfl

theorem foldlM_except_cons_ok {σ α : Type} (f : σ → α → Except String σ)
    (a : α) (l : List α) (b b' : σ) (h : f b a = .ok b') :
    (a :: l).foldlM f b = l.foldlM f b' := by
  show f b a >>= _ = _
  rw [h]
  rfl

theorem foldlM_error_iff {σ α : Type} (f : σ → α → Except String σ) (Bad : α → Prop)
    (hf : ∀ acc a, (∃ m, f acc a = .error m) ↔ Bad a) :
    ∀ (l : List α) (acc : σ),
      (∃ m, l.foldlM f acc = .error m) ↔ ∃ a ∈ l, Bad a := by
  intro l
  induction l with
  | nil =>
    intro acc
    rw [foldlM_except_nil]
    simp
  | cons a t ih =>
    intro acc
    cases hf' : f acc a with
    | error m =>
      rw [foldlM_except_cons_error f a t acc m hf']
      constructor
      · intro _; exact ⟨a, List.mem_cons_self a t, (hf acc a).mp ⟨m, hf'⟩⟩
      · intro _; exact ⟨m, rfl⟩
    | ok acc' =>
      rw [foldlM_except_cons_ok f a t acc acc' hf', ih acc']
      have hna : ¬ Bad a := by
        intro hb
        rcases (hf acc a).mpr hb with ⟨m, hm⟩
        rw [hf'] at hm
        cases hm
      constructor
      · rintro ⟨x, hx, hbx⟩; exact ⟨x, List.mem_cons_of_mem a hx, hbx⟩
      · rintro ⟨x, hx, hbx⟩
        rcases List.mem_cons.mp hx with rfl | hxt
        · exact absurd hbx hna
        · exact ⟨x, hxt, hbx⟩

theorem foldlM_ok_invariant {σ α : Type} (f : σ → α → Except String σ) (P : σ → Prop) :
    ∀ (l : List α), (∀ acc a acc', a ∈ l → f acc a = .ok acc' → P acc → P acc') →
      ∀ (acc acc' : σ), l.foldlM f acc = .ok acc' → P acc → P acc' := by
  intro l
  induction l with
  | nil =>
    intro _ acc acc' h hP
    rw [foldlM_except_nil] at h
    cases h
    exact hP
  | cons a t ih =>
    intro hstep acc acc' h hP
    cases hf' : f acc a with
    | error m => rw [foldlM_except_cons_error _ _ _ _ _ hf'] at h; cases h
    | ok acc1 =>
      rw [foldlM_except_cons_ok _ _ _ _ _ hf'] at h
      exact ih (fun b x b' hx => hstep b x b' (List.mem_cons_of_mem a hx)) acc1 acc' h
        (hstep acc a acc1 (List.mem_cons_self a t) hf' hP)

theorem foldlM_total {σ α : Type} (f : σ → α → Except String σ) :
    ∀ (l : List α), (∀ acc a, a ∈ l → ∃ acc', f acc a = .ok acc') →
      ∀ acc : σ, ∃ res, l.foldlM f acc = .ok res := by
  intro l
  induction l with
  | nil => intro _ acc; exact ⟨acc, rfl⟩
  | cons a t ih =>
    intro h acc
    obtain ⟨acc1, h1⟩ := h acc a (List.mem_cons_self a t)
    obtain ⟨res, h2⟩ := ih (fun b x hx => h b x (List.mem_cons_of_mem a hx)) acc1
    exact ⟨res, by rw [foldlM_except_cons_ok _ _ _ _ _ h1]; exact h2⟩

/-! ### First-pass error characterization (C7) -/

theorem flattenStep_error_iff (prices : Prices) (acc : List ObligationDetail)
    (ob : Obligation) :
    (∃ m, flattenStep prices acc ob = .error m) ↔ MissingObPrice prices ob := by
  obtain ⟨obFrom, obTo, asset⟩ := ob
  cases asset with
  | coin c amt =>
      cases hp : prices c.typeName with
      | none => simp [flattenStep, MissingObPrice, hp]
      | some p => simp [flattenStep, MissingObPrice, hp]
  | lp cA cB aA aB =>
      cases hpA : prices cA.typeName with
      | none => simp [flattenStep, MissingObPrice, hpA]
      | some pA =>
          cases hpB : prices cB.typeName with
          | none => simp [flattenStep, MissingObPrice, hpA, hpB]
          | some pB => simp [flattenStep, MissingObPrice, hpA, hpB]

theorem flattenObligations_error_iff (prices : Prices) (e : Entity) :
    (∃ m, flattenObligations prices e = .error m) ↔
      ∃ ob ∈ e.obligations, MissingObPrice prices ob :=
  foldlM_error_iff (flattenStep prices) (MissingObPrice prices)
    (flattenStep_error_iff prices) e.obligations []

theorem assetsUsdStep_error_iff (prices : Prices) (acc : ℚ) (entry : String × Amount) :
    (∃ m, assetsUsdStep prices acc entry = .error m) ↔ prices entry.1 = none := by
  cases hp : prices entry.1 with
  | none => simp [assetsUsdStep, hp]
  | some p => simp [assetsUsdStep, hp]

theorem assetsUsd_error_iff (prices : Prices) (ta : AList Amount) :
    (∃ m, assetsUsd prices ta = .error m) ↔ ∃ en ∈ ta, prices en.1 = none :=
  foldlM_error_iff (assetsUsdStep prices) (fun en => prices en.1 = none)
    (assetsUsdStep_error_iff prices) ta 0

/-- Every line produced by a successful flattening has a present price and,
when the entity's obligation amounts are non-negative, a non-negative raw
amount. -/
theorem flatten_lines_good (prices : Prices) (e : Entity)
    (obs : List ObligationDetail) (hok : flattenObligations prices e = .ok obs)
    (hnn : ∀ ob ∈ e.obligations, NonnegAsset ob.asset) :
    ∀ od ∈ obs, (∃ p, prices od.coinType = some p) ∧ 0 ≤ od.amount.int := by
  refine foldlM_ok_invariant (flattenStep prices)
    (fun acc => ∀ od ∈ acc, (∃ p, prices od.coinType = some p) ∧ 0 ≤ od.amount.int)
    e.obligations ?_ [] obs hok (by intro od h; exact absurd h (List.not_mem_nil od))
  intro acc ob acc' hmem hstep hacc
  have hnnob := hnn ob hmem
  obtain ⟨obFrom, obTo, asset⟩ := ob
  cases asset with
  | coin c amt =>
      cases hp : prices c.typeName with
      | none => simp [flattenStep, hp] at hstep
      | some p =>
          simp only [flattenStep, hp, Except.ok.injEq] at hstep
          subst hstep
          intro od hod
          rcases List.mem_append.mp hod with h | h
          · exact hacc od h
          · rcases List.mem_singleton.mp h with rfl
            exact ⟨⟨p, hp⟩, hnnob⟩
  | lp cA cB aA aB =>
      cases hpA : prices cA.typeName with
      | none => simp [flattenStep, hpA] at hstep
      | some pA =>
          cases hpB : prices cB.typeName with
          | none => simp [flattenStep, hpA, hpB] at hstep
          | some pB =>
              simp only [flattenStep, hpA, hpB, Except.ok.injEq] at hstep
              subst hstep
              intro od hod
              rcases List.mem_append.mp hod with h | h
              · exact hacc od h
              · rcases List.mem_cons.mp h with rfl | h
                · exact ⟨⟨pA, hpA⟩, hnnob.1⟩
                · rcases List.mem_singleton.mp h with rfl
                  exact ⟨⟨pB, hpB⟩, hnnob.2⟩

/-- A successful asset valuation means every aggregated coin type is priced. -/
theorem assetsUsd_ok_prices (prices : Prices) (ta : AList Amount) (q : ℚ)
    (hok : assetsUsd prices ta = .ok q) :
    ∀ k ∈ mkeys ta, ∃ p, prices k = some p := by
  intro k hk
  rcases List.mem_map.mp hk with ⟨en, hen, rfl⟩
  cases hp : prices en.1 with
  | some p => exact ⟨p, rfl⟩
  | none =>
      exfalso
      rcases (assetsUsd_error_iff prices ta).mpr ⟨en, hen, hp⟩ with ⟨m, hm⟩
      rw [hok] at hm
      cases hm

/-- Every key of the grouped obligations comes from some obligation line, and
every line in a group belongs to the original list with the group's key. -/
theorem obligationsByCoin_groups_sound (obs : List ObligationDetail) :
    ∀ g ∈ obligationsByCoin obs,
      (∃ od ∈ obs, od.coinType = g.1) ∧ ∀ od ∈ g.2, od ∈ obs ∧ od.coinType = g.1 := by
  suffices h : ∀ (l : List ObligationDetail) (acc : AList (List ObligationDetail)),
      (∀ g ∈ acc,
        (∃ od ∈ obs, od.coinType = g.1) ∧ ∀ od ∈ g.2, od ∈ obs ∧ od.coinType = g.1) →
      (∀ od ∈ l, od ∈ obs) →
      ∀ g ∈ l.foldl obligationsByCoinStep acc,
        (∃ od ∈ obs, od.coinType = g.1) ∧ ∀ od ∈ g.2, od ∈ obs ∧ od.coinType = g.1 by
    intro g hg
    exact h obs [] (by intro g hg; exact absurd hg (List.not_mem_nil g))
      (fun od hod => hod) g hg
  intro l
  induction l with
  | nil => intro acc hacc _ g hg; exact hacc g hg
  | cons od0 t ih =>
    intro acc hacc hsub g hg
    rw [List.foldl_cons] at hg
    refine ih (obligationsByCoinStep acc od0) ?_
      (fun od hod => hsub od (List.mem_cons_of_mem od0 hod)) g hg
    intro g' hg'
    have hod0 : od0 ∈ obs := hsub od0 (List.mem_cons_self od0 t)
    unfold obligationsByCoinStep at hg'
    cases hmg : mget acc od0.coinType with
    | some list =>
        rw [hmg] at hg'
        rcases mem_mset_cases acc od0.coinType (list ++ [od0]) g' hg' with h | ⟨h1, h2⟩
        · exact hacc g' h
        · obtain ⟨g1, g2⟩ := g'
          dsimp only at h1 h2
          subst h1
          subst h2
          refine ⟨⟨od0, hod0, rfl⟩, ?_⟩
          intro od hod
          rcases List.mem_append.mp hod with h | h
          · have hmem : (od0.coinType, list) ∈ acc := mget_mem acc od0.coinType list hmg
            exact (hacc (od0.coinType, list) hmem).2 od h
          · rcases List.mem_singleton.mp h with rfl
            exact ⟨hod0, rfl⟩
    | none =>
        rw [hmg] at hg'
        rcases mem_mset_cases acc od0.coinType [od0] g' hg' with h | ⟨h1, h2⟩
        · exact hacc g' h
        · obtain ⟨g1, g2⟩ := g'
          dsimp only at h1 h2
          subst h1
          subst h2
          refine ⟨⟨od0, hod0, rfl⟩, ?_⟩
          intro od hod
          rcases List.mem_singleton.mp hod with rfl
          exact ⟨hod0, rfl⟩

theorem mkeys_mdel_sub {α : Type} :
    ∀ (m : AList α) (k k' : String), k ∈ mkeys (mdel m k') → k ∈ mkeys m := by
  intro m
  induction m with
  | nil => intro k k' h; simp [mdel, mkeys] at h
  | cons hd t ih =>
    intro k k' h
    obtain ⟨a, b⟩ := hd
    by_cases hak : a = k'
    · subst hak
      rw [show mdel ((a, b) :: t) a = t by simp [mdel]] at h
      exact List.mem_cons_of_mem _ h
    · rw [show mdel ((a, b) :: t) k' = (a, b) :: mdel t k' by simp [mdel, hak]] at h
      rcases List.mem_cons.mp h with rfl | h'
      · exact List.mem_cons_self _ _
      · exact List.mem_cons_of_mem _ (ih k k' h')

theorem mkeys_map_pair {α β : Type} (l : AList α) (f : String × α → β) :
    mkeys (l.map (fun en => (en.1, f en))) = mkeys l := by
  simp [mkeys, List.map_map]

/-! ### Netting-step characterization -/

theorem nettingStep_covered_pos (prices : Prices) (obligations : List ObligationDetail)
    (st : NettingState) (ct : String) (grp : List ObligationDetail)
    (hcov : (grp.map (fun o => o.amount.int)).sum ≤ (mget st.remainingByCoin ct).getD 0)
    (hrest : 0 < (mget st.remainingByCoin ct).getD 0 - (grp.map (fun o => o.amount.int)).sum) :
    nettingStep prices obligations st (ct, grp) =
      .ok { st with remainingByCoin := mset st.remainingByCoin ct ((mget st.remainingByCoin ct).getD 0 - (grp.map (fun o => o.amount.int)).sum) } := by
  simp [nettingStep, hcov, hrest]

theorem nettingStep_covered_zero (prices : Prices) (obligations : List ObligationDetail)
    (st : NettingState) (ct : String) (grp : List ObligationDetail)
    (hcov : (grp.map (fun o => o.amount.int)).sum ≤ (mget st.remainingByCoin ct).getD 0)
    (hrest : ¬ 0 < (mget st.remainingByCoin ct).getD 0 - (grp.map (fun o => o.amount.int)).sum) :
    nettingStep prices obligations st (ct, grp) =
      .ok { st with remainingByCoin := mdel st.remainingByCoin ct } := by
  simp [nettingStep, hcov, hrest]

theorem nettingStep_uncovered_found (prices : Prices) (obligations : List ObligationDetail)
    (st : NettingState) (ct : String) (grp : List ObligationDetail) (p : ℚ)
    (obligation : ObligationDetail)
    (hcov : ¬ (grp.map (fun o => o.amount.int)).sum ≤ (mget st.remainingByCoin ct).getD 0)
    (hp : prices ct = some p)
    (hfind : obligations.find? (fun ob => ob.coinType == ct) = some obligation) :
    nettingStep prices obligations st (ct, grp) =
      .ok { remainingByCoin := mdel st.remainingByCoin ct, remainingLiabilitiesUsd := st.remainingLiabilitiesUsd + (Amount.fromInt ((grp.map (fun o => o.amount.int)).sum - (mget st.remainingByCoin ct).getD 0) obligation.amount.decimals).toQ * p, shortfallUsdByCoin := mset st.shortfallUsdByCoin ct ((Amount.fromInt ((grp.map (fun o => o.amount.int)).sum - (mget st.remainingByCoin ct).getD 0) obligation.amount.decimals).toQ * p) } := by
  simp [nettingStep, hcov, hp, hfind]

theorem nettingStep_uncovered_notfound (prices : Prices) (obligations : List ObligationDetail)
    (st : NettingState) (ct : String) (grp : List ObligationDetail) (p : ℚ)
    (hcov : ¬ (grp.map (fun o => o.amount.int)).sum ≤ (mget st.remainingByCoin ct).getD 0)
    (hp : prices ct = some p)
    (hfind : obligations.find? (fun ob => ob.coinType == ct) = none) :
    nettingStep prices obligations st (ct, grp) =
      .ok { st with remainingByCoin := mdel st.remainingByCoin ct } := by
  simp [nettingStep, hcov, hp, hfind]

/-- With priced and non-negative obligation lines the netting loop succeeds,
its remaining-asset keys stay inside the initial keys, and every key of its
per-coin shortfall map is priced. -/
theorem netting_ok_keys (prices : Prices) (obs : List ObligationDetail)
    (remaining0 : AList ℤ)
    (hlines : ∀ od ∈ obs, (∃ p, prices od.coinType = some p) ∧ 0 ≤ od.amount.int) :
    ∃ nst, netting prices obs remaining0 = .ok nst ∧
      (∀ k ∈ mkeys nst.remainingByCoin, k ∈ mkeys remaining0) ∧
      (∀ k ∈ mkeys nst.shortfallUsdByCoin, ∃ p, prices k = some p) := by
  have hgroups := obligationsByCoin_groups_sound obs
  have hstep_ok : ∀ (st : NettingState) (g : String × List ObligationDetail),
      g ∈ obligationsByCoin obs → ∃ st', nettingStep prices obs st g = .ok st' := by
    intro st g hg
    obtain ⟨ct, grp⟩ := g
    by_cases hcov : (grp.map (fun o => o.amount.int)).sum ≤
        (mget st.remainingByCoin ct).getD 0
    · by_cases hrest : 0 < (mget st.remainingByCoin ct).getD 0 -
          (grp.map (fun o => o.amount.int)).sum
      · exact ⟨_, nettingStep_covered_pos prices obs st ct grp hcov hrest⟩
      · exact ⟨_, nettingStep_covered_zero prices obs st ct grp hcov hrest⟩
    · obtain ⟨⟨od, hod, hct⟩, _⟩ := hgroups (ct, grp) hg
      obtain ⟨p, hp⟩ := (hlines od hod).1
      rw [hct] at hp
      cases hfind : obs.find? (fun ob => ob.coinType == ct) with
      | some obligation =>
          exact ⟨_, nettingStep_uncovered_found prices obs st ct grp p obligation
            hcov hp hfind⟩
      | none =>
          exact ⟨_, nettingStep_uncovered_notfound prices obs st ct grp p hcov hp hfind⟩
  obtain ⟨nst, hnst⟩ := foldlM_total (nettingStep prices obs) (obligationsByCoin obs)
    (fun st g hg => hstep_ok st g hg) ⟨remaining0, 0, []⟩
  refine ⟨nst, hnst, ?_⟩
  have hinv := foldlM_ok_invariant (nettingStep prices obs)
    (fun st => (∀ k ∈ mkeys st.remainingByCoin, k ∈ mkeys remaining0) ∧
      (∀ k ∈ mkeys st.shortfallUsdByCoin, ∃ p, prices k = some p))
    (obligationsByCoin obs) ?_ ⟨remaining0, 0, []⟩ nst hnst
    ⟨fun k hk => hk, by intro k hk; simp [mkeys] at hk⟩
  · exact hinv
  · intro st g st' hg hstep hP
    obtain ⟨ct, grp⟩ := g
    by_cases hcov : (grp.map (fun o => o.amount.int)).sum ≤
        (mget st.remainingByCoin ct).getD 0
    · by_cases hrest : 0 < (mget st.remainingByCoin ct).getD 0 -
          (grp.map (fun o => o.amount.int)).sum
      · rw [nettingStep_covered_pos prices obs st ct grp hcov hrest] at hstep
        cases hstep
        refine ⟨?_, hP.2⟩
        intro k hk
        rcases (mem_mkeys_mset st.remainingByCoin ct k _).mp hk with heq | hk'
        · subst heq
          have hnn : 0 ≤ (grp.map (fun o => o.amount.int)).sum := by
            apply List.sum_nonneg
            intro x hx
            rcases List.mem_map.mp hx with ⟨od, hod, rfl⟩
            exact (hlines od ((hgroups (k, grp) hg).2 od hod).1).2
          have hpos : 0 < (mget st.remainingByCoin k).getD 0 := by omega
          have hsome : (mget st.remainingByCoin k).isSome := by
            cases hmk : mget st.remainingByCoin k with
            | none => rw [hmk] at hpos; simp at hpos
            | some v => rfl
          exact hP.1 k ((mget_isSome_iff _ _).mp hsome)
        · exact hP.1 k hk'
      · rw [nettingStep_covered_zero prices obs st ct grp hcov hrest] at hstep
        cases hstep
        exact ⟨fun k hk => hP.1 k (mkeys_mdel_sub _ k ct hk), hP.2⟩
    · obtain ⟨⟨od, hod, hct⟩, _⟩ := hgroups (ct, grp) hg
      obtain ⟨p, hp⟩ := (hlines od hod).1
      rw [hct] at hp
      cases hfind : obs.find? (fun ob => ob.coinType == ct) with
      | some obligation =>
          rw [nettingStep_uncovered_found prices obs st ct grp p obligation
            hcov hp hfind] at hstep
          cases hstep
          refine ⟨fun k hk => hP.1 k (mkeys_mdel_sub _ k ct hk), ?_⟩
          intro k hk
          rcases (mem_mkeys_mset st.shortfallUsdByCoin ct k _).mp hk with rfl | hk'
          · exact ⟨p, hp⟩
          · exact hP.2 k hk'
      | none =>
          rw [nettingStep_uncovered_notfound prices obs st ct grp p hcov hp hfind] at hstep
          cases hstep
          exact ⟨fun k hk => hP.1 k (mkeys_mdel_sub _ k ct hk), hP.2⟩

/-- With priced keys the leftover-asset valuation succeeds. -/
theorem remainingAssetsUsd_ok (prices : Prices) (ta : AList Amount)
    (remaining : AList ℤ)
    (hks : ∀ k ∈ mkeys remaining, ∃ p, prices k = some p) :
    ∃ q, remainingAssetsUsd prices ta remaining = .ok q := by
  apply foldlM_total
  intro acc en hen
  obtain ⟨p, hp⟩ := hks en.1 (List.mem_map_of_mem _ hen)
  cases hmt : mget ta en.1 with
  | some a =>
      exact ⟨acc + (Amount.fromInt en.2 a.decimals).toQ * p,
        by simp [remainingAssetsUsdStep, hp, hmt]⟩
  | none => exact ⟨acc, by simp [remainingAssetsUsdStep, hp, hmt]⟩

/-- With priced keys the swapped-repayment report succeeds. -/
theorem swapRepayments_ok (prices : Prices) (swapUsedUsd : ℚ) (sfu : AList ℚ)
    (hks : ∀ k ∈ mkeys sfu, ∃ p, prices k = some p) :
    ∃ reps, swapRepayments prices swapUsedUsd sfu = .ok reps := by
  unfold swapRepayments
  split
  · apply foldlM_total
    intro acc en hen
    obtain ⟨p, hp⟩ := hks en.1 (List.mem_map_of_mem _ hen)
    exact ⟨acc ++ [⟨en.1, swapUsedUsd * (en.2 / ((sfu.map (fun x => x.2)).sum)) / p⟩],
      by simp [swapRepaymentStep, hp]⟩
  · exact ⟨[], rfl⟩

/-- With priced remaining-asset keys and priced shortfall keys the whole swap
step succeeds. -/
theorem swapStep_ok (prices : Prices) (ta : AList Amount) (nst : NettingState)
    (hrem : ∀ k ∈ mkeys nst.remainingByCoin, ∃ p, prices k = some p)
    (hsfu : ∀ k ∈ mkeys nst.shortfallUsdByCoin, ∃ p, prices k = some p) :
    ∃ sw, swapStep prices ta nst = .ok sw := by
  obtain ⟨q, hq⟩ := remainingAssetsUsd_ok prices ta nst.remainingByCoin hrem
  obtain ⟨reps, hreps⟩ := swapRepayments_ok prices
    (min q nst.remainingLiabilitiesUsd) nst.shortfallUsdByCoin hsfu
  unfold swapStep
  split
  · simp only [hq, hreps]
    exact ⟨_, rfl⟩
  · exact ⟨_, rfl⟩

/-- C7 (counterexample): an entity that merely *holds* a coin with no price —
no obligation references it and it has no deficit — still makes the first pass
throw, where the claim says the first pass completes. -/
theorem c7_counterexample_held_asset_throws :
    computeEntityData [c7HoldEntity] noPrices c7HoldEntity =
      Except.error "Price not found for coin type: \"X\"" := by
  rfl

/-- C7 (amended): the first pass fails with a pricing error exactly when a
price is missing for an asset type referenced by an outbound obligation or by
any aggregated asset — held or inbound, with or without a deficit; otherwise
it completes. -/
theorem c7_first_pass_error_iff (entities : List Entity) (prices : Prices)
    (e : Entity) (hnn : NonnegAmounts entities) (he : e ∈ entities) :
    (∃ msg, computeEntityData entities prices e = Except.error msg) ↔
      (∃ ob ∈ e.obligations, MissingObPrice prices ob) ∨
      (∃ ct ∈ mkeys (aggregateAssets entities e), prices ct = none) := by
  constructor
  · rintro ⟨msg, hmsg⟩
    unfold computeEntityData at hmsg
    cases hfl : flattenObligations prices e with
    | error m => exact Or.inl ((flattenObligations_error_iff prices e).mp ⟨m, hfl⟩)
    | ok obs =>
      simp only [hfl] at hmsg
      cases hau : assetsUsd prices (aggregateAssets entities e) with
      | error m =>
          rcases (assetsUsd_error_iff prices _).mp ⟨m, hau⟩ with ⟨en, hen, hp⟩
          exact Or.inr ⟨en.1, List.mem_map_of_mem _ hen, hp⟩
      | ok q =>
          simp only [hau] at hmsg
          exfalso
          have hlines := flatten_lines_good prices e obs hfl (hnn e he).2
          obtain ⟨nst, hnst, hkeys, hsfu⟩ := netting_ok_keys prices obs
            ((aggregateAssets entities e).map (fun en => (en.1, en.2.int))) hlines
          simp only [hnst] at hmsg
          have hremp : ∀ k ∈ mkeys nst.remainingByCoin, ∃ p, prices k = some p := by
            intro k hk
            have hk0 := hkeys k hk
            rw [mkeys_map_pair] at hk0
            exact assetsUsd_ok_prices prices _ q hau k hk0
          obtain ⟨sw, hsw⟩ := swapStep_ok prices (aggregateAssets entities e) nst
            hremp hsfu
          simp only [hsw] at hmsg
          exact Except.noConfusion hmsg
  · intro h
    rcases h with ⟨ob, hob, hmiss⟩ | ⟨ct, hct, hmiss⟩
    · rcases (flattenObligations_error_iff prices e).mpr ⟨ob, hob, hmiss⟩ with ⟨m, hm⟩
      refine ⟨m, ?_⟩
      unfold computeEntityData
      simp only [hm]
    · cases hfl : flattenObligations prices e with
      | error m =>
          refine ⟨m, ?_⟩
          unfold computeEntityData
          simp only [hfl]
      | ok obs =>
          have hbad : ∃ en ∈ aggregateAssets entities e, prices en.1 = none := by
            rcases List.mem_map.mp hct with ⟨en, hen, rfl⟩
            exact ⟨en, hen, hmiss⟩
          rcases (assetsUsd_error_iff prices _).mpr hbad with ⟨m, hm⟩
          refine ⟨m, ?_⟩
          unfold computeEntityData
          simp only [hfl, hm]

/-- Witness for C7's amended claim: the held-only entity with no price makes
the first pass err via the aggregated-asset disjunct. -/
theorem c7_witness :
    NonnegAmounts [c7HoldEntity] ∧
    (∃ msg, computeEntityData [c7HoldEntity] noPrices c7HoldEntity = Except.error msg) := by
  have hnn : NonnegAmounts [c7HoldEntity] := by
    intro e he
    rcases List.mem_singleton.mp he with rfl
    constructor
    · intro a ha
      rcases List.mem_singleton.mp ha with rfl
      exact (by norm_num : (0 : ℤ) ≤ 1)
    · intro ob hob
      exact absurd hob (List.not_mem_nil ob)
  refine ⟨hnn, ?_⟩
  refine (c7_first_pass_error_iff [c7HoldEntity] noPrices c7HoldEntity hnn
    (List.mem_singleton.mpr rfl)).mpr (Or.inr ⟨"X", ?_, rfl⟩)
  decide


/-! ### Further association-list and fold lemmas -/

theorem mget_mdel_ne {α : Type} :
    ∀ (m : AList α) (k k' : String), k ≠ k' → mget (mdel m k') k = mget m k := by
  intro m
  induction m with
  | nil => intro k k' _; simp [mdel]
  | cons hd t ih =>
    intro k k' hne
    obtain ⟨a, b⟩ := hd
    by_cases hak : a = k'
    · subst hak
      rw [show mdel ((a, b) :: t) a = t by simp [mdel]]
      rw [show mget ((a, b) :: t) k = mget t k by simp [mget, Ne.symm hne]]
    · rw [show mdel ((a, b) :: t) k' = (a, b) :: mdel t k' by simp [mdel, hak]]
      by_cases hak2 : a = k
      · subst hak2
        simp [mget]
      · rw [show mget ((a, b) :: mdel t k') k = mget (mdel t k') k by
          simp [mget, hak2]]
        rw [show mget ((a, b) :: t) k = mget t k by simp [mget, hak2]]
        exact ih k k' hne

theorem mdel_of_none {α : Type} :
    ∀ (m : AList α) (k : String), mget m k = none → mdel m k = m := by
  intro m
  induction m with
  | nil => intro k _; rfl
  | cons hd t ih =>
    intro k h
    obtain ⟨a, b⟩ := hd
    by_cases hak : a = k
    · subst hak
      simp [mget] at h
    · simp only [mget, if_neg hak] at h
      simp [mdel, hak, ih k h]

theorem mset_of_none {α : Type} :
    ∀ (m : AList α) (k : String) (v : α), mget m k = none →
      mset m k v = m ++ [(k, v)] := by
  intro m
  induction m with
  | nil => intro k v _; rfl
  | cons hd t ih =>
    intro k v h
    obtain ⟨a, b⟩ := hd
    by_cases hak : a = k
    · subst hak
      simp [mget] at h
    · simp only [mget, if_neg hak] at h
      simp [mset, hak, ih k v h]

theorem mem_mdel_sub {α : Type} :
    ∀ (m : AList α) (k : String) (x : String × α), x ∈ mdel m k → x ∈ m := by
  intro m
  induction m with
  | nil => intro k x h; simp [mdel] at h
  | cons hd t ih =>
    intro k x h
    obtain ⟨a, b⟩ := hd
    by_cases hak : a = k
    · subst hak
      rw [show mdel ((a, b) :: t) a = t by simp [mdel]] at h
      exact List.mem_cons_of_mem _ h
    · rw [show mdel ((a, b) :: t) k = (a, b) :: mdel t k by simp [mdel, hak]] at h
      rcases List.mem_cons.mp h with rfl | h'
      · exact List.mem_cons_self _ _
      · exact List.mem_cons_of_mem _ (ih k x h')

theorem mget_map_val {α β : Type} (g : α → β) :
    ∀ (m : AList α) (k : String),
      mget (m.map (fun en => (en.1, g en.2))) k = (mget m k).map g := by
  intro m
  induction m with
  | nil => intro k; rfl
  | cons hd t ih =>
    intro k
    obtain ⟨a, b⟩ := hd
    by_cases hak : a = k
    · subst hak
      simp [mget]
    · simp only [List.map_cons, mget, if_neg hak]
      exact ih k

theorem sum_map_mdel {α : Type} (f : String × α → ℚ) :
    ∀ (m : AList α) (k : String) (v : α), mget m k = some v →
      ((mdel m k).map f).sum = (m.map f).sum - f (k, v) := by
  intro m
  induction m with
  | nil => intro k v h; simp [mget] at h
  | cons hd t ih =>
    intro k v h
    obtain ⟨a, b⟩ := hd
    by_cases hak : a = k
    · subst hak
      simp [mget] at h
      subst h
      rw [show mdel ((a, b) :: t) a = t by simp [mdel]]
      simp [List.map_cons]
    · simp only [mget, if_neg hak] at h
      rw [show mdel ((a, b) :: t) k = (a, b) :: mdel t k by simp [mdel, hak]]
      simp only [List.map_cons, List.sum_cons, ih k v h]
      ring

theorem foldl_invariant {σ α : Type} (f : σ → α → σ) (P : σ → Prop) :
    ∀ (l : List α), (∀ acc a, a ∈ l → P acc → P (f acc a)) →
      ∀ acc, P acc → P (l.foldl f acc) := by
  intro l
  induction l with
  | nil => intro _ acc h; exact h
  | cons a t ih =>
    intro hstep acc hP
    exact ih (fun acc' a' ha' => hstep acc' a' (List.mem_cons_of_mem _ ha'))
      (f acc a) (hstep acc a (List.mem_cons_self _ _) hP)


/-! ### Value of a raw-amount map -/

theorem remainingValueUsd_mset_found (prices : Prices) (dec : String → ℕ)
    (m : AList ℤ) (k : String) (v v' : ℤ) (h : mget m k = some v) :
    remainingValueUsd prices dec (mset m k v') =
      remainingValueUsd prices dec m
        - (v : ℚ) / (10 : ℚ) ^ dec k * ((prices k).getD 0)
        + (v' : ℚ) / (10 : ℚ) ^ dec k * ((prices k).getD 0) := by
  unfold remainingValueUsd
  exact sum_map_mset _ m k v v' h

theorem remainingValueUsd_mset_none (prices : Prices) (dec : String → ℕ)
    (m : AList ℤ) (k : String) (v' : ℤ) (h : mget m k = none) :
    remainingValueUsd prices dec (mset m k v') =
      remainingValueUsd prices dec m
        + (v' : ℚ) / (10 : ℚ) ^ dec k * ((prices k).getD 0) := by
  unfold remainingValueUsd
  rw [mset_of_none m k v' h]
  simp

theorem remainingValueUsd_mdel_found (prices : Prices) (dec : String → ℕ)
    (m : AList ℤ) (k : String) (v : ℤ) (h : mget m k = some v) :
    remainingValueUsd prices dec (mdel m k) =
      remainingValueUsd prices dec m
        - (v : ℚ) / (10 : ℚ) ^ dec k * ((prices k).getD 0) := by
  unfold remainingValueUsd
  exact sum_map_mdel _ m k v h

theorem remainingValueUsd_mdel_none (prices : Prices) (dec : String → ℕ)
    (m : AList ℤ) (k : String) (h : mget m k = none) :
    remainingValueUsd prices dec (mdel m k) = remainingValueUsd prices dec m := by
  rw [mdel_of_none m k h]

theorem remainingValueUsd_nonneg (prices : Prices) (dec : String → ℕ)
    (m : AList ℤ) (hm : ∀ en ∈ m, 0 ≤ en.2) (hpp : PositivePrices prices) :
    0 ≤ remainingValueUsd prices dec m := by
  unfold remainingValueUsd
  apply List.sum_nonneg
  intro x hx
  rcases List.mem_map.mp hx with ⟨en, hen, rfl⟩
  have h1 : (0 : ℚ) ≤ (en.2 : ℚ) / (10 : ℚ) ^ dec en.1 := by
    apply div_nonneg
    · exact_mod_cast hm en hen
    · positivity
  have h2 : (0 : ℚ) ≤ (prices en.1).getD 0 := by
    cases hp : prices en.1 with
    | none => simp
    | some p => simpa using le_of_lt (hpp en.1 p hp)
  exact mul_nonneg h1 h2

/-! ### Properties of asset aggregation -/

theorem addAsset_coherent (dec : String → ℕ) (ta : AList Amount) (a : Asset)
    (hta : ∀ en ∈ ta, en.2.decimals = dec en.1) (ha : CoherentAsset dec a) :
    ∀ en ∈ addAsset ta a, en.2.decimals = dec en.1 := by
  intro en hen
  cases a with
  | coin c amt =>
      simp only [addAsset] at hen
      rcases mem_mset_cases _ _ _ _ hen with h | ⟨h1, h2⟩
      · exact hta en h
      · rw [h2, h1]
        exact ha
  | lp cA cB aA aB =>
      simp only [addAsset] at hen
      rcases mem_mset_cases _ _ _ _ hen with h | ⟨h1, h2⟩
      · rcases mem_mset_cases _ _ _ _ h with h' | ⟨h1', h2'⟩
        · exact hta en h'
        · rw [h2', h1']
          exact ha.1
      · rw [h2, h1]
        exact ha.2

theorem addAsset_nonneg (ta : AList Amount) (a : Asset)
    (hta : ∀ en ∈ ta, 0 ≤ en.2.int) (ha : NonnegAsset a) :
    ∀ en ∈ addAsset ta a, 0 ≤ en.2.int := by
  have hprev : ∀ (m : AList Amount) (k : String), (∀ en ∈ m, 0 ≤ en.2.int) →
      0 ≤ (((mget m k).map (·.int)).getD 0 : ℤ) := by
    intro m k hm
    cases hg : mget m k with
    | none => simp
    | some w => simpa using hm (k, w) (mget_mem m k w hg)
  intro en hen
  cases a with
  | coin c amt =>
      simp only [addAsset] at hen
      rcases mem_mset_cases _ _ _ _ hen with h | ⟨h1, h2⟩
      · exact hta en h
      · rw [h2]
        have := hprev ta c.typeName hta
        simp only [CoinInfo.newAmount]
        have hamt : (0 : ℤ) ≤ amt := ha
        omega
  | lp cA cB aA aB =>
      simp only [addAsset] at hen
      rcases mem_mset_cases _ _ _ _ hen with h | ⟨h1, h2⟩
      · rcases mem_mset_cases _ _ _ _ h with h' | ⟨h1', h2'⟩
        · exact hta en h'
        · rw [h2']
          have := hprev ta cA.typeName hta
          simp only [CoinInfo.newAmount]
          have hamt : (0 : ℤ) ≤ aA := ha.1
          omega
      · rw [h2]
        have := hprev ta cB.typeName hta
        simp only [CoinInfo.newAmount]
        have hamt : (0 : ℤ) ≤ aB := ha.2
        omega

theorem aggregateAssets_coherent (entities : List Entity) (e : Entity)
    (dec : String → ℕ) (hcd : CoherentDecimals dec entities) (he : e ∈ entities) :
    ∀ en ∈ aggregateAssets entities e, en.2.decimals = dec en.1 := by
  have h0 : ∀ en ∈ ([] : AList Amount), en.2.decimals = dec en.1 := by
    intro en hen
    exact absurd hen (List.not_mem_nil en)
  have h1 := foldl_invariant addAsset (fun ta => ∀ en ∈ ta, en.2.decimals = dec en.1)
    e.holdings (fun ta a ha hta => addAsset_coherent dec ta a hta ((hcd e he).1 a ha))
    [] h0
  have hstep : ∀ (ta : AList Amount) (other : Entity), other ∈ entities →
      (∀ en ∈ ta, en.2.decimals = dec en.1) →
      ∀ en ∈ other.obligations.foldl
        (fun ta ob => if ob.to_ = e.id then addAsset ta ob.asset else ta) ta,
        en.2.decimals = dec en.1 := by
    intro ta other hother hta
    refine foldl_invariant _ (fun ta => ∀ en ∈ ta, en.2.decimals = dec en.1)
      other.obligations ?_ ta hta
    intro ta' ob hob hta'
    by_cases hto : ob.to_ = e.id
    · rw [if_pos hto]
      exact addAsset_coherent dec ta' ob.asset hta' ((hcd other hother).2 ob hob)
    · rw [if_neg hto]
      exact hta'
  exact foldl_invariant
    (fun ta other => other.obligations.foldl
      (fun ta ob => if ob.to_ = e.id then addAsset ta ob.asset else ta) ta)
    (fun ta => ∀ en ∈ ta, en.2.decimals = dec en.1) entities hstep _ h1

theorem aggregateAssets_nonneg (entities : List Entity) (e : Entity)
    (hnn : NonnegAmounts entities) (he : e ∈ entities) :
    ∀ en ∈ aggregateAssets entities e, 0 ≤ en.2.int := by
  have h0 : ∀ en ∈ ([] : AList Amount), 0 ≤ en.2.int := by
    intro en hen
    exact absurd hen (List.not_mem_nil en)
  have h1 := foldl_invariant addAsset (fun ta => ∀ en ∈ ta, 0 ≤ en.2.int)
    e.holdings (fun ta a ha hta => addAsset_nonneg ta a hta ((hnn e he).1 a ha))
    [] h0
  have hstep : ∀ (ta : AList Amount) (other : Entity), other ∈ entities →
      (∀ en ∈ ta, 0 ≤ en.2.int) →
      ∀ en ∈ other.obligations.foldl
        (fun ta ob => if ob.to_ = e.id then addAsset ta ob.asset else ta) ta,
        0 ≤ en.2.int := by
    intro ta other hother hta
    refine foldl_invariant _ (fun ta => ∀ en ∈ ta, 0 ≤ en.2.int)
      other.obligations ?_ ta hta
    intro ta' ob hob hta'
    by_cases hto : ob.to_ = e.id
    · rw [if_pos hto]
      exact addAsset_nonneg ta' ob.asset hta' ((hnn other hother).2 ob hob)
    · rw [if_neg hto]
      exact hta'
  exact foldl_invariant
    (fun ta other => other.obligations.foldl
      (fun ta ob => if ob.to_ = e.id then addAsset ta ob.asset else ta) ta)
    (fun ta => ∀ en ∈ ta, 0 ≤ en.2.int) entities hstep _ h1


/-! ### Sums over the grouped obligations -/

theorem sum_groups_step (f : ObligationDetail → ℚ)
    (acc : AList (List ObligationDetail)) (ob : ObligationDetail) :
    ((obligationsByCoinStep acc ob).map (fun g => (g.2.map f).sum)).sum
      = (acc.map (fun g => (g.2.map f).sum)).sum + f ob := by
  unfold obligationsByCoinStep
  cases hg : mget acc ob.coinType with
  | some l =>
      rw [sum_map_mset (fun g => (g.2.map f).sum) acc ob.coinType l (l ++ [ob]) hg]
      simp
      ring
  | none =>
      rw [mset_of_none acc ob.coinType [ob] hg]
      simp

theorem sum_groups_fold (f : ObligationDetail → ℚ) :
    ∀ (l : List ObligationDetail) (acc : AList (List ObligationDetail)),
      ((l.foldl obligationsByCoinStep acc).map (fun g => (g.2.map f).sum)).sum
        = (acc.map (fun g => (g.2.map f).sum)).sum + (l.map f).sum := by
  intro l
  induction l with
  | nil => intro acc; simp
  | cons ob t ih =>
    intro acc
    rw [List.foldl_cons, ih (obligationsByCoinStep acc ob), sum_groups_step]
    simp
    ring

/-- Summing any per-line quantity over the coin groups gives its sum over the
original lines (the groups partition the lines). -/
theorem sum_groups (f : ObligationDetail → ℚ) (obs : List ObligationDetail) :
    ((obligationsByCoin obs).map (fun g => (g.2.map f).sum)).sum = (obs.map f).sum := by
  unfold obligationsByCoin
  rw [sum_groups_fold]
  simp

/-- Every group in the coin grouping is non-empty. -/
theorem obligationsByCoin_nonempty (obs : List ObligationDetail) :
    ∀ g ∈ obligationsByCoin obs, g.2 ≠ [] := by
  unfold obligationsByCoin
  refine foldl_invariant obligationsByCoinStep (fun acc => ∀ g ∈ acc, g.2 ≠ [])
    obs ?_ [] ?_
  · intro acc ob hob hacc g hg
    unfold obligationsByCoinStep at hg
    cases hgv : mget acc ob.coinType with
    | some l =>
        rw [hgv] at hg
        rcases mem_mset_cases _ _ _ _ hg with h | ⟨h1, h2⟩
        · exact hacc g h
        · rw [h2]
          simp
    | none =>
        rw [hgv] at hg
        rcases mem_mset_cases _ _ _ _ hg with h | ⟨h1, h2⟩
        · exact hacc g h
        · rw [h2]
          simp
  · intro g hg
    exact absurd hg (List.not_mem_nil g)

/-- The coin grouping has pairwise-distinct keys. -/
theorem obligationsByCoin_keys_nodup (obs : List ObligationDetail) :
    (mkeys (obligationsByCoin obs)).Nodup := by
  unfold obligationsByCoin
  refine foldl_invariant obligationsByCoinStep (fun acc => (mkeys acc).Nodup)
    obs ?_ [] ?_
  · intro acc ob hob hacc
    unfold obligationsByCoinStep
    cases hgv : mget acc ob.coinType with
    | some l => exact nodup_mkeys_mset acc ob.coinType (l ++ [ob]) hacc
    | none => exact nodup_mkeys_mset acc ob.coinType [ob] hacc
  · simp [mkeys]

/-! ### Exact values of the USD valuations -/

theorem assetsUsd_fold_eq (prices : Prices) :
    ∀ (l : AList Amount) (acc q : ℚ),
      l.foldlM (assetsUsdStep prices) acc = .ok q →
      q = acc + (l.map (fun en => en.2.toQ * ((prices en.1).getD 0))).sum := by
  intro l
  induction l with
  | nil =>
    intro acc q h
    rw [foldlM_except_nil] at h
    cases h
    simp
  | cons en t ih =>
    intro acc q h
    cases hp : prices en.1 with
    | none =>
        rw [foldlM_except_cons_error (assetsUsdStep prices) en t acc
          ("Price not found for coin type: \"" ++ en.1 ++ "\"")
          (by simp [assetsUsdStep, hp])] at h
        cases h
    | some p =>
        rw [foldlM_except_cons_ok (assetsUsdStep prices) en t acc
          (acc + en.2.toQ * p) (by simp [assetsUsdStep, hp])] at h
        rw [ih _ q h]
        simp [hp]
        ring

/-- The aggregated-asset USD total is the sum of per-entry values. -/
theorem assetsUsd_ok_eq (prices : Prices) (ta : AList Amount) (q : ℚ)
    (h : assetsUsd prices ta = .ok q) :
    q = (ta.map (fun en => en.2.toQ * ((prices en.1).getD 0))).sum := by
  have := assetsUsd_fold_eq prices ta 0 q h
  simpa using this

theorem remainingAssetsUsd_fold_eq (prices : Prices) (dec : String → ℕ)
    (ta : AList Amount) :
    ∀ (l : AList ℤ) (acc q : ℚ),
      (∀ en ∈ l, ∃ a, mget ta en.1 = some a ∧ a.decimals = dec en.1) →
      l.foldlM (remainingAssetsUsdStep prices ta) acc = .ok q →
      q = acc + remainingValueUsd prices dec l := by
  intro l
  induction l with
  | nil =>
    intro acc q _ h
    rw [foldlM_except_nil] at h
    cases h
    simp [remainingValueUsd]
  | cons en t ih =>
    intro acc q hmem h
    obtain ⟨a, hma, hdec⟩ := hmem en (List.mem_cons_self _ _)
    cases hp : prices en.1 with
    | none =>
        rw [foldlM_except_cons_error (remainingAssetsUsdStep prices ta) en t acc
          ("Price not found for coin type: \"" ++ en.1 ++ "\"")
          (by simp [remainingAssetsUsdStep, hp])] at h
        cases h
    | some p =>
        rw [foldlM_except_cons_ok (remainingAssetsUsdStep prices ta) en t acc
          (acc + (Amount.fromInt en.2 a.decimals).toQ * p)
          (by simp [remainingAssetsUsdStep, hp, hma])] at h
        rw [ih _ q (fun x hx => hmem x (List.mem_cons_of_mem _ hx)) h]
        simp only [remainingValueUsd, List.map_cons, List.sum_cons, hp,
          Amount.fromInt, Amount.toQ, hdec]
        simp
        ring

/-- The leftover-asset USD valuation computes exactly the raw-amount map's
value under the coherent decimals table. -/
theorem remainingAssetsUsd_ok_eq (prices : Prices) (dec : String → ℕ)
    (ta : AList Amount) (m : AList ℤ) (q : ℚ)
    (hmem : ∀ en ∈ m, ∃ a, mget ta en.1 = some a ∧ a.decimals = dec en.1)
    (h : remainingAssetsUsd prices ta m = .ok q) :
    q = remainingValueUsd prices dec m := by
  have := remainingAssetsUsd_fold_eq prices dec ta m 0 q hmem h
  simpa using this


/-- Successful flattening lines carry the coherent decimals and the exact
price-weighted USD value. -/
theorem flatten_lines_full (prices : Prices) (dec : String → ℕ) (e : Entity)
    (obs : List ObligationDetail) (hok : flattenObligations prices e = .ok obs)
    (hco : ∀ ob ∈ e.obligations, CoherentAsset dec ob.asset) :
    ∀ od ∈ obs, od.amount.decimals = dec od.coinType ∧
      ∃ p, prices od.coinType = some p ∧ od.usdValue = od.amount.toQ * p := by
  refine foldlM_ok_invariant (flattenStep prices)
    (fun acc => ∀ od ∈ acc, od.amount.decimals = dec od.coinType ∧
      ∃ p, prices od.coinType = some p ∧ od.usdValue = od.amount.toQ * p)
    e.obligations ?_ [] obs hok (by intro od h; exact absurd h (List.not_mem_nil od))
  intro acc ob acc' hmem hstep hacc
  have hcob := hco ob hmem
  obtain ⟨obFrom, obTo, asset⟩ := ob
  cases asset with
  | coin c amt =>
      cases hp : prices c.typeName with
      | none => simp [flattenStep, hp] at hstep
      | some p =>
          simp only [flattenStep, hp, Except.ok.injEq] at hstep
          subst hstep
          intro od hod
          rcases List.mem_append.mp hod with h | h
          · exact hacc od h
          · rcases List.mem_singleton.mp h with rfl
            exact ⟨hcob, p, hp, rfl⟩
  | lp cA cB aA aB =>
      cases hpA : prices cA.typeName with
      | none => simp [flattenStep, hpA] at hstep
      | some pA =>
          cases hpB : prices cB.typeName with
          | none => simp [flattenStep, hpA, hpB] at hstep
          | some pB =>
              simp only [flattenStep, hpA, hpB, Except.ok.injEq] at hstep
              subst hstep
              intro od hod
              rcases List.mem_append.mp hod with h | h
              · exact hacc od h
              · rcases List.mem_cons.mp h with rfl | h
                · exact ⟨hcob.1, pA, hpA, rfl⟩
                · rcases List.mem_singleton.mp h with rfl
                  exact ⟨hcob.2, pB, hpB, rfl⟩

theorem sum_div_mul (l : List ℤ) (sc p : ℚ) :
    (l.map (fun i : ℤ => (i : ℚ) / sc * p)).sum = ((l.sum : ℤ) : ℚ) / sc * p := by
  induction l with
  | nil => simp
  | cons a t ih =>
    simp only [List.map_cons, List.sum_cons, ih, List.sum_cons]
    push_cast
    ring

/-- The USD sum of one coin group is the group's raw total scaled by the
coin's decimals and price. -/
theorem group_usd_sum (prices : Prices) (dec : String → ℕ)
    (obs : List ObligationDetail)
    (hobs : ∀ od ∈ obs, od.amount.decimals = dec od.coinType ∧
      (∃ p, prices od.coinType = some p ∧ od.usdValue = od.amount.toQ * p))
    (ct : String) (grp : List ObligationDetail) (p : ℚ)
    (hgmem : ∀ od ∈ grp, od ∈ obs ∧ od.coinType = ct)
    (hp : prices ct = some p) :
    (grp.map (fun od => od.usdValue)).sum =
      (((grp.map (fun od => od.amount.int)).sum : ℤ) : ℚ) / (10 : ℚ) ^ dec ct * p := by
  have hpt : ∀ od ∈ grp,
      od.usdValue = (od.amount.int : ℚ) / (10 : ℚ) ^ dec ct * p := by
    intro od hod
    obtain ⟨hdec, p', hp', husd⟩ := hobs od (hgmem od hod).1
    have hctq := (hgmem od hod).2
    rw [hctq] at hp' hdec
    rw [hp] at hp'
    injection hp' with hpe
    rw [husd, Amount.toQ, hdec, hpe]
  rw [show grp.map (fun od => od.usdValue)
      = grp.map (fun od => (od.amount.int : ℚ) / (10 : ℚ) ^ dec ct * p) from
    List.map_congr_left hpt]
  rw [show grp.map (fun od => (od.amount.int : ℚ) / (10 : ℚ) ^ dec ct * p)
      = (grp.map (fun od => od.amount.int)).map
          (fun i : ℤ => (i : ℚ) / (10 : ℚ) ^ dec ct * p) from by
    rw [List.map_map]
    rfl]
  exact sum_div_mul _ _ p

/-- The netting loop's central invariant: the USD value of the remaining
assets minus the accumulated uncovered liabilities drops by exactly each
group's USD liability; values stay non-negative and the uncovered total only
grows. -/
theorem netting_fold_val (prices : Prices) (dec : String → ℕ)
    (obs : List ObligationDetail)
    (hobs : ∀ od ∈ obs, od.amount.decimals = dec od.coinType ∧
      (∃ p, prices od.coinType = some p ∧ 0 < p ∧ od.usdValue = od.amount.toQ * p) ∧
      0 ≤ od.amount.int) :
    ∀ (gs : List (String × List ObligationDetail)) (st nst : NettingState),
      (∀ g ∈ gs, g.2 ≠ [] ∧ ∀ od ∈ g.2, od ∈ obs ∧ od.coinType = g.1) →
      (∀ en ∈ st.remainingByCoin, 0 ≤ en.2) →
      gs.foldlM (nettingStep prices obs) st = .ok nst →
      remainingValueUsd prices dec nst.remainingByCoin - nst.remainingLiabilitiesUsd
          = remainingValueUsd prices dec st.remainingByCoin
            - st.remainingLiabilitiesUsd
            - (gs.map (fun g => (g.2.map (fun od => od.usdValue)).sum)).sum
        ∧ (∀ en ∈ nst.remainingByCoin, 0 ≤ en.2)
        ∧ st.remainingLiabilitiesUsd ≤ nst.remainingLiabilitiesUsd := by
  intro gs
  induction gs with
  | nil =>
    intro st nst _ hst h
    rw [foldlM_except_nil] at h
    cases h
    exact ⟨by simp, hst, le_refl _⟩
  | cons g rest ih =>
    intro st nst hgs hst h
    obtain ⟨ct, grp⟩ := g
    have hgrp := hgs (ct, grp) (List.mem_cons_self _ _)
    have hrest : ∀ g ∈ rest, g.2 ≠ [] ∧ ∀ od ∈ g.2, od ∈ obs ∧ od.coinType = g.1 :=
      fun g hg => hgs g (List.mem_cons_of_mem _ hg)
    have hgmem : ∀ od ∈ grp, od ∈ obs ∧ od.coinType = ct := hgrp.2
    obtain ⟨od0, hod0⟩ : ∃ od, od ∈ grp := by
      cases grp with
      | nil => exact absurd rfl hgrp.1
      | cons a t => exact ⟨a, List.mem_cons_self _ _⟩
    obtain ⟨p, hp0, hppos, _⟩ := (hobs od0 (hgmem od0 hod0).1).2.1
    have hp : prices ct = some p := by
      rw [← (hgmem od0 hod0).2]
      exact hp0
    have htotnn : 0 ≤ (grp.map (fun o => o.amount.int)).sum := by
      apply List.sum_nonneg
      intro x hx
      rcases List.mem_map.mp hx with ⟨od, hod, rfl⟩
      exact (hobs od (hgmem od hod).1).2.2
    have hLg : (grp.map (fun od => od.usdValue)).sum =
        (((grp.map (fun od => od.amount.int)).sum : ℤ) : ℚ) / (10 : ℚ) ^ dec ct * p := by
      refine group_usd_sum prices dec obs ?_ ct grp p hgmem hp
      intro od hod
      obtain ⟨h1, ⟨p', hp', _, husd⟩, _⟩ := hobs od hod
      exact ⟨h1, p', hp', husd⟩
    by_cases hcov : (grp.map (fun o => o.amount.int)).sum ≤
        (mget st.remainingByCoin ct).getD 0
    · by_cases hrestp : 0 < (mget st.remainingByCoin ct).getD 0 -
          (grp.map (fun o => o.amount.int)).sum
      · -- covered with a positive remainder: the key must be present
        rw [foldlM_except_cons_ok (nettingStep prices obs) (ct, grp) rest st _
          (nettingStep_covered_pos prices obs st ct grp hcov hrestp)] at h
        cases hmg : mget st.remainingByCoin ct with
        | none =>
            exfalso
            rw [hmg] at hrestp
            simp at hrestp
            omega
        | some v =>
            have hsn : ∀ en ∈ mset st.remainingByCoin ct
                ((mget st.remainingByCoin ct).getD 0 -
                  (grp.map (fun o => o.amount.int)).sum), 0 ≤ en.2 := by
              intro en hen
              rcases mem_mset_cases _ _ _ _ hen with hh | ⟨h1, h2⟩
              · exact hst en hh
              · rw [h2]
                rw [hmg] at hrestp ⊢
                simp only [Option.getD_some] at hrestp ⊢
                omega
            obtain ⟨heq, hnn', hmono⟩ := ih _ nst hrest hsn h
            refine ⟨?_, hnn', hmono⟩
            rw [heq]
            rw [remainingValueUsd_mset_found prices dec st.remainingByCoin ct v _ hmg]
            simp only [List.map_cons, List.sum_cons]
            rw [hLg, hmg]
            simp only [Option.getD_some, hp]
            push_cast
            ring
      · -- covered exactly: the removed entry's value equals the group's
        rw [foldlM_except_cons_ok (nettingStep prices obs) (ct, grp) rest st _
          (nettingStep_covered_zero prices obs st ct grp hcov hrestp)] at h
        have havail : (mget st.remainingByCoin ct).getD 0 =
            (grp.map (fun o => o.amount.int)).sum := by omega
        have hsn : ∀ en ∈ mdel st.remainingByCoin ct, 0 ≤ en.2 :=
          fun en hen => hst en (mem_mdel_sub _ ct en hen)
        obtain ⟨heq, hnn', hmono⟩ := ih _ nst hrest hsn h
        refine ⟨?_, hnn', hmono⟩
        rw [heq]
        cases hmg : mget st.remainingByCoin ct with
        | none =>
            rw [remainingValueUsd_mdel_none prices dec st.remainingByCoin ct hmg]
            rw [hmg] at havail
            simp only [Option.getD_none] at havail
            simp only [List.map_cons, List.sum_cons]
            rw [hLg, ← havail]
            push_cast
            ring
        | some v =>
            rw [remainingValueUsd_mdel_found prices dec st.remainingByCoin ct v hmg]
            rw [hmg] at havail
            simp only [Option.getD_some] at havail
            simp only [List.map_cons, List.sum_cons]
            rw [hLg, ← havail, hp]
            simp only [Option.getD_some]
            ring
    · -- uncovered: a shortfall entry is recorded
      cases hfind : obs.find? (fun ob => ob.coinType == ct) with
      | none =>
          exfalso
          have := List.find?_eq_none.mp hfind od0 (hgmem od0 hod0).1
          simp [(hgmem od0 hod0).2] at this
      | some obligation =>
          rw [foldlM_except_cons_ok (nettingStep prices obs) (ct, grp) rest st _
            (nettingStep_uncovered_found prices obs st ct grp p obligation
              hcov hp hfind)] at h
          have hobl : obligation ∈ obs := List.mem_of_find?_eq_some hfind
          have hoblct : obligation.coinType = ct := by
            have := List.find?_some hfind
            simpa using this
          have hobldec : obligation.amount.decimals = dec ct := by
            rw [← hoblct]
            exact (hobs obligation hobl).1
          have hsn : ∀ en ∈ mdel st.remainingByCoin ct, 0 ≤ en.2 :=
            fun en hen => hst en (mem_mdel_sub _ ct en hen)
          obtain ⟨heq, hnn', hmono⟩ := ih _ nst hrest hsn h
          have hshort : (0 : ℚ) ≤ (Amount.fromInt
              ((grp.map (fun o => o.amount.int)).sum -
                (mget st.remainingByCoin ct).getD 0)
              obligation.amount.decimals).toQ * p := by
            apply mul_nonneg _ (le_of_lt hppos)
            unfold Amount.fromInt Amount.toQ
            apply div_nonneg _ (by positivity)
            have hz : (0 : ℤ) ≤ (grp.map (fun o => o.amount.int)).sum -
                (mget st.remainingByCoin ct).getD 0 := by omega
            exact_mod_cast hz
          have hmono' : st.remainingLiabilitiesUsd + (Amount.fromInt
              ((grp.map (fun o => o.amount.int)).sum -
                (mget st.remainingByCoin ct).getD 0)
              obligation.amount.decimals).toQ * p ≤
              nst.remainingLiabilitiesUsd := hmono
          refine ⟨?_, hnn', by linarith⟩
          rw [heq]
          simp only [Amount.fromInt, Amount.toQ, hobldec]
          cases hmg : mget st.remainingByCoin ct with
          | none =>
              rw [remainingValueUsd_mdel_none prices dec st.remainingByCoin ct hmg]
              simp only [List.map_cons, List.sum_cons]
              rw [hLg]
              simp only [Option.getD_none]
              push_cast
              ring
          | some v =>
              rw [remainingValueUsd_mdel_found prices dec st.remainingByCoin ct v hmg]
              simp only [List.map_cons, List.sum_cons]
              rw [hLg, hp]
              simp only [Option.getD_some]
              push_cast
              ring


/-- When every coin group's raw liability total is covered by the remaining
assets at its key, the netting loop records no uncovered liabilities. -/
theorem netting_fold_covered (prices : Prices) (obs : List ObligationDetail) :
    ∀ (gs : List (String × List ObligationDetail)) (st nst : NettingState),
      (mkeys gs).Nodup →
      (∀ g ∈ gs, (g.2.map (fun o => o.amount.int)).sum ≤
        (mget st.remainingByCoin g.1).getD 0) →
      gs.foldlM (nettingStep prices obs) st = .ok nst →
      nst.remainingLiabilitiesUsd = st.remainingLiabilitiesUsd := by
  intro gs
  induction gs with
  | nil =>
    intro st nst _ _ h
    rw [foldlM_except_nil] at h
    cases h
    rfl
  | cons g rest ih =>
    intro st nst hnd hcover h
    obtain ⟨ct, grp⟩ := g
    have hcov := hcover (ct, grp) (List.mem_cons_self _ _)
    have hctnot : ct ∉ mkeys rest := by
      have := hnd
      simp only [mkeys, List.map_cons, List.nodup_cons] at this
      exact this.1
    have hndrest : (mkeys rest).Nodup := by
      have := hnd
      simp only [mkeys, List.map_cons, List.nodup_cons] at this
      exact this.2
    by_cases hrestp : 0 < (mget st.remainingByCoin ct).getD 0 -
        (grp.map (fun o => o.amount.int)).sum
    · rw [foldlM_except_cons_ok (nettingStep prices obs) (ct, grp) rest st _
        (nettingStep_covered_pos prices obs st ct grp hcov hrestp)] at h
      have hrest' : ∀ g ∈ rest, (g.2.map (fun o => o.amount.int)).sum ≤
          (mget (mset st.remainingByCoin ct
            ((mget st.remainingByCoin ct).getD 0 -
              (grp.map (fun o => o.amount.int)).sum)) g.1).getD 0 := by
        intro g hg
        have hne : ct ≠ g.1 := by
          intro hctg
          exact hctnot (hctg ▸ List.mem_map_of_mem _ hg)
        rw [mget_mset_ne st.remainingByCoin ct g.1 _ hne]
        exact hcover g (List.mem_cons_of_mem _ hg)
      exact ih { st with remainingByCoin := mset st.remainingByCoin ct ((mget st.remainingByCoin ct).getD 0 - (grp.map (fun o => o.amount.int)).sum) } nst hndrest hrest' h
    · rw [foldlM_except_cons_ok (nettingStep prices obs) (ct, grp) rest st _
        (nettingStep_covered_zero prices obs st ct grp hcov hrestp)] at h
      have hrest' : ∀ g ∈ rest, (g.2.map (fun o => o.amount.int)).sum ≤
          (mget (mdel st.remainingByCoin ct) g.1).getD 0 := by
        intro g hg
        have hne : g.1 ≠ ct := by
          intro hctg
          exact hctnot (hctg ▸ List.mem_map_of_mem _ hg)
        rw [mget_mdel_ne st.remainingByCoin g.1 ct hne]
        exact hcover g (List.mem_cons_of_mem _ hg)
      exact ih { st with remainingByCoin := mdel st.remainingByCoin ct }
        nst hndrest hrest' h


/-- C2: after the first pass (netting then swap coverage) the reported
`shortfallUsd` is exactly `max 0 (totalLiabilitiesUsd - totalAssetsUsd)`, and
an entity whose assets cover its liabilities in every asset type reports a
zero shortfall. -/
theorem c2_first_pass_shortfall (entities : List Entity) (prices : Prices)
    (dec : String → ℕ) (e : Entity) (d : EntitySolvencyData)
    (hnn : NonnegAmounts entities) (hpp : PositivePrices prices)
    (hcd : CoherentDecimals dec entities) (he : e ∈ entities)
    (hok : computeEntityData entities prices e = Except.ok d) :
    d.shortfallUsd = max 0 (d.totalLiabilitiesUsd - d.totalAssetsUsd) ∧
    ((∀ obs, flattenObligations prices e = Except.ok obs →
        ∀ g ∈ obligationsByCoin obs,
          (g.2.map (fun od => od.amount.int)).sum ≤
            ((mget (aggregateAssets entities e) g.1).map (fun a => a.int)).getD 0) →
      d.shortfallUsd = 0) := by
  unfold computeEntityData at hok
  cases hfl : flattenObligations prices e with
  | error m =>
      simp only [hfl] at hok
      exact Except.noConfusion hok
  | ok obs =>
  simp only [hfl] at hok
  cases hau : assetsUsd prices (aggregateAssets entities e) with
  | error m =>
      simp only [hau] at hok
      exact Except.noConfusion hok
  | ok q =>
  simp only [hau] at hok
  cases hnst : netting prices obs
      ((aggregateAssets entities e).map (fun en => (en.1, en.2.int))) with
  | error m =>
      simp only [hnst] at hok
      exact Except.noConfusion hok
  | ok nst =>
  simp only [hnst] at hok
  cases hsw : swapStep prices (aggregateAssets entities e) nst with
  | error m =>
      simp only [hsw] at hok
      exact Except.noConfusion hok
  | ok sw =>
  simp only [hsw] at hok
  rw [Except.ok.injEq] at hok
  have hsf : d.shortfallUsd = max sw.remainingLiabilitiesUsd 0 := by rw [← hok]
  have hLd : d.totalLiabilitiesUsd = (obs.map (fun od => od.usdValue)).sum := by
    rw [← hok]
  have hAd : d.totalAssetsUsd = q := by rw [← hok]
  have hco := aggregateAssets_coherent entities e dec hcd he
  have hnnta := aggregateAssets_nonneg entities e hnn he
  have hgood := flatten_lines_good prices e obs hfl (hnn e he).2
  have hfull := flatten_lines_full prices dec e obs hfl (hcd e he).2
  have hobs : ∀ od ∈ obs, od.amount.decimals = dec od.coinType ∧
      (∃ p, prices od.coinType = some p ∧ 0 < p ∧ od.usdValue = od.amount.toQ * p) ∧
      0 ≤ od.amount.int := by
    intro od hod
    obtain ⟨hdec, p, hp, husd⟩ := hfull od hod
    exact ⟨hdec, ⟨p, hp, hpp _ p hp, husd⟩, (hgood od hod).2⟩
  have hgrps : ∀ g ∈ obligationsByCoin obs, g.2 ≠ [] ∧
      ∀ od ∈ g.2, od ∈ obs ∧ od.coinType = g.1 :=
    fun g hg => ⟨obligationsByCoin_nonempty obs g hg,
      (obligationsByCoin_groups_sound obs g hg).2⟩
  have hr0nn : ∀ en ∈ (aggregateAssets entities e).map (fun en => (en.1, en.2.int)),
      0 ≤ en.2 := by
    intro en hen
    rcases List.mem_map.mp hen with ⟨x, hx, rfl⟩
    exact hnnta x hx
  have hnstfold : (obligationsByCoin obs).foldlM (nettingStep prices obs)
      ⟨(aggregateAssets entities e).map (fun en => (en.1, en.2.int)), 0, []⟩
      = .ok nst := by
    unfold netting at hnst
    exact hnst
  obtain ⟨heq, hnn', hUnn⟩ := netting_fold_val prices dec obs hobs
    (obligationsByCoin obs)
    ⟨(aggregateAssets entities e).map (fun en => (en.1, en.2.int)), 0, []⟩ nst
    hgrps hr0nn hnstfold
  have hsum := sum_groups (fun od => od.usdValue) obs
  have hA : remainingValueUsd prices dec
      ((aggregateAssets entities e).map (fun en => (en.1, en.2.int))) = q := by
    rw [assetsUsd_ok_eq prices _ q hau]
    unfold remainingValueUsd
    rw [List.map_map]
    refine congrArg List.sum (List.map_congr_left ?_).symm
    intro en hen
    simp only [Function.comp, Amount.toQ, hco en hen]
  rw [hsum, hA] at heq
  have heq2 : remainingValueUsd prices dec nst.remainingByCoin -
      nst.remainingLiabilitiesUsd =
      q - 0 - (obs.map (fun od => od.usdValue)).sum := heq
  have hU0le : (0 : ℚ) ≤ nst.remainingLiabilitiesUsd := hUnn
  have hcovimp : (∀ obs',
      (Except.ok obs : Except String (List ObligationDetail)) = Except.ok obs' →
      ∀ g ∈ obligationsByCoin obs',
        (g.2.map (fun od => od.amount.int)).sum ≤
          ((mget (aggregateAssets entities e) g.1).map (fun a => a.int)).getD 0) →
      nst.remainingLiabilitiesUsd = 0 := by
    intro hcover
    have hcov' : ∀ g ∈ obligationsByCoin obs,
        (g.2.map (fun o => o.amount.int)).sum ≤
          (mget ((aggregateAssets entities e).map (fun en => (en.1, en.2.int)))
            g.1).getD 0 := by
      intro g hg
      rw [mget_map_val (fun a => a.int) (aggregateAssets entities e) g.1]
      exact hcover obs rfl g hg
    exact netting_fold_covered prices obs (obligationsByCoin obs)
      ⟨(aggregateAssets entities e).map (fun en => (en.1, en.2.int)), 0, []⟩ nst
      (obligationsByCoin_keys_nodup obs) hcov' hnstfold
  unfold swapStep at hsw
  by_cases hcond : 0 < nst.remainingLiabilitiesUsd ∧ nst.remainingByCoin ≠ []
  · rw [if_pos hcond] at hsw
    obtain ⟨nst2, hnst2, hkeys2, hsfu2⟩ := netting_ok_keys prices obs
      ((aggregateAssets entities e).map (fun en => (en.1, en.2.int)))
      (fun od hod => ⟨(hgood od hod).1, (hgood od hod).2⟩)
    rw [hnst] at hnst2
    injection hnst2 with hinj
    subst hinj
    have hmem : ∀ en ∈ nst.remainingByCoin, ∃ a,
        mget (aggregateAssets entities e) en.1 = some a ∧ a.decimals = dec en.1 := by
      intro en hen
      have hk := hkeys2 en.1 (List.mem_map_of_mem _ hen)
      rw [mkeys_map_pair] at hk
      have hsome : (mget (aggregateAssets entities e) en.1).isSome :=
        (mget_isSome_iff _ _).mpr hk
      cases hma : mget (aggregateAssets entities e) en.1 with
      | none =>
          rw [hma] at hsome
          simp at hsome
      | some a => exact ⟨a, rfl, hco (en.1, a) (mget_mem _ _ _ hma)⟩
    cases hra : remainingAssetsUsd prices (aggregateAssets entities e)
        nst.remainingByCoin with
    | error m =>
        simp only [hra] at hsw
        exact Except.noConfusion hsw
    | ok q' =>
    simp only [hra] at hsw
    cases hreps : swapRepayments prices (min q' nst.remainingLiabilitiesUsd)
        nst.shortfallUsdByCoin with
    | error m =>
        simp only [hreps] at hsw
        exact Except.noConfusion hsw
    | ok reps =>
    simp only [hreps] at hsw
    rw [Except.ok.injEq] at hsw
    have hswrem : sw.remainingLiabilitiesUsd =
        nst.remainingLiabilitiesUsd - min q' nst.remainingLiabilitiesUsd := by
      rw [← hsw]
    have hq' : q' = remainingValueUsd prices dec nst.remainingByCoin :=
      remainingAssetsUsd_ok_eq prices dec _ _ q' hmem hra
    constructor
    · rw [hsf, hLd, hAd, hswrem, hq']
      simp only [max_def, min_def]
      split_ifs <;> linarith
    · intro hcover
      exact absurd hcond.1 (by rw [hcovimp hcover]; exact lt_irrefl 0)
  · rw [if_neg hcond] at hsw
    rw [Except.ok.injEq] at hsw
    have hswrem : sw.remainingLiabilitiesUsd = nst.remainingLiabilitiesUsd := by
      rw [← hsw]
    push_neg at hcond
    constructor
    · rw [hsf, hLd, hAd, hswrem]
      rcases lt_or_le 0 nst.remainingLiabilitiesUsd with hU | hU
      · have hremnil := hcond hU
        have hR : remainingValueUsd prices dec nst.remainingByCoin = 0 := by
          rw [hremnil]
          simp [remainingValueUsd]
        rw [hR] at heq2
        simp only [max_def]
        split_ifs <;> linarith
      · have hU0 : nst.remainingLiabilitiesUsd = 0 := le_antisymm hU hU0le
        have hRnn : 0 ≤ remainingValueUsd prices dec nst.remainingByCoin :=
          remainingValueUsd_nonneg prices dec _ hnn' hpp
        rw [hU0] at heq2 ⊢
        simp only [max_def]
        split_ifs <;> linarith
    · intro hcover
      rw [hsf, hswrem, hcovimp hcover]
      simp

/-- Witness for C2 at a concrete solvent entity: 5 U of assets against a 3 U
obligation at price $1 reports a zero shortfall, matching
`max 0 (totalLiabilitiesUsd - totalAssetsUsd)`. -/
theorem c2_witness :
    NonnegAmounts [c2Entity] ∧
    computeEntityData [c2Entity] c2Prices c2Entity = Except.ok c2Data ∧
    c2Data.shortfallUsd = max 0 (c2Data.totalLiabilitiesUsd - c2Data.totalAssetsUsd) := by
  have hnn : NonnegAmounts [c2Entity] := by
    intro e he
    rcases List.mem_singleton.mp he with rfl
    refine ⟨?_, ?_⟩
    · intro a ha
      rcases List.mem_singleton.mp ha with rfl
      exact (by norm_num : (0 : ℤ) ≤ 5)
    · intro ob hob
      rcases List.mem_singleton.mp hob with rfl
      exact (by norm_num : (0 : ℤ) ≤ 3)
  have hpp : PositivePrices c2Prices := by
    intro c p hp
    unfold c2Prices at hp
    by_cases hc : c = "U"
    · rw [if_pos hc] at hp
      injection hp with hp
      rw [← hp]
      norm_num
    · rw [if_neg hc] at hp
      exact Option.noConfusion hp
  have hcd : CoherentDecimals (fun _ => 0) [c2Entity] := by
    intro e he
    rcases List.mem_singleton.mp he with rfl
    refine ⟨?_, ?_⟩
    · intro a ha
      rcases List.mem_singleton.mp ha with rfl
      exact rfl
    · intro ob hob
      rcases List.mem_singleton.mp hob with rfl
      exact rfl
  have hok : computeEntityData [c2Entity] c2Prices c2Entity = Except.ok c2Data := rfl
  exact ⟨hnn, hok, (c2_first_pass_shortfall [c2Entity] c2Prices (fun _ => 0)
    c2Entity c2Data hnn hpp hcd (List.mem_singleton.mpr rfl) hok).1⟩


/-! ### Invariants for the insolvency classification (C3) -/

theorem mset_ne_nil {α : Type} (m : AList α) (k : String) (v : α) :
    mset m k v ≠ [] := by
  cases m with
  | nil => simp [mset]
  | cons hd t =>
    obtain ⟨a, b⟩ := hd
    by_cases hak : a = k
    · simp [mset, hak]
    · simp [mset, hak]

theorem mget_of_mem_nodup {α : Type} :
    ∀ (m : AList α) (k : String) (v : α), (mkeys m).Nodup → (k, v) ∈ m →
      mget m k = some v := by
  intro m
  induction m with
  | nil => intro k v _ h; exact absurd h (List.not_mem_nil _)
  | cons hd t ih =>
    intro k v hnd h
    obtain ⟨a, b⟩ := hd
    simp only [mkeys, List.map_cons, List.nodup_cons] at hnd
    rcases List.mem_cons.mp h with heq | hmem
    · injection heq with h1 h2
      subst h1
      subst h2
      simp [mget]
    · have hak : a ≠ k := by
        intro hak
        subst hak
        exact hnd.1 (List.mem_map_of_mem _ hmem)
      simp only [mget, if_neg hak]
      exact ih k v hnd.2 hmem

theorem nodup_entries_inj {α : Type} (m : AList α) (hnd : (mkeys m).Nodup)
    (en en' : String × α) (h1 : en ∈ m) (h2 : en' ∈ m) (hk : en.1 = en'.1) :
    en = en' := by
  obtain ⟨k, v⟩ := en
  obtain ⟨k', v'⟩ := en'
  simp only at hk
  subst hk
  have hv := mget_of_mem_nodup m k v hnd h1
  have hv' := mget_of_mem_nodup m k v' hnd h2
  rw [hv] at hv'
  injection hv' with hvv
  rw [hvv]

/-- Every entry of the residual per-coin shortfall map is positive. -/
theorem shortfallsByCoinMap_values_pos (prices : Prices) (f : ℚ) (sfu : AList ℚ) :
    ∀ en ∈ shortfallsByCoinMap prices f sfu, 0 < en.2 := by
  unfold shortfallsByCoinMap
  split
  · have hinv := foldl_invariant
      (fun (acc : AList ℚ) (entry : String × ℚ) =>
        match prices entry.1 with
        | some price =>
            if 0 < f * (entry.2 / ((sfu.map (·.2)).sum)) / price then
              mset acc entry.1 (f * (entry.2 / ((sfu.map (·.2)).sum)) / price)
            else acc
        | none => acc)
      (fun acc => ∀ en ∈ acc, 0 < en.2) sfu ?_ []
      (by intro en hen; exact absurd hen (List.not_mem_nil en))
    · exact hinv
    · intro acc entry hentry hacc
      cases hp : prices entry.1 with
      | none =>
          simp only [hp]
          exact hacc
      | some price =>
          simp only [hp]
          by_cases hpos : 0 < f * (entry.2 / ((sfu.map (·.2)).sum)) / price
          · rw [if_pos hpos]
            intro en hen
            rcases mem_mset_cases _ _ _ _ hen with h | ⟨h1, h2⟩
            · exact hacc en h
            · rw [h2]
              exact hpos
          · rw [if_neg hpos]
            exact hacc
  · intro en hen
    exact absurd hen (List.not_mem_nil en)

/-- With a positive residual and positive, priced uncovered entries, the
residual per-coin map is non-empty. -/
theorem shortfallsByCoinMap_ne_nil (prices : Prices) (f : ℚ) (sfu : AList ℚ)
    (hf : 0 < f) (hsfu : sfu ≠ [])
    (hvals : ∀ en ∈ sfu, 0 < en.2 ∧ ∃ p, prices en.1 = some p ∧ 0 < p) :
    shortfallsByCoinMap prices f sfu ≠ [] := by
  unfold shortfallsByCoinMap
  rw [if_pos ⟨hf, hsfu⟩]
  cases sfu with
  | nil => exact absurd rfl hsfu
  | cons en0 rest =>
    obtain ⟨p, hp, hppos⟩ := (hvals en0 (List.mem_cons_self _ _)).2
    have htot : 0 < ((en0 :: rest).map (·.2)).sum := by
      simp only [List.map_cons, List.sum_cons]
      have h1 : 0 < en0.2 := (hvals en0 (List.mem_cons_self _ _)).1
      have h2 : 0 ≤ (rest.map (·.2)).sum := by
        apply List.sum_nonneg
        intro x hx
        rcases List.mem_map.mp hx with ⟨y, hy, rfl⟩
        exact le_of_lt (hvals y (List.mem_cons_of_mem _ hy)).1
      linarith
    rw [List.foldl_cons]
    have hamt : 0 < f * (en0.2 / (((en0 :: rest).map (·.2)).sum)) / p := by
      apply div_pos _ hppos
      apply mul_pos hf
      exact div_pos (hvals en0 (List.mem_cons_self _ _)).1 htot
    simp only [hp]
    rw [if_pos hamt]
    have hgrow := foldl_invariant
      (fun (acc : AList ℚ) (entry : String × ℚ) =>
        let proportion := entry.2 / (((en0 :: rest).map (·.2)).sum)
        let remainingShortfallUsd := f * proportion
        match prices entry.1 with
        | some price =>
            let remainingShortfallAmount := remainingShortfallUsd / price
            if 0 < remainingShortfallAmount then
              mset acc entry.1 remainingShortfallAmount
            else acc
        | none => acc)
      (fun acc => acc ≠ []) rest ?_
      (mset [] en0.1 (f * (en0.2 / (((en0 :: rest).map (·.2)).sum)) / p))
      (mset_ne_nil _ _ _)
    · exact hgrow
    · intro acc entry hentry hacc
      cases hp' : prices entry.1 with
      | none =>
          simp only [hp']
          exact hacc
      | some price =>
          simp only [hp']
          by_cases hpos : 0 < f * (entry.2 / (((en0 :: rest).map (·.2)).sum)) / price
          · rw [if_pos hpos]
            exact mset_ne_nil _ _ _
          · rw [if_neg hpos]
            exact hacc


/-- Through the netting loop, uncovered entries are positive and priced, and
an empty uncovered map means a zero uncovered USD total. -/
theorem netting_fold_sfu (prices : Prices) (obs : List ObligationDetail)
    (hpp : PositivePrices prices) :
    ∀ (gs : List (String × List ObligationDetail)) (st nst : NettingState),
      gs.foldlM (nettingStep prices obs) st = .ok nst →
      ((∀ en ∈ st.shortfallUsdByCoin, 0 < en.2 ∧ ∃ p, prices en.1 = some p ∧ 0 < p) ∧
        (st.shortfallUsdByCoin = [] → st.remainingLiabilitiesUsd = 0)) →
      (∀ en ∈ nst.shortfallUsdByCoin, 0 < en.2 ∧ ∃ p, prices en.1 = some p ∧ 0 < p) ∧
      (nst.shortfallUsdByCoin = [] → nst.remainingLiabilitiesUsd = 0) := by
  intro gs st nst h hP
  refine foldlM_ok_invariant (nettingStep prices obs)
    (fun st => (∀ en ∈ st.shortfallUsdByCoin, 0 < en.2 ∧
        ∃ p, prices en.1 = some p ∧ 0 < p) ∧
      (st.shortfallUsdByCoin = [] → st.remainingLiabilitiesUsd = 0))
    gs ?_ st nst h hP
  intro st' g st'' hg hstep hP'
  obtain ⟨ct, grp⟩ := g
  by_cases hcov : (grp.map (fun o => o.amount.int)).sum ≤
      (mget st'.remainingByCoin ct).getD 0
  · by_cases hrestp : 0 < (mget st'.remainingByCoin ct).getD 0 -
        (grp.map (fun o => o.amount.int)).sum
    · rw [nettingStep_covered_pos prices obs st' ct grp hcov hrestp] at hstep
      cases hstep
      exact hP'
    · rw [nettingStep_covered_zero prices obs st' ct grp hcov hrestp] at hstep
      cases hstep
      exact hP'
  · cases hpr : prices ct with
    | none =>
        exfalso
        simp [nettingStep, hcov, hpr] at hstep
    | some p =>
    cases hfind : obs.find? (fun ob => ob.coinType == ct) with
    | none =>
        rw [nettingStep_uncovered_notfound prices obs st' ct grp p hcov hpr hfind]
          at hstep
        cases hstep
        exact hP'
    | some obligation =>
        rw [nettingStep_uncovered_found prices obs st' ct grp p obligation
          hcov hpr hfind] at hstep
        cases hstep
        constructor
        · intro en hen
          rcases mem_mset_cases _ _ _ _ hen with h' | ⟨h1, h2⟩
          · exact hP'.1 en h'
          · have hshortpos : (0 : ℚ) < (Amount.fromInt
                ((grp.map (fun o => o.amount.int)).sum -
                  (mget st'.remainingByCoin ct).getD 0)
                obligation.amount.decimals).toQ * p := by
              apply mul_pos _ (hpp ct p hpr)
              unfold Amount.fromInt Amount.toQ
              apply div_pos _ (by positivity)
              have hz : (0 : ℤ) < (grp.map (fun o => o.amount.int)).sum -
                  (mget st'.remainingByCoin ct).getD 0 := by omega
              exact_mod_cast hz
            rw [h2]
            refine ⟨hshortpos, p, ?_, hpp ct p hpr⟩
            rw [h1]
            exact hpr
        · intro hnil
          exact absurd hnil (mset_ne_nil _ _ _)

/-- The first-pass record is keyed by the entity, its per-coin shortfalls are
positive, and a positive USD shortfall comes with a non-empty per-coin map. -/
theorem computeEntityData_fields (entities : List Entity) (prices : Prices)
    (e : Entity) (d : EntitySolvencyData) (hpp : PositivePrices prices)
    (hok : computeEntityData entities prices e = Except.ok d) :
    d.entityId = e.id ∧ (∀ en ∈ d.shortfallsByCoin, 0 < en.2) ∧
    (0 < d.shortfallUsd → d.shortfallsByCoin ≠ []) := by
  unfold computeEntityData at hok
  cases hfl : flattenObligations prices e with
  | error m =>
      simp only [hfl] at hok
      exact Except.noConfusion hok
  | ok obs =>
  simp only [hfl] at hok
  cases hau : assetsUsd prices (aggregateAssets entities e) with
  | error m =>
      simp only [hau] at hok
      exact Except.noConfusion hok
  | ok q =>
  simp only [hau] at hok
  cases hnst : netting prices obs
      ((aggregateAssets entities e).map (fun en => (en.1, en.2.int))) with
  | error m =>
      simp only [hnst] at hok
      exact Except.noConfusion hok
  | ok nst =>
  simp only [hnst] at hok
  cases hsw : swapStep prices (aggregateAssets entities e) nst with
  | error m =>
      simp only [hsw] at hok
      exact Except.noConfusion hok
  | ok sw =>
  simp only [hsw] at hok
  rw [Except.ok.injEq] at hok
  have hid : d.entityId = e.id := by rw [← hok]
  have hsbc : d.shortfallsByCoin = shortfallsByCoinMap prices
      (max sw.remainingLiabilitiesUsd 0) nst.shortfallUsdByCoin := by rw [← hok]
  have hsfe : d.shortfallUsd = max sw.remainingLiabilitiesUsd 0 := by rw [← hok]
  refine ⟨hid, ?_, ?_⟩
  · rw [hsbc]
    exact shortfallsByCoinMap_values_pos prices _ _
  · intro hpos
    have hswpos : 0 < sw.remainingLiabilitiesUsd := by
      rw [hsfe] at hpos
      rcases lt_max_iff.mp hpos with h | h
      · exact h
      · exact absurd h (lt_irrefl 0)
    obtain ⟨hsfuvals, hsfunil⟩ := netting_fold_sfu prices obs hpp
      (obligationsByCoin obs)
      ⟨(aggregateAssets entities e).map (fun en => (en.1, en.2.int)), 0, []⟩ nst
      (by unfold netting at hnst; exact hnst)
      ⟨by intro en hen; exact absurd hen (List.not_mem_nil en), fun _ => rfl⟩
    have hU : 0 < nst.remainingLiabilitiesUsd := by
      unfold swapStep at hsw
      by_cases hcond : 0 < nst.remainingLiabilitiesUsd ∧ nst.remainingByCoin ≠ []
      · exact hcond.1
      · rw [if_neg hcond] at hsw
        rw [Except.ok.injEq] at hsw
        have hr : sw.remainingLiabilitiesUsd = nst.remainingLiabilitiesUsd := by
          rw [← hsw]
        rwa [hr] at hswpos
    have hsfune : nst.shortfallUsdByCoin ≠ [] := by
      intro hnil
      rw [hsfunil hnil] at hU
      exact absurd hU (lt_irrefl 0)
    rw [hsbc]
    refine shortfallsByCoinMap_ne_nil prices _ _ ?_ hsfune ?_
    · rw [hsfe] at hpos
      exact hpos
    · exact hsfuvals

/-- An entity with no outbound obligations gets a clean first-pass record. -/
theorem computeEntityData_closed (entities : List Entity) (prices : Prices)
    (e : Entity) (d : EntitySolvencyData) (hobl : e.obligations = [])
    (hok : computeEntityData entities prices e = Except.ok d) :
    d.totalLiabilities = [] ∧ d.shortfallsByCoin = [] ∧ d.shortfallUsd = 0 := by
  have hfl : flattenObligations prices e = .ok [] := by
    unfold flattenObligations
    rw [hobl]
    rfl
  unfold computeEntityData at hok
  simp only [hfl] at hok
  cases hau : assetsUsd prices (aggregateAssets entities e) with
  | error m =>
      simp only [hau] at hok
      exact Except.noConfusion hok
  | ok q =>
  simp only [hau] at hok
  have hnet : netting prices []
      ((aggregateAssets entities e).map (fun en => (en.1, en.2.int))) =
      .ok ⟨(aggregateAssets entities e).map (fun en => (en.1, en.2.int)), 0, []⟩ :=
    rfl
  simp only [hnet] at hok
  have hswv : swapStep prices (aggregateAssets entities e)
      ⟨(aggregateAssets entities e).map (fun en => (en.1, en.2.int)), 0, []⟩ =
      .ok ⟨0, [], 0⟩ := by
    unfold swapStep
    rw [if_neg (by intro hcontra; exact absurd hcontra.1 (lt_irrefl (0 : ℚ)))]
  simp only [hswv] at hok
  rw [Except.ok.injEq] at hok
  refine ⟨?_, ?_, ?_⟩
  · rw [← hok]
    rfl
  · rw [← hok]
    show shortfallsByCoinMap prices (max 0 0) [] = []
    unfold shortfallsByCoinMap
    rw [if_neg]
    intro hcontra
    exact absurd rfl hcontra.2
  · rw [← hok]
    show max (0 : ℚ) 0 = 0
    simp


/-- The first pass produces a structurally good state. -/
theorem firstPass_good (entities : List Entity) (prices : Prices)
    (st : AList EntitySolvencyData) (hpp : PositivePrices prices)
    (hok : firstPass entities prices = .ok st) : GoodState st := by
  refine foldlM_ok_invariant _ GoodState entities ?_ [] st
    (by unfold firstPass at hok; exact hok) ?_
  · intro st' e st'' he hstep hP
    cases hcd : computeEntityData entities prices e with
    | error m =>
        simp only [hcd] at hstep
        exact Except.noConfusion hstep
    | ok dd =>
        simp only [hcd] at hstep
        rw [Except.ok.injEq] at hstep
        subst hstep
        obtain ⟨hnd, hidk, hposk, himpk⟩ := hP
        obtain ⟨hid, hpos, himp⟩ := computeEntityData_fields entities prices e dd
          hpp hcd
        refine ⟨nodup_mkeys_mset _ _ _ hnd, ?_, ?_, ?_⟩
        · intro en hen
          rcases mem_mset_cases _ _ _ _ hen with h | ⟨h1, h2⟩
          · exact hidk en h
          · rw [h2, h1]
            exact hid
        · intro en hen
          rcases mem_mset_cases _ _ _ _ hen with h | ⟨h1, h2⟩
          · exact hposk en h
          · rw [h2]
            exact hpos
        · intro en hen
          rcases mem_mset_cases _ _ _ _ hen with h | ⟨h1, h2⟩
          · exact himpk en h
          · rw [h2]
            exact himp
  · refine ⟨by simp [mkeys], ?_, ?_, ?_⟩
    · intro en hen
      exact absurd hen (List.not_mem_nil en)
    · intro en hen
      exact absurd hen (List.not_mem_nil en)
    · intro en hen
      exact absurd hen (List.not_mem_nil en)

/-- With distinct entity ids, an entity with no outbound obligations has a
clean record after the first pass. -/
theorem firstPass_closed (entities : List Entity) (prices : Prices)
    (st : AList EntitySolvencyData) (e : Entity)
    (hids : (entities.map (fun e => e.id)).Nodup) (he : e ∈ entities)
    (hobl : e.obligations = [])
    (hok : firstPass entities prices = .ok st) : ClosedAt e.id st := by
  refine foldlM_ok_invariant _ (ClosedAt e.id) entities ?_ [] st
    (by unfold firstPass at hok; exact hok) ?_
  · intro st' e' st'' he' hstep hP
    cases hcd : computeEntityData entities prices e' with
    | error m =>
        simp only [hcd] at hstep
        exact Except.noConfusion hstep
    | ok dd =>
        simp only [hcd] at hstep
        rw [Except.ok.injEq] at hstep
        subst hstep
        intro cd hcdg
        by_cases hee : e'.id = e.id
        · rw [← hee, mget_mset_self] at hcdg
          injection hcdg with hcd2
          have hee' : e' = e := List.inj_on_of_nodup_map hids he' he hee
          rw [← hcd2]
          rw [hee'] at hcd
          exact computeEntityData_closed entities prices e dd hobl hcd
        · rw [mget_mset_ne st' e'.id e.id dd hee] at hcdg
          exact hP cd hcdg
  · intro cd h
    simp [mget] at h


/-! ### Propagation preserves the structural invariants -/

theorem addReceived_good (st : AList EntitySolvencyData) (c o ct : String)
    (a u : ℚ) (hP : GoodState st) : GoodState (addReceived st c o ct a u) := by
  unfold addReceived
  cases hg : mget st c with
  | none => exact hP
  | some cd =>
      show GoodState (mset st c
        { cd with shortfallsReceived := mergeEntry o ct a u o cd.shortfallsReceived })
      obtain ⟨hnd, hidk, hposk, himpk⟩ := hP
      have hcdmem : (c, cd) ∈ st := mget_mem st c cd hg
      refine ⟨nodup_mkeys_mset _ _ _ hnd, ?_, ?_, ?_⟩
      · intro en hen
        rcases mem_mset_cases _ _ _ _ hen with h | ⟨h1, h2⟩
        · exact hidk en h
        · rw [h2, h1]
          exact hidk (c, cd) hcdmem
      · intro en hen
        rcases mem_mset_cases _ _ _ _ hen with h | ⟨h1, h2⟩
        · exact hposk en h
        · rw [h2]
          exact hposk (c, cd) hcdmem
      · intro en hen
        rcases mem_mset_cases _ _ _ _ hen with h | ⟨h1, h2⟩
        · exact himpk en h
        · rw [h2]
          exact himpk (c, cd) hcdmem

theorem addCaused_good (st : AList EntitySolvencyData) (o c ct : String)
    (a u : ℚ) (hP : GoodState st) : GoodState (addCaused st o c ct a u) := by
  unfold addCaused
  cases hg : mget st o with
  | none => exact hP
  | some d =>
      show GoodState (mset st o
        { d with shortfallsCaused := mergeEntry c ct a u o d.shortfallsCaused })
      obtain ⟨hnd, hidk, hposk, himpk⟩ := hP
      have hdmem : (o, d) ∈ st := mget_mem st o d hg
      refine ⟨nodup_mkeys_mset _ _ _ hnd, ?_, ?_, ?_⟩
      · intro en hen
        rcases mem_mset_cases _ _ _ _ hen with h | ⟨h1, h2⟩
        · exact hidk en h
        · rw [h2, h1]
          exact hidk (o, d) hdmem
      · intro en hen
        rcases mem_mset_cases _ _ _ _ hen with h | ⟨h1, h2⟩
        · exact hposk en h
        · rw [h2]
          exact hposk (o, d) hdmem
      · intro en hen
        rcases mem_mset_cases _ _ _ _ hen with h | ⟨h1, h2⟩
        · exact himpk en h
        · rw [h2]
          exact himpk (o, d) hdmem

theorem addSBC_good (st : AList EntitySolvencyData) (c ct : String) (a : ℚ)
    (ha : 0 < a) (hP : GoodState st) : GoodState (addSBC st c ct a) := by
  unfold addSBC
  cases hg : mget st c with
  | none => exact hP
  | some cd =>
      show GoodState (if cd.totalLiabilities ≠ [] then
        mset st c { cd with shortfallsByCoin := mset cd.shortfallsByCoin ct (((mget cd.shortfallsByCoin ct).getD 0) + a) } else st)
      by_cases hliab : cd.totalLiabilities ≠ []
      · rw [if_pos hliab]
        obtain ⟨hnd, hidk, hposk, himpk⟩ := hP
        have hcdmem : (c, cd) ∈ st := mget_mem st c cd hg
        refine ⟨nodup_mkeys_mset _ _ _ hnd, ?_, ?_, ?_⟩
        · intro en hen
          rcases mem_mset_cases _ _ _ _ hen with h | ⟨h1, h2⟩
          · exact hidk en h
          · rw [h2, h1]
            exact hidk (c, cd) hcdmem
        · intro en hen
          rcases mem_mset_cases _ _ _ _ hen with h | ⟨h1, h2⟩
          · exact hposk en h
          · rw [h2]
            intro sv hsv
            rcases mem_mset_cases _ _ _ _ hsv with h' | ⟨h1', h2'⟩
            · exact hposk (c, cd) hcdmem sv h'
            · rw [h2']
              cases hscd : mget cd.shortfallsByCoin ct with
              | none => simpa using ha
              | some w =>
                  have hw : 0 < w := hposk (c, cd) hcdmem (ct, w)
                    (mget_mem _ _ _ hscd)
                  simp only [Option.getD_some]
                  linarith
        · intro en hen
          rcases mem_mset_cases _ _ _ _ hen with h | ⟨h1, h2⟩
          · exact himpk en h
          · rw [h2]
            intro _
            exact mset_ne_nil _ _ _
      · rw [if_neg hliab]
        exact hP

theorem applyAllocation_good (eid ct : String) (st : AList EntitySolvencyData)
    (alloc : String × ℚ × ℚ) (ha : 0 < alloc.2.1) (hP : GoodState st) :
    GoodState (applyAllocation eid ct st alloc) := by
  unfold applyAllocation
  cases hg : mget st alloc.1 with
  | none => exact hP
  | some _ =>
      exact addSBC_good _ _ _ _ ha
        (addCaused_good _ _ _ _ _ _ (addReceived_good _ _ _ _ _ _ hP))

theorem processCoinShortfall_good (eid : String) (obc : AList (AList ℚ))
    (prices : Prices) (st : AList EntitySolvencyData) (entry : String × ℚ)
    (hentry : 0 < entry.2) (hP : GoodState st) :
    GoodState (processCoinShortfall eid obc prices st entry) := by
  unfold processCoinShortfall
  by_cases htot : 0 < coinTotal obc entry.1
  · rw [if_pos htot]
    cases hp : prices entry.1 with
    | none => exact hP
    | some price =>
        refine foldl_invariant (applyAllocation eid entry.1) GoodState
          (coinAllocations obc entry.1 entry.2 (entry.2 * price)) ?_ st hP
        intro st' alloc halloc hst'
        rw [coinAllocations_eq obc entry.1 entry.2 (entry.2 * price)] at halloc
        rcases List.mem_filterMap.mp halloc with ⟨en, hen, hsome⟩
        dsimp only at hsome
        split at hsome
        · rename_i hs
          injection hsome with hsome'
          refine applyAllocation_good eid entry.1 st' alloc ?_ hst'
          rw [← hsome']
          exact mul_pos hentry (div_pos hs htot)
        · exact Option.noConfusion hsome
  · rw [if_neg htot]
    exact hP

theorem propagateEntityShortfalls_good (eid : String)
    (st : AList EntitySolvencyData) (entities : List Entity) (prices : Prices)
    (hP : GoodState st) :
    GoodState (propagateEntityShortfalls eid st entities prices) := by
  unfold propagateEntityShortfalls
  cases hfind : entities.find? (fun e => e.id == eid) with
  | none => exact hP
  | some entity =>
      cases hdata : mget st eid with
      | none => exact hP
      | some data =>
          have hdmem : (eid, data) ∈ st := mget_mem st eid data hdata
          have hdpos : ∀ sv ∈ data.shortfallsByCoin, 0 < sv.2 :=
            hP.2.2.1 (eid, data) hdmem
          refine foldl_invariant _ GoodState data.shortfallsByCoin ?_ st hP
          intro st' entry hentry hst'
          exact processCoinShortfall_good eid (obligationsByCreditor entity)
            prices st' entry (hdpos entry hentry) hst'

theorem runPropagation_good (order : List String)
    (st : AList EntitySolvencyData) (entities : List Entity) (prices : Prices)
    (hP : GoodState st) :
    GoodState (runPropagation order st entities prices) := by
  refine foldl_invariant _ GoodState order ?_ st hP
  intro st' eid _ hst'
  exact propagateEntityShortfalls_good eid st' entities prices hst'

theorem addReceived_closed (x : String) (st : AList EntitySolvencyData)
    (c o ct : String) (a u : ℚ) (hC : ClosedAt x st) :
    ClosedAt x (addReceived st c o ct a u) := by
  unfold addReceived
  cases hg : mget st c with
  | none => exact hC
  | some cd =>
      show ClosedAt x (mset st c
        { cd with shortfallsReceived := mergeEntry o ct a u o cd.shortfallsReceived })
      intro cd' hcd'
      by_cases hcx : c = x
      · subst hcx
        rw [mget_mset_self] at hcd'
        injection hcd' with h2
        rw [← h2]
        exact hC cd hg
      · rw [mget_mset_ne st c x _ hcx] at hcd'
        exact hC cd' hcd'

theorem addCaused_closed (x : String) (st : AList EntitySolvencyData)
    (o c ct : String) (a u : ℚ) (hC : ClosedAt x st) :
    ClosedAt x (addCaused st o c ct a u) := by
  unfold addCaused
  cases hg : mget st o with
  | none => exact hC
  | some d =>
      show ClosedAt x (mset st o
        { d with shortfallsCaused := mergeEntry c ct a u o d.shortfallsCaused })
      intro cd' hcd'
      by_cases hox : o = x
      · subst hox
        rw [mget_mset_self] at hcd'
        injection hcd' with h2
        rw [← h2]
        exact hC d hg
      · rw [mget_mset_ne st o x _ hox] at hcd'
        exact hC cd' hcd'

theorem addSBC_closed (x : String) (st : AList EntitySolvencyData)
    (c ct : String) (a : ℚ) (hC : ClosedAt x st) :
    ClosedAt x (addSBC st c ct a) := by
  unfold addSBC
  cases hg : mget st c with
  | none => exact hC
  | some cd =>
      show ClosedAt x (if cd.totalLiabilities ≠ [] then
        mset st c { cd with shortfallsByCoin := mset cd.shortfallsByCoin ct (((mget cd.shortfallsByCoin ct).getD 0) + a) } else st)
      by_cases hliab : cd.totalLiabilities ≠ []
      · rw [if_pos hliab]
        intro cd' hcd'
        by_cases hcx : c = x
        · subst hcx
          exact absurd (hC cd hg).1 hliab
        · rw [mget_mset_ne st c x _ hcx] at hcd'
          exact hC cd' hcd'
      · rw [if_neg hliab]
        exact hC

theorem applyAllocation_closed (x eid ct : String)
    (st : AList EntitySolvencyData) (alloc : String × ℚ × ℚ)
    (hC : ClosedAt x st) : ClosedAt x (applyAllocation eid ct st alloc) := by
  unfold applyAllocation
  cases hg : mget st alloc.1 with
  | none => exact hC
  | some _ =>
      exact addSBC_closed _ _ _ _ _
        (addCaused_closed _ _ _ _ _ _ _ (addReceived_closed _ _ _ _ _ _ _ hC))

theorem processCoinShortfall_closed (x eid : String) (obc : AList (AList ℚ))
    (prices : Prices) (st : AList EntitySolvencyData) (entry : String × ℚ)
    (hC : ClosedAt x st) :
    ClosedAt x (processCoinShortfall eid obc prices st entry) := by
  unfold processCoinShortfall
  by_cases htot : 0 < coinTotal obc entry.1
  · rw [if_pos htot]
    cases hp : prices entry.1 with
    | none => exact hC
    | some price =>
        refine foldl_invariant (applyAllocation eid entry.1) (ClosedAt x)
          (coinAllocations obc entry.1 entry.2 (entry.2 * price)) ?_ st hC
        intro st' alloc _ hst'
        exact applyAllocation_closed x eid entry.1 st' alloc hst'
  · rw [if_neg htot]
    exact hC

theorem propagateEntityShortfalls_closed (x eid : String)
    (st : AList EntitySolvencyData) (entities : List Entity) (prices : Prices)
    (hC : ClosedAt x st) :
    ClosedAt x (propagateEntityShortfalls eid st entities prices) := by
  unfold propagateEntityShortfalls
  cases hfind : entities.find? (fun e => e.id == eid) with
  | none => exact hC
  | some entity =>
      cases hdata : mget st eid with
      | none => exact hC
      | some data =>
          refine foldl_invariant _ (ClosedAt x) data.shortfallsByCoin ?_ st hC
          intro st' entry _ hst'
          exact processCoinShortfall_closed x eid (obligationsByCreditor entity)
            prices st' entry hst'

theorem runPropagation_closed (x : String) (order : List String)
    (st : AList EntitySolvencyData) (entities : List Entity) (prices : Prices)
    (hC : ClosedAt x st) :
    ClosedAt x (runPropagation order st entities prices) := by
  refine foldl_invariant _ (ClosedAt x) order ?_ st hC
  intro st' eid _ hst'
  exact propagateEntityShortfalls_closed x eid st' entities prices hst'


/-- Membership in the final classification list. -/
theorem mem_classify (st : AList EntitySolvencyData) (x : String) :
    x ∈ classify st ↔ ∃ en ∈ st,
      (((en.2.shortfallsByCoin ≠ [] ∨ 0 < en.2.shortfallUsd) ∨
        (en.2.totalLiabilities ≠ [] ∧ en.2.shortfallsReceived ≠ [])) ∧
       en.2.entityId = x) := by
  have hstep : ∀ (acc : List String) (en : String × EntitySolvencyData) (y : String),
      y ∈ (fun (acc : List String) (en : String × EntitySolvencyData) =>
        let data := en.2
        let hasDirectShortfall := data.shortfallsByCoin ≠ [] ∨ 0 < data.shortfallUsd
        let hasOutgoingObligations := data.totalLiabilities ≠ []
        let hasReceivedShortfalls := data.shortfallsReceived ≠ []
        if hasDirectShortfall ∨ (hasOutgoingObligations ∧ hasReceivedShortfalls) then
          acc ++ [data.entityId]
        else acc) acc en →
      y ∈ acc ∨ (((en.2.shortfallsByCoin ≠ [] ∨ 0 < en.2.shortfallUsd) ∨
        (en.2.totalLiabilities ≠ [] ∧ en.2.shortfallsReceived ≠ [])) ∧
        y = en.2.entityId) := by
    intro acc en y hy
    dsimp only at hy
    by_cases hcond : (en.2.shortfallsByCoin ≠ [] ∨ 0 < en.2.shortfallUsd) ∨
        (en.2.totalLiabilities ≠ [] ∧ en.2.shortfallsReceived ≠ [])
    · rw [if_pos hcond] at hy
      rcases List.mem_append.mp hy with h | h
      · exact Or.inl h
      · exact Or.inr ⟨hcond, List.mem_singleton.mp h⟩
    · rw [if_neg hcond] at hy
      exact Or.inl hy
  have hmono : ∀ (acc : List String) (en : String × EntitySolvencyData),
      acc ⊆ (fun (acc : List String) (en : String × EntitySolvencyData) =>
        let data := en.2
        let hasDirectShortfall := data.shortfallsByCoin ≠ [] ∨ 0 < data.shortfallUsd
        let hasOutgoingObligations := data.totalLiabilities ≠ []
        let hasReceivedShortfalls := data.shortfallsReceived ≠ []
        if hasDirectShortfall ∨ (hasOutgoingObligations ∧ hasReceivedShortfalls) then
          acc ++ [data.entityId]
        else acc) acc en := by
    intro acc en
    dsimp only
    by_cases hcond : (en.2.shortfallsByCoin ≠ [] ∨ 0 < en.2.shortfallUsd) ∨
        (en.2.totalLiabilities ≠ [] ∧ en.2.shortfallsReceived ≠ [])
    · rw [if_pos hcond]
      intro a ha
      exact List.mem_append_left _ ha
    · rw [if_neg hcond]
      exact fun a ha => ha
  have hpush : ∀ (acc : List String) (en : String × EntitySolvencyData) (y : String),
      (((en.2.shortfallsByCoin ≠ [] ∨ 0 < en.2.shortfallUsd) ∨
        (en.2.totalLiabilities ≠ [] ∧ en.2.shortfallsReceived ≠ [])) ∧
        y = en.2.entityId) →
      y ∈ (fun (acc : List String) (en : String × EntitySolvencyData) =>
        let data := en.2
        let hasDirectShortfall := data.shortfallsByCoin ≠ [] ∨ 0 < data.shortfallUsd
        let hasOutgoingObligations := data.totalLiabilities ≠ []
        let hasReceivedShortfalls := data.shortfallsReceived ≠ []
        if hasDirectShortfall ∨ (hasOutgoingObligations ∧ hasReceivedShortfalls) then
          acc ++ [data.entityId]
        else acc) acc en := by
    intro acc en y hy
    dsimp only
    rw [if_pos hy.1, hy.2]
    exact List.mem_append_right _ (List.mem_singleton.mpr rfl)
  constructor
  · intro hx
    unfold classify at hx
    rcases foldl_sound _ _ hstep st [] x hx with h | ⟨en, hen, hcond, hy⟩
    · exact absurd h (List.not_mem_nil x)
    · exact ⟨en, hen, hcond, hy.symm⟩
  · rintro ⟨en, hen, hcond, hid⟩
    unfold classify
    exact foldl_complete _ _ hmono hpush st [] x en hen ⟨hcond, hid.symm⟩

/-- C3: after propagation an entity is classified insolvent exactly when it
has a non-zero per-asset-type shortfall remaining, or it has outbound
obligations and has received shortfalls; an entity with no outbound
obligations is never classified insolvent. -/
theorem c3_insolvency_classification (entities : List Entity) (prices : Prices)
    (res : SolvencyResult) (hpp : PositivePrices prices)
    (hids : (entities.map (fun e => e.id)).Nodup)
    (hok : checkEntitySolvency entities prices = Except.ok res) :
    (∀ d ∈ res.details,
      (d.entityId ∈ res.insolventEntities ↔
        (∃ en ∈ d.shortfallsByCoin, en.2 ≠ 0) ∨
        (d.totalLiabilities ≠ [] ∧ d.shortfallsReceived ≠ []))) ∧
    (∀ e ∈ entities, e.obligations = [] → e.id ∉ res.insolventEntities) := by
  unfold checkEntitySolvency at hok
  cases hfp : firstPass entities prices with
  | error m =>
      simp only [hfp] at hok
      exact Except.noConfusion hok
  | ok st0 =>
  simp only [hfp] at hok
  cases hts : topoSortK (nodeIds entities) (buildEdges entities) with
  | none =>
      simp only [hts] at hok
      exact Except.noConfusion hok
  | some order =>
  simp only [hts] at hok
  rw [Except.ok.injEq] at hok
  have hins : res.insolventEntities =
      classify (runPropagation order st0 entities prices) := by
    rw [← hok]
    rfl
  have hdet : res.details =
      (runPropagation order st0 entities prices).map (fun en => en.2) := by
    rw [← hok]
    rfl
  obtain ⟨hnd, hidk, hposk, himpk⟩ :=
    runPropagation_good order st0 entities prices
      (firstPass_good entities prices st0 hpp hfp)
  constructor
  · intro d hd
    rw [hdet] at hd
    rcases List.mem_map.mp hd with ⟨en, henm, hend0⟩
    have hend : en.2 = d := hend0
    have hextract : d.shortfallsByCoin ≠ [] →
        ∃ sv ∈ d.shortfallsByCoin, sv.2 ≠ 0 := by
      intro hne
      cases hh : d.shortfallsByCoin with
      | nil => exact absurd hh hne
      | cons sv rest =>
          have hmemd : sv ∈ d.shortfallsByCoin := by
            rw [hh]
            exact List.mem_cons_self _ _
          have hmem2 : sv ∈ en.2.shortfallsByCoin := by
            rw [hend]
            exact hmemd
          exact ⟨sv, List.mem_cons_self _ _, ne_of_gt (hposk en henm sv hmem2)⟩
    rw [hins]
    constructor
    · intro hx
      rcases (mem_classify _ _).mp hx with ⟨en', hen', hcond, hid'⟩
      have hk' : en'.1 = en.1 := by
        rw [← hidk en' hen', hid', ← hend, hidk en henm]
      have hee : en' = en := nodup_entries_inj _ hnd en' en hen' henm hk'
      subst hee
      rw [hend] at hcond
      rcases hcond with (hsbc | hsf) | hlr
      · exact Or.inl (hextract hsbc)
      · refine Or.inl (hextract ?_)
        have hne := himpk en' hen' (by rw [hend]; exact hsf)
        rw [hend] at hne
        exact hne
      · exact Or.inr hlr
    · intro hrhs
      refine (mem_classify _ _).mpr ⟨en, henm, ?_, by rw [hend]⟩
      rcases hrhs with ⟨sv, hsv, _⟩ | hlr
      · refine Or.inl (Or.inl ?_)
        rw [hend]
        intro hnil
        rw [hnil] at hsv
        exact absurd hsv (List.not_mem_nil sv)
      · refine Or.inr ?_
        rw [hend]
        exact hlr
  · intro e he hobl hxin
    rw [hins] at hxin
    rcases (mem_classify _ _).mp hxin with ⟨en', hen', hcond, hid'⟩
    have hk' : en'.1 = e.id := by rw [← hidk en' hen', hid']
    have hclosed : ClosedAt e.id (runPropagation order st0 entities prices) :=
      runPropagation_closed e.id order st0 entities prices
        (firstPass_closed entities prices st0 e hids he hobl hfp)
    have hget : mget (runPropagation order st0 entities prices) e.id =
        some en'.2 := by
      rw [← hk']
      exact mget_of_mem_nodup _ en'.1 en'.2 hnd hen'
    obtain ⟨hl, hs, hu⟩ := hclosed en'.2 hget
    rcases hcond with (hsbc | hsf) | hlr
    · exact hsbc hs
    · rw [hu] at hsf
      exact absurd hsf (lt_irrefl 0)
    · exact hlr.1 hl

/-- Witness for C3 at the solvent single-entity input: the entity has an
outbound obligation but no shortfalls, and is not classified insolvent. -/
theorem c3_witness :
    PositivePrices c2Prices ∧
    (c2Data.entityId ∈ (SolvencyResult.mk true [] [c2Data]).insolventEntities ↔
      (∃ en ∈ c2Data.shortfallsByCoin, en.2 ≠ 0) ∨
      (c2Data.totalLiabilities ≠ [] ∧ c2Data.shortfallsReceived ≠ [])) := by
  have hpp : PositivePrices c2Prices := by
    intro c p hp
    unfold c2Prices at hp
    by_cases hc : c = "U"
    · rw [if_pos hc] at hp
      injection hp with hp
      rw [← hp]
      norm_num
    · rw [if_neg hc] at hp
      exact Option.noConfusion hp
  have hids : ([c2Entity].map (fun e => e.id)).Nodup := by simp
  have hok : checkEntitySolvency [c2Entity] c2Prices =
      Except.ok ⟨true, [], [c2Data]⟩ := rfl
  exact ⟨hpp, (c3_insolvency_classification [c2Entity] c2Prices
    ⟨true, [], [c2Data]⟩ hpp hids hok).1 c2Data (List.mem_singleton.mpr rfl)⟩


/-- C8 (counterexample): on the diamond input, the orders A,B,C,D and
A,C,B,D are both valid topological orders of the obligation graph, yet the
two runs differ — D's `shortfallsReceived` lists B and C in opposite orders. -/
theorem c8_counterexample :
    (["A", "B", "C", "D"] : List String).Nodup ∧
    (["A", "C", "B", "D"] : List String).Nodup ∧
    (["A", "B", "C", "D"] : List String).Perm ["A", "C", "B", "D"] ∧
    (["A", "B", "C", "D"] : List String).Perm (nodeIds diamondEntities) ∧
    (["A", "C", "B", "D"] : List String).Perm (nodeIds diamondEntities) ∧
    ValidOrder (buildEdges diamondEntities) ["A", "B", "C", "D"] ∧
    ValidOrder (buildEdges diamondEntities) ["A", "C", "B", "D"] ∧
    checkEntitySolvencyWithOrder diamondEntities diamondPrices ["A", "B", "C", "D"] ≠
      checkEntitySolvencyWithOrder diamondEntities diamondPrices ["A", "C", "B", "D"] := by
  refine ⟨by decide, by decide, by decide, by decide, by decide,
    by unfold ValidOrder; decide, by unfold ValidOrder; decide, ?_⟩
  intro h
  exact absurd (congrArg receivedOrders h) (by decide)


/-! ### The order-equivalence relations are equivalences -/

theorem OptRel_refl {α : Type} (R : α → α → Prop) (hR : ∀ a, R a a) :
    ∀ o : Option α, OptRel R o o := by
  intro o
  cases o with
  | none => trivial
  | some a => exact hR a

theorem OptRel_symm {α : Type} (R : α → α → Prop) (hR : ∀ a b, R a b → R b a) :
    ∀ o1 o2 : Option α, OptRel R o1 o2 → OptRel R o2 o1 := by
  intro o1 o2 h
  cases o1 <;> cases o2 <;> first | trivial | exact hR _ _ h

theorem OptRel_trans {α : Type} (R : α → α → Prop)
    (hR : ∀ a b c, R a b → R b c → R a c) :
    ∀ o1 o2 o3 : Option α, OptRel R o1 o2 → OptRel R o2 o3 → OptRel R o1 o3 := by
  intro o1 o2 o3 h1 h2
  cases o1 <;> cases o2 <;> cases o3 <;>
    first | trivial | exact absurd h1 id | exact absurd h2 id | exact hR _ _ _ h1 h2

theorem DetailsEquiv_refl (l : List ShortfallDetail) : DetailsEquiv l l :=
  fun _ => rfl

theorem DetailsEquiv_symm {l1 l2 : List ShortfallDetail} (h : DetailsEquiv l1 l2) :
    DetailsEquiv l2 l1 := fun ct => (h ct).symm

theorem DetailsEquiv_trans {l1 l2 l3 : List ShortfallDetail}
    (h1 : DetailsEquiv l1 l2) (h2 : DetailsEquiv l2 l3) : DetailsEquiv l1 l3 :=
  fun ct => (h1 ct).trans (h2 ct)

theorem EntryEquiv_refl (s : EntityShortfall) : EntryEquiv s s :=
  ⟨rfl, rfl, DetailsEquiv_refl _⟩

theorem EntryEquiv_symm {s1 s2 : EntityShortfall} (h : EntryEquiv s1 s2) :
    EntryEquiv s2 s1 := ⟨h.1.symm, h.2.1.symm, DetailsEquiv_symm h.2.2⟩

theorem EntryEquiv_trans {s1 s2 s3 : EntityShortfall} (h1 : EntryEquiv s1 s2)
    (h2 : EntryEquiv s2 s3) : EntryEquiv s1 s3 :=
  ⟨h1.1.trans h2.1, h1.2.1.trans h2.2.1, DetailsEquiv_trans h1.2.2 h2.2.2⟩

theorem EntriesEquiv_refl (l : List EntityShortfall) : EntriesEquiv l l :=
  fun _ => OptRel_refl _ EntryEquiv_refl _

theorem EntriesEquiv_symm {l1 l2 : List EntityShortfall} (h : EntriesEquiv l1 l2) :
    EntriesEquiv l2 l1 :=
  fun k => OptRel_symm _ (fun _ _ hab => EntryEquiv_symm hab) _ _ (h k)

theorem EntriesEquiv_trans {l1 l2 l3 : List EntityShortfall}
    (h1 : EntriesEquiv l1 l2) (h2 : EntriesEquiv l2 l3) : EntriesEquiv l1 l3 :=
  fun k => OptRel_trans EntryEquiv (fun _ _ _ hab hbc => EntryEquiv_trans hab hbc) _ _ _ (h1 k) (h2 k)

theorem RecordEquiv_refl (d : EntitySolvencyData) : RecordEquiv d d :=
  ⟨rfl, rfl, rfl, rfl, rfl, rfl, rfl, rfl, rfl, rfl, fun _ => rfl,
    EntriesEquiv_refl _, EntriesEquiv_refl _⟩

theorem RecordEquiv_symm {d1 d2 : EntitySolvencyData} (h : RecordEquiv d1 d2) :
    RecordEquiv d2 d1 := by
  obtain ⟨h1, h2, h3, h4, h5, h6, h7, h8, h9, h10, h11, h12, h13⟩ := h
  exact ⟨h1.symm, h2.symm, h3.symm, h4.symm, h5.symm, h6.symm, h7.symm, h8.symm,
    h9.symm, h10.symm, fun ct => (h11 ct).symm, EntriesEquiv_symm h12,
    EntriesEquiv_symm h13⟩

theorem RecordEquiv_trans {d1 d2 d3 : EntitySolvencyData} (ha : RecordEquiv d1 d2)
    (hb : RecordEquiv d2 d3) : RecordEquiv d1 d3 := by
  obtain ⟨a1, a2, a3, a4, a5, a6, a7, a8, a9, a10, a11, a12, a13⟩ := ha
  obtain ⟨b1, b2, b3, b4, b5, b6, b7, b8, b9, b10, b11, b12, b13⟩ := hb
  exact ⟨a1.trans b1, a2.trans b2, a3.trans b3, a4.trans b4, a5.trans b5,
    a6.trans b6, a7.trans b7, a8.trans b8, a9.trans b9, a10.trans b10,
    fun ct => (a11 ct).trans (b11 ct), EntriesEquiv_trans a12 b12,
    EntriesEquiv_trans a13 b13⟩

theorem StateEquiv_refl (st : AList EntitySolvencyData) : StateEquiv st st :=
  ⟨rfl, fun _ => OptRel_refl _ RecordEquiv_refl _⟩

theorem StateEquiv_symm {st1 st2 : AList EntitySolvencyData}
    (h : StateEquiv st1 st2) : StateEquiv st2 st1 :=
  ⟨h.1.symm, fun k => OptRel_symm _ (fun _ _ hab => RecordEquiv_symm hab) _ _ (h.2 k)⟩

theorem StateEquiv_trans {st1 st2 st3 : AList EntitySolvencyData}
    (ha : StateEquiv st1 st2) (hb : StateEquiv st2 st3) : StateEquiv st1 st3 :=
  ⟨ha.1.trans hb.1,
    fun k => OptRel_trans RecordEquiv (fun _ _ _ hab hbc => RecordEquiv_trans hab hbc) _ _ _ (ha.2 k) (hb.2 k)⟩

/-- Lookup-table equivalence of entry lists preserves emptiness. -/
theorem EntriesEquiv_nil_iff {l1 l2 : List EntityShortfall}
    (h : EntriesEquiv l1 l2) : l1 = [] ↔ l2 = [] := by
  constructor
  · intro h1
    subst h1
    cases hc : l2 with
    | nil => rfl
    | cons s t =>
        exfalso
        have := h s.owesTo
        rw [hc] at this
        rw [List.find?_cons_of_pos _ (by simp)] at this
        simp [List.find?] at this
        exact this
  · intro h2
    subst h2
    cases hc : l1 with
    | nil => rfl
    | cons s t =>
        exfalso
        have := h s.owesTo
        rw [hc] at this
        rw [List.find?_cons_of_pos _ (by simp)] at this
        simp [List.find?] at this
        exact this

/-- Lookup equivalence of raw maps preserves emptiness. -/
theorem mget_equiv_nil_iff {m1 m2 : AList ℚ}
    (h : ∀ ct, mget m1 ct = mget m2 ct) : m1 = [] ↔ m2 = [] := by
  constructor
  · intro h1
    subst h1
    cases hc : m2 with
    | nil => rfl
    | cons en t =>
        exfalso
        have := h en.1
        rw [hc] at this
        simp [mget] at this
  · intro h2
    subst h2
    cases hc : m1 with
    | nil => rfl
    | cons en t =>
        exfalso
        have := h en.1
        rw [hc] at this
        simp [mget] at this


/-! ### The update-at-key normal form of the propagation writes -/

theorem mset_self {α : Type} :
    ∀ (m : AList α) (k : String) (v : α), mget m k = some v → mset m k v = m := by
  intro m
  induction m with
  | nil => intro k v h; simp [mget] at h
  | cons hd t ih =>
    intro k v h
    obtain ⟨a, b⟩ := hd
    by_cases hak : a = k
    · subst hak
      simp [mget] at h
      simp [mset, h]
    · simp only [mget, if_neg hak] at h
      simp [mset, hak, ih k v h]

theorem upd_mget_self (st : AList EntitySolvencyData) (k : String)
    (f : EntitySolvencyData → EntitySolvencyData) :
    mget (upd st k f) k = (mget st k).map f := by
  unfold upd
  cases hg : mget st k with
  | none => simp [hg]
  | some cd => simp [mget_mset_self]

theorem upd_mget_ne (st : AList EntitySolvencyData) (k k' : String)
    (f : EntitySolvencyData → EntitySolvencyData) (h : k' ≠ k) :
    mget (upd st k f) k' = mget st k' := by
  unfold upd
  cases hg : mget st k with
  | none => rfl
  | some cd => exact mget_mset_ne st k k' (f cd) (Ne.symm h)

theorem upd_mkeys (st : AList EntitySolvencyData) (k : String)
    (f : EntitySolvencyData → EntitySolvencyData) :
    mkeys (upd st k f) = mkeys st := by
  unfold upd
  cases hg : mget st k with
  | none => rfl
  | some cd =>
      apply mkeys_mset_present
      exact (mget_isSome_iff st k).mp (by rw [hg]; rfl)

theorem addReceived_eq_upd (st : AList EntitySolvencyData) (c o ct : String)
    (a u : ℚ) :
    addReceived st c o ct a u = upd st c
      (fun cd => { cd with
        shortfallsReceived := mergeEntry o ct a u o cd.shortfallsReceived }) := by
  unfold addReceived upd
  cases mget st c <;> rfl

theorem addCaused_eq_upd (st : AList EntitySolvencyData) (o c ct : String)
    (a u : ℚ) :
    addCaused st o c ct a u = upd st o
      (fun d => { d with
        shortfallsCaused := mergeEntry c ct a u o d.shortfallsCaused }) := by
  unfold addCaused upd
  cases mget st o <;> rfl

theorem addSBC_eq_upd (st : AList EntitySolvencyData) (c ct : String) (a : ℚ) :
    addSBC st c ct a = upd st c
      (fun cd => if cd.totalLiabilities ≠ [] then
        { cd with shortfallsByCoin := mset cd.shortfallsByCoin ct (((mget cd.shortfallsByCoin ct).getD 0) + a) }
      else cd) := by
  unfold addSBC upd
  cases hg : mget st c with
  | none => rfl
  | some cd =>
      dsimp only
      by_cases hliab : cd.totalLiabilities ≠ []
      · rw [if_pos hliab, if_pos hliab]
      · rw [if_neg hliab, if_neg hliab]
        exact (mset_self st c cd hg).symm

theorem OptRel_of_eq {α : Type} (R : α → α → Prop) (hR : ∀ a, R a a)
    {o1 o2 : Option α} (h : o1 = o2) : OptRel R o1 o2 := by
  subst h
  exact OptRel_refl R hR o1

theorem upd_cong (st1 st2 : AList EntitySolvencyData) (k : String)
    (f : EntitySolvencyData → EntitySolvencyData)
    (hf : ∀ d1 d2, RecordEquiv d1 d2 → RecordEquiv (f d1) (f d2))
    (h : StateEquiv st1 st2) : StateEquiv (upd st1 k f) (upd st2 k f) := by
  constructor
  · rw [upd_mkeys, upd_mkeys]
    exact h.1
  · intro k'
    by_cases hk : k' = k
    · subst hk
      rw [upd_mget_self, upd_mget_self]
      have := h.2 k'
      cases h1 : mget st1 k' <;> cases h2 : mget st2 k' <;>
        rw [h1, h2] at this <;> first | trivial | exact absurd this id |
        exact hf _ _ this
    · rw [upd_mget_ne _ _ _ _ hk, upd_mget_ne _ _ _ _ hk]
      exact h.2 k'

theorem upd_upd_equiv (st : AList EntitySolvencyData) (k1 k2 : String)
    (f1 f2 : EntitySolvencyData → EntitySolvencyData)
    (hcomm : k1 = k2 → ∀ d, RecordEquiv (f1 (f2 d)) (f2 (f1 d))) :
    StateEquiv (upd (upd st k2 f2) k1 f1) (upd (upd st k1 f1) k2 f2) := by
  constructor
  · rw [upd_mkeys, upd_mkeys, upd_mkeys, upd_mkeys]
  · intro k
    by_cases h1 : k = k1 <;> by_cases h2 : k = k2
    · subst h1
      rw [← h2] at hcomm ⊢
      rw [upd_mget_self, upd_mget_self, upd_mget_self, upd_mget_self]
      cases hg : mget st k with
      | none => trivial
      | some d => exact hcomm rfl d
    · subst h1
      rw [upd_mget_self, upd_mget_ne _ _ _ _ h2, upd_mget_ne _ _ _ _ h2,
        upd_mget_self]
      exact OptRel_of_eq RecordEquiv RecordEquiv_refl rfl
    · subst h2
      rw [upd_mget_ne _ _ _ _ h1, upd_mget_self, upd_mget_self,
        upd_mget_ne _ _ _ _ h1]
      exact OptRel_of_eq RecordEquiv RecordEquiv_refl rfl
    · rw [upd_mget_ne _ _ _ _ h1, upd_mget_ne _ _ _ _ h2,
        upd_mget_ne _ _ _ _ h2, upd_mget_ne _ _ _ _ h1]
      exact OptRel_of_eq RecordEquiv RecordEquiv_refl rfl


/-! ### Lookup characterizations of the merge primitives -/

theorem find?_updateFirst_pres {α : Type} (p : α → Bool) (f : α → α)
    (hpf : ∀ x, p x = true → p (f x) = true) :
    ∀ l : List α, (updateFirst p f l).find? p = (l.find? p).map f := by
  intro l
  induction l with
  | nil => rfl
  | cons x xs ih =>
    by_cases hx : p x
    · rw [show updateFirst p f (x :: xs) = f x :: xs by simp [updateFirst, hx]]
      rw [List.find?_cons_of_pos _ (hpf x hx), List.find?_cons_of_pos _ hx]
      rfl
    · rw [show updateFirst p f (x :: xs) = x :: updateFirst p f xs by
        simp [updateFirst, hx]]
      rw [List.find?_cons_of_neg _ hx, List.find?_cons_of_neg _ hx]
      exact ih

theorem find?_updateFirst_other {α : Type} (p q : α → Bool) (f : α → α)
    (hdisj : ∀ x, p x = true → q x = false ∧ q (f x) = false) :
    ∀ l : List α, (updateFirst p f l).find? q = l.find? q := by
  intro l
  induction l with
  | nil => rfl
  | cons x xs ih =>
    by_cases hx : p x
    · rw [show updateFirst p f (x :: xs) = f x :: xs by simp [updateFirst, hx]]
      rw [List.find?_cons_of_neg _ (by simp [(hdisj x hx).2]),
        List.find?_cons_of_neg _ (by simp [(hdisj x hx).1])]
    · rw [show updateFirst p f (x :: xs) = x :: updateFirst p f xs by
        simp [updateFirst, hx]]
      by_cases hq : q x
      · rw [List.find?_cons_of_pos _ hq, List.find?_cons_of_pos _ hq]
      · rw [List.find?_cons_of_neg _ hq, List.find?_cons_of_neg _ hq]
        exact ih

theorem find?_mergeDetail_self (ct : String) (a u : ℚ) (cb : String)
    (dts : List ShortfallDetail) :
    (mergeDetail ct a u cb dts).find? (fun dd => dd.coinType == ct) =
      match dts.find? (fun dd => dd.coinType == ct) with
      | some d => some { d with amount := d.amount + a, usdValue := d.usdValue + u }
      | none => some ⟨ct, a, u, cb⟩ := by
  unfold mergeDetail
  cases hf : dts.find? (fun dd => dd.coinType == ct) with
  | some d =>
      dsimp only
      rw [find?_updateFirst_pres (fun dd => dd.coinType == ct)
        (fun d => { d with amount := d.amount + a, usdValue := d.usdValue + u })
        (fun x hx => hx) dts, hf]
      rfl
  | none =>
      dsimp only
      rw [List.find?_append, hf]
      have hbeq : (ct == ct) = true := by simp
      simp [List.find?, hbeq]

theorem find?_mergeDetail_ne (ct ct' : String) (a u : ℚ) (cb : String)
    (dts : List ShortfallDetail) (h : ct' ≠ ct) :
    (mergeDetail ct a u cb dts).find? (fun dd => dd.coinType == ct') =
      dts.find? (fun dd => dd.coinType == ct') := by
  unfold mergeDetail
  cases hf : dts.find? (fun dd => dd.coinType == ct) with
  | some d =>
      dsimp only
      refine find?_updateFirst_other _ _ _ ?_ dts
      intro x hx
      have hxct : x.coinType = ct := by simpa using hx
      constructor
      · simp [hxct, Ne.symm h]
      · simp [hxct, Ne.symm h]
  | none =>
      dsimp only
      rw [List.find?_append]
      rw [show (([⟨ct, a, u, cb⟩] : List ShortfallDetail).find?
          (fun dd => dd.coinType == ct')) = none by
        have hbeq : (ct == ct') = false := by simp [Ne.symm h]
        simp [List.find?, hbeq]]
      cases dts.find? (fun dd => dd.coinType == ct') <;> rfl

theorem find?_mergeEntry_self (k ct : String) (a u : ℚ) (cb : String)
    (lst : List EntityShortfall) :
    (mergeEntry k ct a u cb lst).find? (fun s => s.owesTo == k) =
      match lst.find? (fun s => s.owesTo == k) with
      | some s => some { s with
          shortfalls := mergeDetail ct a u cb s.shortfalls
          totalUsdValue := s.totalUsdValue + u }
      | none => some ⟨k, [⟨ct, a, u, cb⟩], u⟩ := by
  unfold mergeEntry
  cases hf : lst.find? (fun s => s.owesTo == k) with
  | some s =>
      dsimp only
      rw [find?_updateFirst_pres (fun s => s.owesTo == k)
        (fun s => { s with
          shortfalls := mergeDetail ct a u cb s.shortfalls
          totalUsdValue := s.totalUsdValue + u })
        (fun x hx => hx) lst, hf]
      rfl
  | none =>
      dsimp only
      rw [List.find?_append, hf]
      have hbeq : (k == k) = true := by simp
      simp [List.find?, hbeq]

theorem find?_mergeEntry_ne (k k' ct : String) (a u : ℚ) (cb : String)
    (lst : List EntityShortfall) (h : k' ≠ k) :
    (mergeEntry k ct a u cb lst).find? (fun s => s.owesTo == k') =
      lst.find? (fun s => s.owesTo == k') := by
  unfold mergeEntry
  cases hf : lst.find? (fun s => s.owesTo == k) with
  | some s =>
      dsimp only
      refine find?_updateFirst_other _ _ _ ?_ lst
      intro x hx
      have hxk : x.owesTo = k := by simpa using hx
      constructor
      · simp [hxk, Ne.symm h]
      · simp [hxk, Ne.symm h]
  | none =>
      dsimp only
      rw [List.find?_append]
      rw [show (([⟨k, [⟨ct, a, u, cb⟩], u⟩] : List EntityShortfall).find?
          (fun s => s.owesTo == k')) = none by
        have hbeq : (k == k') = false := by simp [Ne.symm h]
        simp [List.find?, hbeq]]
      cases lst.find? (fun s => s.owesTo == k') <;> rfl


/-! ### Congruence and commutation of the merges -/

theorem mergeDetail_cong (ct : String) (a u : ℚ) (cb : String)
    {d1 d2 : List ShortfallDetail} (h : DetailsEquiv d1 d2) :
    DetailsEquiv (mergeDetail ct a u cb d1) (mergeDetail ct a u cb d2) := by
  intro ct'
  by_cases hct : ct' = ct
  · subst hct
    rw [find?_mergeDetail_self, find?_mergeDetail_self, h ct']
  · rw [find?_mergeDetail_ne ct ct' a u cb d1 hct,
      find?_mergeDetail_ne ct ct' a u cb d2 hct]
    exact h ct'

theorem mergeDetail_comm_ne (ct1 ct2 : String) (a1 u1 a2 u2 : ℚ)
    (cb1 cb2 : String) (ds : List ShortfallDetail) (hct : ct1 ≠ ct2) :
    DetailsEquiv (mergeDetail ct1 a1 u1 cb1 (mergeDetail ct2 a2 u2 cb2 ds))
      (mergeDetail ct2 a2 u2 cb2 (mergeDetail ct1 a1 u1 cb1 ds)) := by
  intro ct'
  by_cases h1 : ct' = ct1
  · subst h1
    rw [show ct' = ct' from rfl] at hct
    rw [find?_mergeDetail_self ct' a1 u1 cb1 (mergeDetail ct2 a2 u2 cb2 ds),
      find?_mergeDetail_ne ct2 ct' a2 u2 cb2 ds hct,
      find?_mergeDetail_ne ct2 ct' a2 u2 cb2 (mergeDetail ct' a1 u1 cb1 ds) hct,
      find?_mergeDetail_self ct' a1 u1 cb1 ds]
  · by_cases h2 : ct' = ct2
    · subst h2
      rw [find?_mergeDetail_ne ct1 ct' a1 u1 cb1 (mergeDetail ct' a2 u2 cb2 ds) h1,
        find?_mergeDetail_self ct' a2 u2 cb2 ds,
        find?_mergeDetail_self ct' a2 u2 cb2 (mergeDetail ct1 a1 u1 cb1 ds),
        find?_mergeDetail_ne ct1 ct' a1 u1 cb1 ds h1]
    · rw [find?_mergeDetail_ne ct1 ct' a1 u1 cb1 _ h1,
        find?_mergeDetail_ne ct2 ct' a2 u2 cb2 ds h2,
        find?_mergeDetail_ne ct2 ct' a2 u2 cb2 _ h2,
        find?_mergeDetail_ne ct1 ct' a1 u1 cb1 ds h1]

theorem mergeEntry_cong (k ct : String) (a u : ℚ) (cb : String)
    {l1 l2 : List EntityShortfall} (h : EntriesEquiv l1 l2) :
    EntriesEquiv (mergeEntry k ct a u cb l1) (mergeEntry k ct a u cb l2) := by
  intro k'
  by_cases hk : k' = k
  · subst hk
    rw [find?_mergeEntry_self, find?_mergeEntry_self]
    have hkk := h k'
    cases hf1 : l1.find? (fun s => s.owesTo == k') with
    | none =>
        cases hf2 : l2.find? (fun s => s.owesTo == k') with
        | none => exact EntryEquiv_refl _
        | some s2 =>
            rw [hf1, hf2] at hkk
            exact absurd hkk id
    | some s1 =>
        cases hf2 : l2.find? (fun s => s.owesTo == k') with
        | none =>
            rw [hf1, hf2] at hkk
            exact absurd hkk id
        | some s2 =>
            rw [hf1, hf2] at hkk
            exact ⟨hkk.1, by rw [hkk.2.1], mergeDetail_cong ct a u cb hkk.2.2⟩
  · rw [find?_mergeEntry_ne k k' ct a u cb l1 hk,
      find?_mergeEntry_ne k k' ct a u cb l2 hk]
    exact h k'

theorem mergeEntry_comm_ne (k1 k2 ct1 ct2 : String) (a1 u1 a2 u2 : ℚ)
    (cb1 cb2 : String) (l : List EntityShortfall) (hk : k1 ≠ k2) :
    EntriesEquiv (mergeEntry k1 ct1 a1 u1 cb1 (mergeEntry k2 ct2 a2 u2 cb2 l))
      (mergeEntry k2 ct2 a2 u2 cb2 (mergeEntry k1 ct1 a1 u1 cb1 l)) := by
  intro k'
  by_cases h1 : k' = k1
  · subst h1
    refine OptRel_of_eq EntryEquiv EntryEquiv_refl ?_
    rw [find?_mergeEntry_self k' ct1 a1 u1 cb1 (mergeEntry k2 ct2 a2 u2 cb2 l),
      find?_mergeEntry_ne k2 k' ct2 a2 u2 cb2 l hk,
      find?_mergeEntry_ne k2 k' ct2 a2 u2 cb2 (mergeEntry k' ct1 a1 u1 cb1 l) hk,
      find?_mergeEntry_self k' ct1 a1 u1 cb1 l]
  · by_cases h2 : k' = k2
    · subst h2
      refine OptRel_of_eq EntryEquiv EntryEquiv_refl ?_
      rw [find?_mergeEntry_ne k1 k' ct1 a1 u1 cb1
          (mergeEntry k' ct2 a2 u2 cb2 l) (fun hh => hk (hh.symm ▸ rfl)),
        find?_mergeEntry_self k' ct2 a2 u2 cb2 l,
        find?_mergeEntry_self k' ct2 a2 u2 cb2 (mergeEntry k1 ct1 a1 u1 cb1 l),
        find?_mergeEntry_ne k1 k' ct1 a1 u1 cb1 l (fun hh => hk (hh.symm ▸ rfl))]
    · refine OptRel_of_eq EntryEquiv EntryEquiv_refl ?_
      rw [find?_mergeEntry_ne k1 k' ct1 a1 u1 cb1 _ h1,
        find?_mergeEntry_ne k2 k' ct2 a2 u2 cb2 l h2,
        find?_mergeEntry_ne k2 k' ct2 a2 u2 cb2 _ h2,
        find?_mergeEntry_ne k1 k' ct1 a1 u1 cb1 l h1]

theorem mergeEntry_comm_same (k ct1 ct2 : String) (a1 u1 a2 u2 : ℚ)
    (cb1 cb2 : String) (l : List EntityShortfall) (hct : ct1 ≠ ct2) :
    EntriesEquiv (mergeEntry k ct1 a1 u1 cb1 (mergeEntry k ct2 a2 u2 cb2 l))
      (mergeEntry k ct2 a2 u2 cb2 (mergeEntry k ct1 a1 u1 cb1 l)) := by
  intro k'
  by_cases hk : k' = k
  · subst hk
    rw [find?_mergeEntry_self k' ct1 a1 u1 cb1 (mergeEntry k' ct2 a2 u2 cb2 l),
      find?_mergeEntry_self k' ct2 a2 u2 cb2 l,
      find?_mergeEntry_self k' ct2 a2 u2 cb2 (mergeEntry k' ct1 a1 u1 cb1 l),
      find?_mergeEntry_self k' ct1 a1 u1 cb1 l]
    cases hf : l.find? (fun s => s.owesTo == k') with
    | some s =>
        refine ⟨rfl, by ring, ?_⟩
        exact mergeDetail_comm_ne ct1 ct2 a1 u1 a2 u2 cb1 cb2 s.shortfalls hct
    | none =>
        refine ⟨rfl, by ring, ?_⟩
        rw [show ([⟨ct2, a2, u2, cb2⟩] : List ShortfallDetail)
            = mergeDetail ct2 a2 u2 cb2 [] from rfl,
          show ([⟨ct1, a1, u1, cb1⟩] : List ShortfallDetail)
            = mergeDetail ct1 a1 u1 cb1 [] from rfl]
        exact mergeDetail_comm_ne ct1 ct2 a1 u1 a2 u2 cb1 cb2 [] hct
  · refine OptRel_of_eq EntryEquiv EntryEquiv_refl ?_
    rw [find?_mergeEntry_ne k k' ct1 a1 u1 cb1 _ hk,
      find?_mergeEntry_ne k k' ct2 a2 u2 cb2 l hk,
      find?_mergeEntry_ne k k' ct2 a2 u2 cb2 _ hk,
      find?_mergeEntry_ne k k' ct1 a1 u1 cb1 l hk]


/-! ### The record updates are monotone and commute -/

theorem recvF_mono (o ct : String) (a u : ℚ) : MonoF (recvF o ct a u) := by
  intro d1 d2 h
  obtain ⟨h1, h2, h3, h4, h5, h6, h7, h8, h9, h10, h11, h12, h13⟩ := h
  exact ⟨h1, h2, h3, h4, h5, h6, h7, h8, h9, h10, h11,
    mergeEntry_cong o ct a u o h12, h13⟩

theorem causF_mono (c ct : String) (a u : ℚ) (o : String) :
    MonoF (causF c ct a u o) := by
  intro d1 d2 h
  obtain ⟨h1, h2, h3, h4, h5, h6, h7, h8, h9, h10, h11, h12, h13⟩ := h
  exact ⟨h1, h2, h3, h4, h5, h6, h7, h8, h9, h10, h11, h12,
    mergeEntry_cong c ct a u o h13⟩

theorem sbcF_mono (ct : String) (a : ℚ) : MonoF (sbcF ct a) := by
  intro d1 d2 h
  obtain ⟨h1, h2, h3, h4, h5, h6, h7, h8, h9, h10, h11, h12, h13⟩ := h
  unfold sbcF
  by_cases hl : d1.totalLiabilities ≠ []
  · rw [if_pos hl, if_pos (h5 ▸ hl)]
    refine ⟨h1, h2, h3, h4, h5, h6, h7, h8, h9, h10, ?_, h12, h13⟩
    intro ct'
    by_cases hct : ct' = ct
    · subst hct
      rw [mget_mset_self, mget_mset_self, h11 ct']
    · rw [mget_mset_ne _ _ _ _ (Ne.symm hct), mget_mset_ne _ _ _ _ (Ne.symm hct)]
      exact h11 ct'
  · rw [if_neg hl, if_neg (h5 ▸ hl)]
    exact ⟨h1, h2, h3, h4, h5, h6, h7, h8, h9, h10, h11, h12, h13⟩

theorem recvF_recvF_comm (o1 ct1 : String) (a1 u1 : ℚ) (o2 ct2 : String)
    (a2 u2 : ℚ) (h : o1 ≠ o2 ∨ ct1 ≠ ct2) (d : EntitySolvencyData) :
    RecordEquiv (recvF o1 ct1 a1 u1 (recvF o2 ct2 a2 u2 d))
      (recvF o2 ct2 a2 u2 (recvF o1 ct1 a1 u1 d)) := by
  unfold recvF
  refine ⟨rfl, rfl, rfl, rfl, rfl, rfl, rfl, rfl, rfl, rfl, fun _ => rfl, ?_,
    EntriesEquiv_refl _⟩
  by_cases ho : o1 = o2
  · subst ho
    rcases h with ho' | hct
    · exact absurd rfl ho'
    · exact mergeEntry_comm_same o1 ct1 ct2 a1 u1 a2 u2 o1 o1 d.shortfallsReceived hct
  · exact mergeEntry_comm_ne o1 o2 ct1 ct2 a1 u1 a2 u2 o1 o2 d.shortfallsReceived ho

theorem causF_causF_comm (c1 ct1 : String) (a1 u1 : ℚ) (o1 : String)
    (c2 ct2 : String) (a2 u2 : ℚ) (o2 : String)
    (h : c1 ≠ c2 ∨ ct1 ≠ ct2) (d : EntitySolvencyData) :
    RecordEquiv (causF c1 ct1 a1 u1 o1 (causF c2 ct2 a2 u2 o2 d))
      (causF c2 ct2 a2 u2 o2 (causF c1 ct1 a1 u1 o1 d)) := by
  unfold causF
  refine ⟨rfl, rfl, rfl, rfl, rfl, rfl, rfl, rfl, rfl, rfl, fun _ => rfl,
    EntriesEquiv_refl _, ?_⟩
  by_cases hc : c1 = c2
  · subst hc
    rcases h with hc' | hct
    · exact absurd rfl hc'
    · exact mergeEntry_comm_same c1 ct1 ct2 a1 u1 a2 u2 o1 o2 d.shortfallsCaused hct
  · exact mergeEntry_comm_ne c1 c2 ct1 ct2 a1 u1 a2 u2 o1 o2 d.shortfallsCaused hc

theorem recvF_causF_comm (o1 ct1 : String) (a1 u1 : ℚ) (c ct : String)
    (a u : ℚ) (o : String) (d : EntitySolvencyData) :
    recvF o1 ct1 a1 u1 (causF c ct a u o d) = causF c ct a u o (recvF o1 ct1 a1 u1 d) := rfl

theorem recvF_sbcF_comm (o1 ct1 : String) (a1 u1 : ℚ) (ct : String) (a : ℚ)
    (d : EntitySolvencyData) :
    recvF o1 ct1 a1 u1 (sbcF ct a d) = sbcF ct a (recvF o1 ct1 a1 u1 d) := by
  unfold sbcF
  by_cases hl : d.totalLiabilities ≠ []
  · rw [if_pos hl, if_pos (show (recvF o1 ct1 a1 u1 d).totalLiabilities ≠ [] from hl)]
    rfl
  · rw [if_neg hl, if_neg (show ¬ (recvF o1 ct1 a1 u1 d).totalLiabilities ≠ [] from hl)]

theorem causF_sbcF_comm (c ct' : String) (a' u' : ℚ) (o : String) (ct : String)
    (a : ℚ) (d : EntitySolvencyData) :
    causF c ct' a' u' o (sbcF ct a d) = sbcF ct a (causF c ct' a' u' o d) := by
  unfold sbcF
  by_cases hl : d.totalLiabilities ≠ []
  · rw [if_pos hl, if_pos (show (causF c ct' a' u' o d).totalLiabilities ≠ [] from hl)]
    rfl
  · rw [if_neg hl, if_neg (show ¬ (causF c ct' a' u' o d).totalLiabilities ≠ [] from hl)]

theorem sbcF_sbcF_comm (ct1 : String) (a1 : ℚ) (ct2 : String) (a2 : ℚ)
    (d : EntitySolvencyData) :
    RecordEquiv (sbcF ct1 a1 (sbcF ct2 a2 d)) (sbcF ct2 a2 (sbcF ct1 a1 d)) := by
  unfold sbcF
  by_cases hl : d.totalLiabilities ≠ []
  · rw [if_pos hl]
    rw [if_pos (show ({ d with shortfallsByCoin := mset d.shortfallsByCoin ct2 (((mget d.shortfallsByCoin ct2).getD 0) + a2) } : EntitySolvencyData).totalLiabilities ≠ [] from hl)]
    rw [if_pos hl]
    rw [if_pos (show ({ d with shortfallsByCoin := mset d.shortfallsByCoin ct1 (((mget d.shortfallsByCoin ct1).getD 0) + a1) } : EntitySolvencyData).totalLiabilities ≠ [] from hl)]
    refine ⟨rfl, rfl, rfl, rfl, rfl, rfl, rfl, rfl, rfl, rfl, ?_,
      EntriesEquiv_refl _, EntriesEquiv_refl _⟩
    intro k
    by_cases e1 : k = ct1 <;> by_cases e2 : k = ct2
    · subst e1
      rw [← e2]
      rw [mget_mset_self, mget_mset_self, mget_mset_self, mget_mset_self]
      simp only [Option.getD_some]
      refine congrArg some ?_
      ring
    · subst e1
      rw [mget_mset_self, mget_mset_ne _ _ _ _ (Ne.symm e2),
        mget_mset_ne _ _ _ _ (Ne.symm e2), mget_mset_self]
    · subst e2
      rw [mget_mset_ne _ _ _ _ (Ne.symm e1), mget_mset_self, mget_mset_self,
        mget_mset_ne _ _ _ _ (Ne.symm e1)]
    · rw [mget_mset_ne _ _ _ _ (Ne.symm e1), mget_mset_ne _ _ _ _ (Ne.symm e2),
        mget_mset_ne _ _ _ _ (Ne.symm e2), mget_mset_ne _ _ _ _ (Ne.symm e1)]
  · simp only [if_neg hl]
    exact RecordEquiv_refl d


/-! ### Keyed-update sequences: congruence, swapping, blocks -/

theorem RecordEquiv_of_eq {d1 d2 : EntitySolvencyData} (h : d1 = d2) :
    RecordEquiv d1 d2 := by
  subst h
  exact RecordEquiv_refl d1

theorem CommPair_symm {p q : String × (EntitySolvencyData → EntitySolvencyData)}
    (h : CommPair p q) : CommPair q p :=
  fun heq d => RecordEquiv_symm (h heq.symm d)

theorem updList_mkeys (l : List (String × (EntitySolvencyData → EntitySolvencyData))) :
    ∀ st, mkeys (updList l st) = mkeys st := by
  induction l with
  | nil => intro st; rfl
  | cons p rest ih =>
    intro st
    show mkeys (updList rest (upd st p.1 p.2)) = mkeys st
    rw [ih (upd st p.1 p.2), upd_mkeys]

theorem updList_cong (l : List (String × (EntitySolvencyData → EntitySolvencyData)))
    (hm : ∀ p ∈ l, MonoF p.2) :
    ∀ {s t}, StateEquiv s t → StateEquiv (updList l s) (updList l t) := by
  induction l with
  | nil => intro s t h; exact h
  | cons p rest ih =>
    intro s t h
    show StateEquiv (updList rest (upd s p.1 p.2)) (updList rest (upd t p.1 p.2))
    exact ih (fun q hq => hm q (List.mem_cons_of_mem _ hq))
      (upd_cong s t p.1 p.2 (hm p (List.mem_cons_self _ _)) h)

theorem upd_updList_swap (k : String) (f : EntitySolvencyData → EntitySolvencyData) :
    ∀ (l : List (String × (EntitySolvencyData → EntitySolvencyData))),
      (∀ p ∈ l, MonoF p.2) → (∀ p ∈ l, CommPair (k, f) p) →
      ∀ st, StateEquiv (updList l (upd st k f)) (upd (updList l st) k f) := by
  intro l
  induction l with
  | nil => intro _ _ st; exact StateEquiv_refl _
  | cons p rest ih =>
    intro hm hc st
    show StateEquiv (updList rest (upd (upd st k f) p.1 p.2)) _
    have hswap : StateEquiv (upd (upd st k f) p.1 p.2) (upd (upd st p.1 p.2) k f) :=
      upd_upd_equiv st p.1 k p.2 f
        (fun heq d => RecordEquiv_symm (hc p (List.mem_cons_self _ _) heq.symm d))
    refine StateEquiv_trans
      (updList_cong rest (fun q hq => hm q (List.mem_cons_of_mem _ hq)) hswap) ?_
    exact ih (fun q hq => hm q (List.mem_cons_of_mem _ hq))
      (fun q hq => hc q (List.mem_cons_of_mem _ hq)) (upd st p.1 p.2)

theorem updList_block_swap
    (l1 l2 : List (String × (EntitySolvencyData → EntitySolvencyData)))
    (hm1 : ∀ p ∈ l1, MonoF p.2) (hm2 : ∀ p ∈ l2, MonoF p.2)
    (hc : ∀ p ∈ l1, ∀ q ∈ l2, CommPair p q) :
    ∀ st, StateEquiv (updList l2 (updList l1 st)) (updList l1 (updList l2 st)) := by
  induction l1 with
  | nil => intro st; exact StateEquiv_refl _
  | cons p r1 ih =>
    intro st
    show StateEquiv (updList l2 (updList r1 (upd st p.1 p.2))) _
    refine StateEquiv_trans
      (ih (fun q hq => hm1 q (List.mem_cons_of_mem _ hq))
        (fun q hq q' hq' => hc q (List.mem_cons_of_mem _ hq) q' hq')
        (upd st p.1 p.2)) ?_
    have hinner : StateEquiv (updList l2 (upd st p.1 p.2))
        (upd (updList l2 st) p.1 p.2) := by
      exact upd_updList_swap p.1 p.2 l2 hm2
        (fun q hq => hc p (List.mem_cons_self _ _) q hq) st
    exact updList_cong r1 (fun q hq => hm1 q (List.mem_cons_of_mem _ hq)) hinner

theorem OptRel_isSome_eq {α : Type} {R : α → α → Prop} {o1 o2 : Option α}
    (h : OptRel R o1 o2) : o1.isSome = o2.isSome := by
  cases o1 <;> cases o2 <;> first | rfl | exact absurd h id

/-! ### The allocation as a keyed-update sequence -/

theorem applyAllocation_eq (o ct : String) (st : AList EntitySolvencyData)
    (al : String × ℚ × ℚ) :
    applyAllocation o ct st al =
      if (mget st al.1).isSome then updList (allocUpds o ct al) st else st := by
  unfold applyAllocation
  cases hg : mget st al.1 with
  | none =>
      rw [if_neg (by simp)]
  | some cd =>
      rw [if_pos (by simp)]
      show addSBC (addCaused (addReceived st al.1 o ct al.2.1 al.2.2)
        o al.1 ct al.2.1 al.2.2) al.1 ct al.2.1 = _
      rw [addReceived_eq_upd, addCaused_eq_upd, addSBC_eq_upd]
      rfl

theorem allocUpds_mono (o ct : String) (al : String × ℚ × ℚ) :
    ∀ p ∈ allocUpds o ct al, MonoF p.2 := by
  intro p hp
  unfold allocUpds at hp
  rcases List.mem_cons.mp hp with rfl | hp
  · exact recvF_mono o ct al.2.1 al.2.2
  rcases List.mem_cons.mp hp with rfl | hp
  · exact causF_mono al.1 ct al.2.1 al.2.2 o
  rcases List.mem_cons.mp hp with rfl | hp
  · exact sbcF_mono ct al.2.1
  · exact absurd hp (List.not_mem_nil p)

theorem allocUpds_cross_comm (o1 ct1 : String) (al1 : String × ℚ × ℚ)
    (o2 ct2 : String) (al2 : String × ℚ × ℚ) (h : o1 ≠ o2 ∨ ct1 ≠ ct2) :
    ∀ p ∈ allocUpds o1 ct1 al1, ∀ q ∈ allocUpds o2 ct2 al2, CommPair p q := by
  intro p hp q hq
  simp only [allocUpds, List.mem_cons, List.not_mem_nil, or_false] at hp hq
  rcases hp with rfl | rfl | rfl <;> rcases hq with rfl | rfl | rfl
  · exact fun _ d => recvF_recvF_comm o1 ct1 al1.2.1 al1.2.2 o2 ct2 al2.2.1 al2.2.2 h d
  · exact fun _ d => RecordEquiv_of_eq (recvF_causF_comm o1 ct1 al1.2.1 al1.2.2
      al2.1 ct2 al2.2.1 al2.2.2 o2 d)
  · exact fun _ d => RecordEquiv_of_eq (recvF_sbcF_comm o1 ct1 al1.2.1 al1.2.2 ct2 al2.2.1 d)
  · exact fun _ d => RecordEquiv_of_eq (recvF_causF_comm o2 ct2 al2.2.1 al2.2.2
      al1.1 ct1 al1.2.1 al1.2.2 o1 d).symm
  · exact fun heq d => causF_causF_comm al1.1 ct1 al1.2.1 al1.2.2 o1 al2.1 ct2
      al2.2.1 al2.2.2 o2 (Or.inr (h.resolve_left (not_not_intro heq))) d
  · exact fun _ d => RecordEquiv_of_eq (causF_sbcF_comm al1.1 ct1 al1.2.1 al1.2.2
      o1 ct2 al2.2.1 d)
  · exact fun _ d => RecordEquiv_of_eq (recvF_sbcF_comm o2 ct2 al2.2.1 al2.2.2
      ct1 al1.2.1 d).symm
  · exact fun _ d => RecordEquiv_of_eq (causF_sbcF_comm al2.1 ct2 al2.2.1 al2.2.2
      o2 ct1 al1.2.1 d).symm
  · exact fun _ d => sbcF_sbcF_comm ct1 al1.2.1 ct2 al2.2.1 d

theorem presence_of_mkeys_eq {st1 st2 : AList EntitySolvencyData} (k : String)
    (h : mkeys st1 = mkeys st2) : (mget st1 k).isSome = (mget st2 k).isSome := by
  cases h1 : (mget st1 k).isSome <;> cases h2 : (mget st2 k).isSome
  · rfl
  · exact absurd ((mget_isSome_iff st1 k).mpr (h ▸ (mget_isSome_iff st2 k).mp h2))
      (by rw [h1]; exact Bool.false_ne_true)
  · exact absurd ((mget_isSome_iff st2 k).mpr (h ▸ (mget_isSome_iff st1 k).mp h1))
      (by rw [h2]; exact Bool.false_ne_true)
  · rfl

theorem applyAllocation_cong (o ct : String) (st1 st2 : AList EntitySolvencyData)
    (al : String × ℚ × ℚ) (h : StateEquiv st1 st2) :
    StateEquiv (applyAllocation o ct st1 al) (applyAllocation o ct st2 al) := by
  rw [applyAllocation_eq, applyAllocation_eq]
  have hpres : (mget st1 al.1).isSome = (mget st2 al.1).isSome :=
    presence_of_mkeys_eq al.1 h.1
  by_cases h1 : (mget st1 al.1).isSome
  · rw [if_pos h1, if_pos (hpres ▸ h1)]
    exact updList_cong (allocUpds o ct al) (allocUpds_mono o ct al) h
  · rw [if_neg h1, if_neg (hpres ▸ h1)]
    exact h

theorem applyAllocation_comm (o1 ct1 : String) (al1 : String × ℚ × ℚ)
    (o2 ct2 : String) (al2 : String × ℚ × ℚ) (h : o1 ≠ o2 ∨ ct1 ≠ ct2)
    (st : AList EntitySolvencyData) :
    StateEquiv (applyAllocation o2 ct2 (applyAllocation o1 ct1 st al1) al2)
      (applyAllocation o1 ct1 (applyAllocation o2 ct2 st al2) al1) := by
  have hk1 : mkeys (applyAllocation o1 ct1 st al1) = mkeys st :=
    mkeys_applyAllocation o1 ct1 st al1
  have hk2 : mkeys (applyAllocation o2 ct2 st al2) = mkeys st :=
    mkeys_applyAllocation o2 ct2 st al2
  rw [applyAllocation_eq o2 ct2 (applyAllocation o1 ct1 st al1) al2,
    applyAllocation_eq o1 ct1 (applyAllocation o2 ct2 st al2) al1]
  have hp2 : (mget (applyAllocation o1 ct1 st al1) al2.1).isSome
      = (mget st al2.1).isSome := presence_of_mkeys_eq al2.1 hk1
  have hp1 : (mget (applyAllocation o2 ct2 st al2) al1.1).isSome
      = (mget st al1.1).isSome := presence_of_mkeys_eq al1.1 hk2
  rw [hp1, hp2, applyAllocation_eq o1 ct1 st al1, applyAllocation_eq o2 ct2 st al2]
  by_cases h1 : (mget st al1.1).isSome <;> by_cases h2 : (mget st al2.1).isSome
  · simp only [if_pos h1, if_pos h2]
    exact updList_block_swap (allocUpds o1 ct1 al1) (allocUpds o2 ct2 al2)
      (allocUpds_mono o1 ct1 al1) (allocUpds_mono o2 ct2 al2)
      (allocUpds_cross_comm o1 ct1 al1 o2 ct2 al2 h) st
  · simp only [if_pos h1, if_neg h2]
    exact StateEquiv_refl _
  · simp only [if_neg h1, if_pos h2]
    exact StateEquiv_refl _
  · simp only [if_neg h1, if_neg h2]
    exact StateEquiv_refl _


/-! ### Fold-level congruence and commutation over state equivalence -/

theorem pcs_eq_foldl (eid : String) (obc : AList (AList ℚ)) (prices : Prices)
    (st : AList EntitySolvencyData) (en : String × ℚ) :
    processCoinShortfall eid obc prices st en =
      (pcsList obc prices en).foldl (applyAllocation eid en.1) st := by
  unfold processCoinShortfall pcsList
  dsimp only
  by_cases h : 0 < coinTotal obc en.1
  · rw [if_pos h, if_pos h]
    cases prices en.1 <;> rfl
  · rw [if_neg h, if_neg h]
    rfl

theorem foldl_equiv_cong {α : Type}
    (f : AList EntitySolvencyData → α → AList EntitySolvencyData)
    (hf : ∀ x a b, StateEquiv a b → StateEquiv (f a x) (f b x)) :
    ∀ (l : List α) (a b), StateEquiv a b →
      StateEquiv (l.foldl f a) (l.foldl f b) := by
  intro l
  induction l with
  | nil => intro a b h; exact h
  | cons x t ih => intro a b h; exact ih (f a x) (f b x) (hf x a b h)

theorem foldl_single_comm {α β : Type}
    (f : AList EntitySolvencyData → α → AList EntitySolvencyData)
    (g : AList EntitySolvencyData → β → AList EntitySolvencyData) (x : α)
    (hg : ∀ y a b, StateEquiv a b → StateEquiv (g a y) (g b y))
    (hcomm : ∀ y st, StateEquiv (g (f st x) y) (f (g st y) x)) :
    ∀ (l : List β) (st), StateEquiv (l.foldl g (f st x)) (f (l.foldl g st) x) := by
  intro l
  induction l with
  | nil => intro st; exact StateEquiv_refl _
  | cons y t ih =>
      intro st
      show StateEquiv (t.foldl g (g (f st x) y)) _
      refine StateEquiv_trans (foldl_equiv_cong g hg t _ _ (hcomm y st)) ?_
      exact ih (g st y)

theorem foldl_foldl_comm {α β : Type}
    (f : AList EntitySolvencyData → α → AList EntitySolvencyData)
    (g : AList EntitySolvencyData → β → AList EntitySolvencyData)
    (hf : ∀ x a b, StateEquiv a b → StateEquiv (f a x) (f b x))
    (hg : ∀ y a b, StateEquiv a b → StateEquiv (g a y) (g b y))
    (hcomm : ∀ x y st, StateEquiv (g (f st x) y) (f (g st y) x)) :
    ∀ (l1 : List α) (l2 : List β) (st),
      StateEquiv (l2.foldl g (l1.foldl f st)) (l1.foldl f (l2.foldl g st)) := by
  intro l1
  induction l1 with
  | nil => intro l2 st; exact StateEquiv_refl _
  | cons x t ih =>
      intro l2 st
      show StateEquiv (l2.foldl g (t.foldl f (f st x))) _
      refine StateEquiv_trans (ih l2 (f st x)) ?_
      exact foldl_equiv_cong f hf t _ _
        (foldl_single_comm f g x hg (fun y s => hcomm x y s) l2 st)

theorem foldl_perm_equiv {α : Type}
    (f : AList EntitySolvencyData → α → AList EntitySolvencyData)
    (R : α → α → Prop) (hR : Symmetric R)
    (hcong : ∀ x a b, StateEquiv a b → StateEquiv (f a x) (f b x))
    (hcomm : ∀ x y, R x y → ∀ st, StateEquiv (f (f st x) y) (f (f st y) x)) :
    ∀ {l1 l2 : List α}, l1.Perm l2 → l1.Pairwise R →
      ∀ st, StateEquiv (l1.foldl f st) (l2.foldl f st) := by
  intro l1 l2 hp
  induction hp with
  | nil => intro _ st; exact StateEquiv_refl _
  | cons x p ih =>
      intro hpw st
      exact ih (List.Pairwise.of_cons hpw) (f st x)
  | swap x y l =>
      intro hpw st
      have hr : R y x := (List.pairwise_cons.mp hpw).1 x (List.mem_cons_self _ _)
      exact foldl_equiv_cong f hcong l _ _ (hcomm y x hr st)
  | trans p1 p2 ih1 ih2 =>
      intro hpw st
      exact StateEquiv_trans (ih1 hpw st) (ih2 ((p1.pairwise_iff (fun hab => hR hab)).mp hpw) st)

theorem alist_perm_of_mget {α : Type} (m1 m2 : AList α)
    (h1 : (mkeys m1).Nodup) (h2 : (mkeys m2).Nodup)
    (h : ∀ k, mget m1 k = mget m2 k) : m1.Perm m2 := by
  have hn1 : m1.Nodup := List.Nodup.of_map _ h1
  have hn2 : m2.Nodup := List.Nodup.of_map _ h2
  refine (List.perm_ext_iff_of_nodup hn1 hn2).mpr ?_
  intro x
  obtain ⟨k, v⟩ := x
  constructor
  · intro hm
    exact mget_mem m2 k v ((h k) ▸ mget_of_mem_nodup m1 k v h1 hm)
  · intro hm
    exact mget_mem m1 k v ((h k).symm ▸ mget_of_mem_nodup m2 k v h2 hm)

theorem pcs_cong (eid : String) (obc : AList (AList ℚ)) (prices : Prices)
    (en : String × ℚ) (st1 st2 : AList EntitySolvencyData)
    (h : StateEquiv st1 st2) :
    StateEquiv (processCoinShortfall eid obc prices st1 en)
      (processCoinShortfall eid obc prices st2 en) := by
  rw [pcs_eq_foldl, pcs_eq_foldl]
  exact foldl_equiv_cong _
    (fun al a b hab => applyAllocation_cong eid en.1 a b al hab) _ _ _ h

theorem pcs_comm (eid1 eid2 : String) (obc1 obc2 : AList (AList ℚ))
    (prices : Prices) (en1 en2 : String × ℚ)
    (h : eid1 ≠ eid2 ∨ en1.1 ≠ en2.1) (st : AList EntitySolvencyData) :
    StateEquiv
      (processCoinShortfall eid2 obc2 prices
        (processCoinShortfall eid1 obc1 prices st en1) en2)
      (processCoinShortfall eid1 obc1 prices
        (processCoinShortfall eid2 obc2 prices st en2) en1) := by
  rw [pcs_eq_foldl, pcs_eq_foldl, pcs_eq_foldl, pcs_eq_foldl]
  exact foldl_foldl_comm (applyAllocation eid1 en1.1) (applyAllocation eid2 en2.1)
    (fun al a b hab => applyAllocation_cong eid1 en1.1 a b al hab)
    (fun al a b hab => applyAllocation_cong eid2 en2.1 a b al hab)
    (fun al1 al2 s => applyAllocation_comm eid1 en1.1 al1 eid2 en2.1 al2 h s)
    (pcsList obc1 prices en1) (pcsList obc2 prices en2) st


/-! ### Keys untouched by propagation writes -/

theorem mget_applyAllocation_other (o ct : String) (st : AList EntitySolvencyData)
    (al : String × ℚ × ℚ) (k : String) (h1 : k ≠ al.1) (h2 : k ≠ o) :
    mget (applyAllocation o ct st al) k = mget st k := by
  rw [applyAllocation_eq]
  by_cases hp : (mget st al.1).isSome
  · rw [if_pos hp]
    show mget (upd (upd (upd st al.1 (recvF o ct al.2.1 al.2.2)) o
      (causF al.1 ct al.2.1 al.2.2 o)) al.1 (sbcF ct al.2.1)) k = mget st k
    rw [upd_mget_ne _ _ _ _ h1, upd_mget_ne _ _ _ _ h2, upd_mget_ne _ _ _ _ h1]
  · rw [if_neg hp]

theorem mem_pcsList (obc : AList (AList ℚ)) (prices : Prices) (en : String × ℚ)
    (al : String × ℚ × ℚ) (h : al ∈ pcsList obc prices en) : al.1 ∈ mkeys obc := by
  unfold pcsList at h
  by_cases hc : 0 < coinTotal obc en.1
  · rw [if_pos hc] at h
    cases hpr : prices en.1 with
    | none =>
        rw [hpr] at h
        exact absurd h (List.not_mem_nil al)
    | some price =>
        rw [hpr] at h
        dsimp only at h
        rw [coinAllocations_eq] at h
        obtain ⟨en', hen', hsome⟩ := List.mem_filterMap.mp h
        dsimp only at hsome
        by_cases hpos : 0 < (mget en'.2 en.1).getD 0
        · rw [if_pos hpos, Option.some.injEq] at hsome
          exact List.mem_map.mpr ⟨en', hen', by rw [← hsome]⟩
        · rw [if_neg hpos] at hsome
          exact Option.noConfusion hsome
  · rw [if_neg hc] at h
    exact absurd h (List.not_mem_nil al)

theorem mget_foldAllocs_other (o ct : String) (k : String) (hko : k ≠ o) :
    ∀ (allocs : List (String × ℚ × ℚ)), (∀ al ∈ allocs, k ≠ al.1) →
      ∀ st, mget (allocs.foldl (applyAllocation o ct) st) k = mget st k := by
  intro allocs
  induction allocs with
  | nil => intro _ st; rfl
  | cons al t ih =>
      intro hal st
      show mget (t.foldl (applyAllocation o ct) (applyAllocation o ct st al)) k = _
      rw [ih (fun al' h' => hal al' (List.mem_cons_of_mem _ h')) _,
        mget_applyAllocation_other o ct st al k (hal al (List.mem_cons_self _ _)) hko]

theorem mget_pcs_other (eid : String) (obc : AList (AList ℚ)) (prices : Prices)
    (k : String) (hk : k ≠ eid) (hobc : k ∉ mkeys obc) (en : String × ℚ)
    (st : AList EntitySolvencyData) :
    mget (processCoinShortfall eid obc prices st en) k = mget st k := by
  rw [pcs_eq_foldl]
  exact mget_foldAllocs_other eid en.1 k hk (pcsList obc prices en)
    (fun al hal heq => hobc (heq ▸ mem_pcsList obc prices en al hal)) st

theorem mget_foldPcs_other (eid : String) (obc : AList (AList ℚ)) (prices : Prices)
    (k : String) (hk : k ≠ eid) (hobc : k ∉ mkeys obc) :
    ∀ (snap : List (String × ℚ)) (st),
      mget (snap.foldl (processCoinShortfall eid obc prices) st) k = mget st k := by
  intro snap
  induction snap with
  | nil => intro st; rfl
  | cons en t ih =>
      intro st
      show mget (t.foldl _ (processCoinShortfall eid obc prices st en)) k = _
      rw [ih (processCoinShortfall eid obc prices st en),
        mget_pcs_other eid obc prices k hk hobc en st]

theorem mkeys_pcs (eid : String) (obc : AList (AList ℚ)) (prices : Prices)
    (st : AList EntitySolvencyData) (en : String × ℚ) :
    mkeys (processCoinShortfall eid obc prices st en) = mkeys st := by
  rw [pcs_eq_foldl]
  exact mkeys_foldAllocs eid en.1 (pcsList obc prices en) st

theorem mkeys_foldPcs (eid : String) (obc : AList (AList ℚ)) (prices : Prices) :
    ∀ (snap : List (String × ℚ)) (st : AList EntitySolvencyData),
      mkeys (snap.foldl (processCoinShortfall eid obc prices) st) = mkeys st := by
  intro snap
  induction snap with
  | nil => intro st; rfl
  | cons en t ih =>
      intro st
      show mkeys (t.foldl _ (processCoinShortfall eid obc prices st en)) = _
      rw [ih, mkeys_pcs]

theorem mkeys_propagate (eid : String) (st : AList EntitySolvencyData)
    (entities : List Entity) (prices : Prices) :
    mkeys (propagateEntityShortfalls eid st entities prices) = mkeys st := by
  unfold propagateEntityShortfalls
  cases entities.find? (fun e => e.id == eid) with
  | none => rfl
  | some entity =>
      cases mget st eid with
      | none => rfl
      | some data => exact mkeys_foldPcs eid _ prices data.shortfallsByCoin st

theorem mkeys_runPropagation (entities : List Entity) (prices : Prices) :
    ∀ (order : List String) (st : AList EntitySolvencyData),
      mkeys (runPropagation order st entities prices) = mkeys st := by
  intro order
  induction order with
  | nil => intro st; rfl
  | cons eid t ih =>
      intro st
      show mkeys (runPropagation t (propagateEntityShortfalls eid st entities prices) entities prices) = _
      rw [ih, mkeys_propagate]

theorem propagate_id_of_none (eid : String) (st : AList EntitySolvencyData)
    (entities : List Entity) (prices : Prices)
    (h : entities.find? (fun e => e.id == eid) = none ∨ mget st eid = none) :
    propagateEntityShortfalls eid st entities prices = st := by
  unfold propagateEntityShortfalls
  rcases h with h | h
  · rw [h]
  · rw [h]
    cases entities.find? (fun e => e.id == eid) <;> rfl

theorem mkeys_obligationsByCreditor_sub (e : Entity) (k : String)
    (h : k ∈ mkeys (obligationsByCreditor e)) :
    ∃ ob ∈ e.obligations, ob.to_ = k := by
  unfold obligationsByCreditor at h
  refine foldl_invariant _
    (fun acc => ∀ k', k' ∈ mkeys acc → ∃ ob ∈ e.obligations, ob.to_ = k')
    e.obligations ?_ [] ?_ k h
  · intro acc ob hob hP k' hk'
    dsimp only at hk'
    cases hasset : ob.asset with
    | coin c amt =>
        simp only [hasset] at hk'
        rcases (mem_mkeys_mset _ _ _ _).mp hk' with rfl | hmem
        · exact ⟨ob, hob, rfl⟩
        · exact hP k' hmem
    | lp cA cB aA aB =>
        simp only [hasset] at hk'
        rcases (mem_mkeys_mset _ _ _ _).mp hk' with rfl | hmem
        · exact ⟨ob, hob, rfl⟩
        · exact hP k' hmem
  · intro k' hk'
    simp [mkeys] at hk'

theorem mget_propagate_other (eid : String) (entities : List Entity)
    (prices : Prices) (st : AList EntitySolvencyData) (k : String)
    (hk : k ≠ eid) (hkn : k ∈ nodeIds entities)
    (hne : (eid, k) ∉ buildEdges entities) :
    mget (propagateEntityShortfalls eid st entities prices) k = mget st k := by
  unfold propagateEntityShortfalls
  cases hf : entities.find? (fun e => e.id == eid) with
  | none => rfl
  | some entity =>
      cases hg : mget st eid with
      | none => rfl
      | some data =>
          have hid : entity.id = eid := by
            have := List.find?_some hf
            simpa using this
          have hobc : k ∉ mkeys (obligationsByCreditor entity) := by
            intro hmem
            obtain ⟨ob, hob, hto⟩ := mkeys_obligationsByCreditor_sub entity k hmem
            exact hne ((mem_buildEdges entities (eid, k)).mpr
              ⟨entity, List.mem_of_find?_eq_some hf, hid, ob, hob, hto, hkn⟩)
          exact mget_foldPcs_other eid _ prices k hk hobc data.shortfallsByCoin st

/-! ### The per-record sbc-key-distinctness invariant -/

theorem NodupSBC_upd (st : AList EntitySolvencyData) (k : String)
    (f : EntitySolvencyData → EntitySolvencyData)
    (hf : ∀ cd, (mkeys cd.shortfallsByCoin).Nodup →
      (mkeys (f cd).shortfallsByCoin).Nodup)
    (h : NodupSBC st) : NodupSBC (upd st k f) := by
  unfold upd
  cases hg : mget st k with
  | none => exact h
  | some cd =>
      intro en hen
      rcases mem_mset_cases st k (f cd) en hen with hmem | ⟨hk, hv⟩
      · exact h en hmem
      · rw [hv]
        exact hf cd (h (k, cd) (mget_mem st k cd hg))

theorem NodupSBC_applyAllocation (o ct : String) (st : AList EntitySolvencyData)
    (al : String × ℚ × ℚ) (h : NodupSBC st) :
    NodupSBC (applyAllocation o ct st al) := by
  rw [applyAllocation_eq]
  by_cases hp : (mget st al.1).isSome
  · rw [if_pos hp]
    show NodupSBC (upd (upd (upd st al.1 (recvF o ct al.2.1 al.2.2)) o
      (causF al.1 ct al.2.1 al.2.2 o)) al.1 (sbcF ct al.2.1))
    refine NodupSBC_upd _ _ _ ?_ (NodupSBC_upd _ _ _ ?_ (NodupSBC_upd _ _ _ ?_ h))
    · intro cd hcd
      unfold sbcF
      by_cases hl : cd.totalLiabilities ≠ []
      · rw [if_pos hl]
        exact nodup_mkeys_mset _ _ _ hcd
      · rw [if_neg hl]
        exact hcd
    · intro cd hcd
      exact hcd
    · intro cd hcd
      exact hcd
  · rw [if_neg hp]
    exact h

theorem NodupSBC_foldAllocs (o ct : String) :
    ∀ (allocs : List (String × ℚ × ℚ)) (st : AList EntitySolvencyData),
      NodupSBC st → NodupSBC (allocs.foldl (applyAllocation o ct) st) := by
  intro allocs
  induction allocs with
  | nil => intro st h; exact h
  | cons al t ih =>
      intro st h
      exact ih (applyAllocation o ct st al) (NodupSBC_applyAllocation o ct st al h)

theorem NodupSBC_pcs (eid : String) (obc : AList (AList ℚ)) (prices : Prices)
    (st : AList EntitySolvencyData) (en : String × ℚ) (h : NodupSBC st) :
    NodupSBC (processCoinShortfall eid obc prices st en) := by
  rw [pcs_eq_foldl]
  exact NodupSBC_foldAllocs eid en.1 (pcsList obc prices en) st h

theorem NodupSBC_foldPcs (eid : String) (obc : AList (AList ℚ)) (prices : Prices) :
    ∀ (snap : List (String × ℚ)) (st : AList EntitySolvencyData),
      NodupSBC st → NodupSBC (snap.foldl (processCoinShortfall eid obc prices) st) := by
  intro snap
  induction snap with
  | nil => intro st h; exact h
  | cons en t ih =>
      intro st h
      exact ih (processCoinShortfall eid obc prices st en) (NodupSBC_pcs eid obc prices st en h)

theorem NodupSBC_propagate (eid : String) (st : AList EntitySolvencyData)
    (entities : List Entity) (prices : Prices) (h : NodupSBC st) :
    NodupSBC (propagateEntityShortfalls eid st entities prices) := by
  unfold propagateEntityShortfalls
  cases entities.find? (fun e => e.id == eid) with
  | none => exact h
  | some entity =>
      cases mget st eid with
      | none => exact h
      | some data => exact NodupSBC_foldPcs eid _ prices data.shortfallsByCoin st h

theorem NodupSBC_run (entities : List Entity) (prices : Prices) :
    ∀ (order : List String) (st : AList EntitySolvencyData),
      NodupSBC st → NodupSBC (runPropagation order st entities prices) := by
  intro order
  induction order with
  | nil => intro st h; exact h
  | cons eid t ih =>
      intro st h
      exact ih (propagateEntityShortfalls eid st entities prices)
        (NodupSBC_propagate eid st entities prices h)


/-! ### Congruence and commutation of whole-entity propagation -/

theorem propagate_expand (eid : String) (st : AList EntitySolvencyData)
    (entities : List Entity) (prices : Prices) (e : Entity)
    (d : EntitySolvencyData) (hf : entities.find? (fun en => en.id == eid) = some e)
    (hg : mget st eid = some d) :
    propagateEntityShortfalls eid st entities prices =
      d.shortfallsByCoin.foldl
        (processCoinShortfall eid (obligationsByCreditor e) prices) st := by
  unfold propagateEntityShortfalls
  rw [hf, hg]

theorem propagate_cong (eid : String) (entities : List Entity) (prices : Prices)
    (st1 st2 : AList EntitySolvencyData) (hn1 : NodupSBC st1) (hn2 : NodupSBC st2)
    (h : StateEquiv st1 st2) :
    StateEquiv (propagateEntityShortfalls eid st1 entities prices)
      (propagateEntityShortfalls eid st2 entities prices) := by
  unfold propagateEntityShortfalls
  cases hf : entities.find? (fun e => e.id == eid) with
  | none => exact h
  | some entity =>
      have hrel := h.2 eid
      cases hg1 : mget st1 eid with
      | none =>
          have hg2 : mget st2 eid = none := by
            cases hg2 : mget st2 eid with
            | none => rfl
            | some d2 =>
                rw [hg1, hg2] at hrel
                exact absurd hrel id
          rw [hg2]
          exact h
      | some d1 =>
          cases hg2 : mget st2 eid with
          | none =>
              rw [hg1, hg2] at hrel
              exact absurd hrel id
          | some d2 =>
              rw [hg1, hg2] at hrel
              have nd1 : (mkeys d1.shortfallsByCoin).Nodup :=
                hn1 (eid, d1) (mget_mem st1 eid d1 hg1)
              have nd2 : (mkeys d2.shortfallsByCoin).Nodup :=
                hn2 (eid, d2) (mget_mem st2 eid d2 hg2)
              obtain ⟨e1, e2, e3, e4, e5, e6, e7, e8, e9, e10, e11, e12, e13⟩ := hrel
              have hperm : d1.shortfallsByCoin.Perm d2.shortfallsByCoin :=
                alist_perm_of_mget _ _ nd1 nd2 e11
              have hpw : d1.shortfallsByCoin.Pairwise
                  (fun a b : String × ℚ => a.1 ≠ b.1) := List.pairwise_map.mp nd1
              refine StateEquiv_trans
                (foldl_equiv_cong _
                  (fun en a b hab => pcs_cong eid (obligationsByCreditor entity) prices en a b hab)
                  d1.shortfallsByCoin st1 st2 h) ?_
              exact foldl_perm_equiv _ (fun a b : String × ℚ => a.1 ≠ b.1)
                (fun a b hab => hab.symm)
                (fun en a b hab => pcs_cong eid (obligationsByCreditor entity) prices en a b hab)
                (fun x y hxy s => pcs_comm eid eid (obligationsByCreditor entity)
                  (obligationsByCreditor entity) prices x y (Or.inr hxy) s)
                hperm hpw st2

theorem propagate_comm (x y : String) (entities : List Entity) (prices : Prices)
    (st : AList EntitySolvencyData) (hxy : x ≠ y)
    (hexy : (x, y) ∉ buildEdges entities) (heyx : (y, x) ∉ buildEdges entities)
    (hx : x ∈ nodeIds entities) (hy : y ∈ nodeIds entities) :
    StateEquiv
      (propagateEntityShortfalls y (propagateEntityShortfalls x st entities prices) entities prices)
      (propagateEntityShortfalls x (propagateEntityShortfalls y st entities prices) entities prices) := by
  by_cases hid1 : entities.find? (fun e => e.id == x) = none ∨ mget st x = none
  · have h1 : propagateEntityShortfalls x st entities prices = st :=
      propagate_id_of_none x st entities prices hid1
    have hid1' : entities.find? (fun e => e.id == x) = none ∨
        mget (propagateEntityShortfalls y st entities prices) x = none := by
      rcases hid1 with h | h
      · exact Or.inl h
      · right
        rw [mget_eq_none_iff] at h ⊢
        rwa [mkeys_propagate]
    have h2 : propagateEntityShortfalls x
        (propagateEntityShortfalls y st entities prices) entities prices =
        propagateEntityShortfalls y st entities prices :=
      propagate_id_of_none _ _ _ _ hid1'
    rw [h1, h2]
    exact StateEquiv_refl _
  by_cases hid2 : entities.find? (fun e => e.id == y) = none ∨ mget st y = none
  · have h1 : propagateEntityShortfalls y st entities prices = st :=
      propagate_id_of_none y st entities prices hid2
    have hid2' : entities.find? (fun e => e.id == y) = none ∨
        mget (propagateEntityShortfalls x st entities prices) y = none := by
      rcases hid2 with h | h
      · exact Or.inl h
      · right
        rw [mget_eq_none_iff] at h ⊢
        rwa [mkeys_propagate]
    have h2 : propagateEntityShortfalls y
        (propagateEntityShortfalls x st entities prices) entities prices =
        propagateEntityShortfalls x st entities prices :=
      propagate_id_of_none _ _ _ _ hid2'
    rw [h1, h2]
    exact StateEquiv_refl _
  push_neg at hid1 hid2
  obtain ⟨hfx', hgx'⟩ := hid1
  obtain ⟨hfy', hgy'⟩ := hid2
  obtain ⟨ex, hfx⟩ := Option.ne_none_iff_exists'.mp hfx'
  obtain ⟨dx, hgx⟩ := Option.ne_none_iff_exists'.mp hgx'
  obtain ⟨ey, hfy⟩ := Option.ne_none_iff_exists'.mp hfy'
  obtain ⟨dy, hgy⟩ := Option.ne_none_iff_exists'.mp hgy'
  have hmy : mget (propagateEntityShortfalls x st entities prices) y = some dy := by
    rw [mget_propagate_other x entities prices st y (fun hh => hxy hh.symm) hy hexy]
    exact hgy
  have hmx : mget (propagateEntityShortfalls y st entities prices) x = some dx := by
    rw [mget_propagate_other y entities prices st x hxy hx heyx]
    exact hgx
  have hax := propagate_expand x st entities prices ex dx hfx hgx
  have hay := propagate_expand y st entities prices ey dy hfy hgy
  have hbx := propagate_expand y (propagateEntityShortfalls x st entities prices)
    entities prices ey dy hfy hmy
  have hby := propagate_expand x (propagateEntityShortfalls y st entities prices)
    entities prices ex dx hfx hmx
  rw [hbx, hby, hax, hay]
  exact foldl_foldl_comm
    (processCoinShortfall x (obligationsByCreditor ex) prices)
    (processCoinShortfall y (obligationsByCreditor ey) prices)
    (fun en a b hab => pcs_cong x (obligationsByCreditor ex) prices en a b hab)
    (fun en a b hab => pcs_cong y (obligationsByCreditor ey) prices en a b hab)
    (fun en1 en2 s => pcs_comm x y (obligationsByCreditor ex)
      (obligationsByCreditor ey) prices en1 en2 (Or.inl hxy) s)
    dx.shortfallsByCoin dy.shortfallsByCoin st


/-! ### The propagation pass is order-independent up to state equivalence -/

theorem run_cong (entities : List Entity) (prices : Prices) :
    ∀ (order : List String) (st1 st2 : AList EntitySolvencyData),
      NodupSBC st1 → NodupSBC st2 → StateEquiv st1 st2 →
      StateEquiv (runPropagation order st1 entities prices)
        (runPropagation order st2 entities prices) := by
  intro order
  induction order with
  | nil => intro st1 st2 _ _ h; exact h
  | cons eid t ih =>
      intro st1 st2 hn1 hn2 h
      show StateEquiv
        (runPropagation t (propagateEntityShortfalls eid st1 entities prices) entities prices)
        (runPropagation t (propagateEntityShortfalls eid st2 entities prices) entities prices)
      exact ih _ _ (NodupSBC_propagate eid st1 entities prices hn1)
        (NodupSBC_propagate eid st2 entities prices hn2)
        (propagate_cong eid entities prices st1 st2 hn1 hn2 h)

theorem run_bubble (entities : List Entity) (prices : Prices) (x : String)
    (hx : x ∈ nodeIds entities) :
    ∀ (pre : List String) (st : AList EntitySolvencyData),
      (∀ y ∈ pre, y ∈ nodeIds entities) → x ∉ pre →
      (∀ y ∈ pre, (x, y) ∉ buildEdges entities ∧ (y, x) ∉ buildEdges entities) →
      NodupSBC st →
      StateEquiv
        (propagateEntityShortfalls x (runPropagation pre st entities prices) entities prices)
        (runPropagation pre (propagateEntityShortfalls x st entities prices) entities prices) := by
  intro pre
  induction pre with
  | nil => intro st _ _ _ _; exact StateEquiv_refl _
  | cons y t ih =>
      intro st hnode hnx hne hnd
      have hxy : x ≠ y := fun hh => hnx (hh ▸ List.mem_cons_self _ _)
      have hndy : NodupSBC (propagateEntityShortfalls y st entities prices) :=
        NodupSBC_propagate y st entities prices hnd
      show StateEquiv
        (propagateEntityShortfalls x
          (runPropagation t (propagateEntityShortfalls y st entities prices) entities prices)
          entities prices) _
      refine StateEquiv_trans
        (ih (propagateEntityShortfalls y st entities prices)
          (fun z hz => hnode z (List.mem_cons_of_mem _ hz))
          (fun hz => hnx (List.mem_cons_of_mem _ hz))
          (fun z hz => hne z (List.mem_cons_of_mem _ hz)) hndy) ?_
      show StateEquiv _
        (runPropagation t
          (propagateEntityShortfalls y (propagateEntityShortfalls x st entities prices) entities prices)
          entities prices)
      refine run_cong entities prices t _ _
        (NodupSBC_propagate x _ entities prices hndy)
        (NodupSBC_propagate y _ entities prices
          (NodupSBC_propagate x st entities prices hnd)) ?_
      exact StateEquiv_symm (propagate_comm x y entities prices st hxy
        (hne y (List.mem_cons_self _ _)).1 (hne y (List.mem_cons_self _ _)).2
        hx (hnode y (List.mem_cons_self _ _)))

theorem runPropagation_perm (entities : List Entity) (prices : Prices) :
    ∀ (o1 o2 : List String), o1.Perm o2 → o1.Nodup →
      (∀ z ∈ o1, z ∈ nodeIds entities) →
      ValidOrder (buildEdges entities) o1 → ValidOrder (buildEdges entities) o2 →
      ∀ (st : AList EntitySolvencyData), NodupSBC st →
      StateEquiv (runPropagation o1 st entities prices)
        (runPropagation o2 st entities prices) := by
  intro o1
  induction o1 with
  | nil =>
      intro o2 hperm _ _ _ _ st _
      rw [(hperm.symm.eq_nil : o2 = [])]
      exact StateEquiv_refl _
  | cons x r1 ih =>
      intro o2 hperm hnd hnode hv1 hv2 st hsbc
      have hxo2 : x ∈ o2 := hperm.subset (List.mem_cons_self x r1)
      obtain ⟨pre, post, rfl⟩ := List.append_of_mem hxo2
      have hndo2 : (pre ++ x :: post).Nodup := hperm.nodup_iff.mp hnd
      have hxpre : x ∉ pre := fun hxp =>
        (List.disjoint_of_nodup_append hndo2) hxp (List.mem_cons_self _ _)
      have hr1 : r1.Perm (pre ++ post) := (hperm.trans List.perm_middle).cons_inv
      have hedges : ∀ y ∈ pre,
          (x, y) ∉ buildEdges entities ∧ (y, x) ∉ buildEdges entities := by
        intro y hy
        refine ⟨(List.pairwise_append.mp hv2).2.2 y hy x (List.mem_cons_self _ _), ?_⟩
        have hyr1 : y ∈ r1 := hr1.mem_iff.mpr (List.mem_append.mpr (Or.inl hy))
        exact (List.pairwise_cons.mp hv1).1 y hyr1
      have hxnode : x ∈ nodeIds entities := hnode x (List.mem_cons_self _ _)
      have hnodepre : ∀ y ∈ pre, y ∈ nodeIds entities := fun y hy =>
        hnode y (hperm.mem_iff.mpr (List.mem_append.mpr (Or.inl hy)))
      have hndx : NodupSBC (propagateEntityShortfalls x st entities prices) :=
        NodupSBC_propagate x st entities prices hsbc
      have hB : runPropagation (pre ++ x :: post) st entities prices =
          runPropagation post
            (propagateEntityShortfalls x (runPropagation pre st entities prices) entities prices)
            entities prices := by
        unfold runPropagation
        rw [List.foldl_append]
        rfl
      have hC : runPropagation (pre ++ post)
            (propagateEntityShortfalls x st entities prices) entities prices =
          runPropagation post
            (runPropagation pre (propagateEntityShortfalls x st entities prices) entities prices)
            entities prices := by
        unfold runPropagation
        rw [List.foldl_append]
      show StateEquiv
        (runPropagation r1 (propagateEntityShortfalls x st entities prices) entities prices) _
      refine StateEquiv_trans
        (ih (pre ++ post) hr1 (List.Nodup.of_cons hnd)
          (fun z hz => hnode z (List.mem_cons_of_mem _ hz))
          (List.Pairwise.of_cons hv1)
          (List.Pairwise.sublist
            (List.Sublist.append_left (List.sublist_cons_self x post) pre) hv2)
          (propagateEntityShortfalls x st entities prices) hndx) ?_
      rw [hB, hC]
      refine run_cong entities prices post _ _
        (NodupSBC_run entities prices pre _ hndx)
        (NodupSBC_propagate x _ entities prices
          (NodupSBC_run entities prices pre st hsbc)) ?_
      exact StateEquiv_symm
        (run_bubble entities prices x hxnode pre st hnodepre hxpre hedges hsbc)


/-! ### Third-pass congruence and the first-pass key invariants -/

theorem state_forall2 :
    ∀ (st1 st2 : AList EntitySolvencyData), StateEquiv st1 st2 →
      (mkeys st1).Nodup →
      List.Forall₂ (fun e1 e2 => e1.1 = e2.1 ∧ RecordEquiv e1.2 e2.2) st1 st2 := by
  intro st1
  induction st1 with
  | nil =>
      intro st2 h _
      cases st2 with
      | nil => exact List.Forall₂.nil
      | cons b t2 => exact absurd h.1 (by simp [mkeys])
  | cons a t1 ih =>
      intro st2 h hnd
      obtain ⟨ka, va⟩ := a
      cases st2 with
      | nil => exact absurd h.1 (by simp [mkeys])
      | cons b t2 =>
          obtain ⟨kb, vb⟩ := b
          have hkeys : ka :: mkeys t1 = kb :: mkeys t2 := h.1
          injection hkeys with hk htk
          subst hk
          have hrel := h.2 ka
          have e1 : mget ((ka, va) :: t1) ka = some va := by simp [mget]
          have e2 : mget ((ka, vb) :: t2) ka = some vb := by simp [mget]
          rw [e1, e2] at hrel
          have hnd' : ka ∉ mkeys t1 ∧ (mkeys t1).Nodup := by
            have : (ka :: mkeys t1).Nodup := hnd
            exact List.nodup_cons.mp this
          refine List.Forall₂.cons ⟨rfl, hrel⟩ (ih t2 ⟨htk, ?_⟩ hnd'.2)
          intro k
          by_cases hkk : ka = k
          · subst hkk
            rw [(mget_eq_none_iff t1 ka).mpr hnd'.1,
              (mget_eq_none_iff t2 ka).mpr (htk ▸ hnd'.1)]
            exact trivial
          · have f1 : mget ((ka, va) :: t1) k = mget t1 k := by simp [mget, hkk]
            have f2 : mget ((ka, vb) :: t2) k = mget t2 k := by simp [mget, hkk]
            have hk2 := h.2 k
            rw [f1, f2] at hk2
            exact hk2

theorem classifyStep_congr (acc : List String)
    (a b : String × EntitySolvencyData) (h : RecordEquiv a.2 b.2) :
    classifyStep acc a = classifyStep acc b := by
  obtain ⟨r1, r2, r3, r4, r5, r6, r7, r8, r9, r10, r11, r12, r13⟩ := h
  have hn1 : (a.2.shortfallsByCoin ≠ []) ↔ (b.2.shortfallsByCoin ≠ []) :=
    not_congr (mget_equiv_nil_iff r11)
  have hn2 : (a.2.shortfallsReceived ≠ []) ↔ (b.2.shortfallsReceived ≠ []) :=
    not_congr (EntriesEquiv_nil_iff r12)
  unfold classifyStep
  by_cases hc : (a.2.shortfallsByCoin ≠ [] ∨ 0 < a.2.shortfallUsd) ∨
      (a.2.totalLiabilities ≠ [] ∧ a.2.shortfallsReceived ≠ [])
  · have hc' : (b.2.shortfallsByCoin ≠ [] ∨ 0 < b.2.shortfallUsd) ∨
        (b.2.totalLiabilities ≠ [] ∧ b.2.shortfallsReceived ≠ []) := by
      rw [← hn1, ← hn2, ← r5, ← r8]
      exact hc
    rw [if_pos hc, if_pos hc', r1]
  · have hc' : ¬ ((b.2.shortfallsByCoin ≠ [] ∨ 0 < b.2.shortfallUsd) ∨
        (b.2.totalLiabilities ≠ [] ∧ b.2.shortfallsReceived ≠ [])) := by
      rw [← hn1, ← hn2, ← r5, ← r8]
      exact hc
    rw [if_neg hc, if_neg hc']

theorem classify_eq_step (st : AList EntitySolvencyData) :
    classify st = st.foldl classifyStep [] := rfl

theorem classify_fold_congr :
    ∀ {st1 st2 : AList EntitySolvencyData},
      List.Forall₂ (fun e1 e2 => e1.1 = e2.1 ∧ RecordEquiv e1.2 e2.2) st1 st2 →
      ∀ acc, st1.foldl classifyStep acc = st2.foldl classifyStep acc := by
  intro st1 st2 h
  induction h with
  | nil => intro _; rfl
  | cons hab ht ih =>
      intro acc
      rw [List.foldl_cons, List.foldl_cons, classifyStep_congr acc _ _ hab.2]
      exact ih (classifyStep acc _)

theorem classify_congr (st1 st2 : AList EntitySolvencyData)
    (h : List.Forall₂ (fun e1 e2 => e1.1 = e2.1 ∧ RecordEquiv e1.2 e2.2) st1 st2) :
    classify st1 = classify st2 := by
  rw [classify_eq_step, classify_eq_step]
  exact classify_fold_congr h []

theorem details_forall2 {st1 st2 : AList EntitySolvencyData}
    (h : List.Forall₂ (fun e1 e2 => e1.1 = e2.1 ∧ RecordEquiv e1.2 e2.2) st1 st2) :
    List.Forall₂ RecordEquiv (st1.map (fun en => en.2)) (st2.map (fun en => en.2)) := by
  induction h with
  | nil => exact List.Forall₂.nil
  | cons hab ht ih => exact List.Forall₂.cons hab.2 ih

theorem shortfallsByCoinMap_keys_nodup (prices : Prices) (fsu : ℚ)
    (sfu : AList ℚ) : (mkeys (shortfallsByCoinMap prices fsu sfu)).Nodup := by
  unfold shortfallsByCoinMap
  split
  · dsimp only
    refine foldl_invariant _ (fun acc => (mkeys acc).Nodup) sfu ?_ [] (by simp [mkeys])
    intro acc a _ hP
    dsimp only
    cases prices a.1 with
    | none => exact hP
    | some price =>
        dsimp only
        split
        · exact nodup_mkeys_mset _ _ _ hP
        · exact hP
  · simp [mkeys]

theorem computeEntityData_sbc_nodup (entities : List Entity) (prices : Prices)
    (e : Entity) (d : EntitySolvencyData)
    (hok : computeEntityData entities prices e = Except.ok d) :
    (mkeys d.shortfallsByCoin).Nodup := by
  unfold computeEntityData at hok
  cases hfl : flattenObligations prices e with
  | error m =>
      simp only [hfl] at hok
      exact Except.noConfusion hok
  | ok obs =>
  simp only [hfl] at hok
  cases hau : assetsUsd prices (aggregateAssets entities e) with
  | error m =>
      simp only [hau] at hok
      exact Except.noConfusion hok
  | ok q =>
  simp only [hau] at hok
  cases hnst : netting prices obs
      ((aggregateAssets entities e).map (fun en => (en.1, en.2.int))) with
  | error m =>
      simp only [hnst] at hok
      exact Except.noConfusion hok
  | ok nst =>
  simp only [hnst] at hok
  cases hsw : swapStep prices (aggregateAssets entities e) nst with
  | error m =>
      simp only [hsw] at hok
      exact Except.noConfusion hok
  | ok sw =>
  simp only [hsw] at hok
  rw [Except.ok.injEq] at hok
  have hsbc : d.shortfallsByCoin = shortfallsByCoinMap prices
      (max sw.remainingLiabilitiesUsd 0) nst.shortfallUsdByCoin := by rw [← hok]
  rw [hsbc]
  exact shortfallsByCoinMap_keys_nodup prices _ _

theorem firstPass_keys_nodup (entities : List Entity) (prices : Prices)
    (st : AList EntitySolvencyData) (hok : firstPass entities prices = .ok st) :
    (mkeys st).Nodup := by
  refine foldlM_ok_invariant _ (fun s => (mkeys s).Nodup) entities ?_ [] st
    (by unfold firstPass at hok; exact hok) (by simp [mkeys])
  intro acc e acc' he hstep hP
  cases hcd : computeEntityData entities prices e with
  | error m =>
      simp only [hcd] at hstep
      exact Except.noConfusion hstep
  | ok d =>
      simp only [hcd] at hstep
      rw [Except.ok.injEq] at hstep
      subst hstep
      exact nodup_mkeys_mset _ _ _ hP

theorem firstPass_sbcNodup (entities : List Entity) (prices : Prices)
    (st : AList EntitySolvencyData) (hok : firstPass entities prices = .ok st) :
    NodupSBC st := by
  refine foldlM_ok_invariant _ NodupSBC entities ?_ [] st
    (by unfold firstPass at hok; exact hok) ?_
  · intro acc e acc' he hstep hP
    cases hcd : computeEntityData entities prices e with
    | error m =>
        simp only [hcd] at hstep
        exact Except.noConfusion hstep
    | ok d =>
        simp only [hcd] at hstep
        rw [Except.ok.injEq] at hstep
        subst hstep
        intro en hen
        rcases mem_mset_cases acc e.id d en hen with hmem | ⟨hk, hv⟩
        · exact hP en hmem
        · rw [hv]
          exact computeEntityData_sbc_nodup entities prices e d hcd
  · intro en hen
    exact absurd hen (List.not_mem_nil en)


/-- C8 (amended): two runs of `checkEntitySolvency`'s pipeline that differ only
in the choice of valid topological order produce results that are equal in
solvency verdict and insolvent-entity list, and whose per-entity details agree
except for the order of entries inside the propagation-written collections
(`shortfallsByCoin` as a lookup table, `shortfallsReceived` and
`shortfallsCaused` as per-counterparty lookup tables). Literal equality of the
outputs fails (`c8_counterexample`): the entry order of those collections does
depend on the chosen order. -/
theorem c8_amended (entities : List Entity) (prices : Prices)
    (o1 o2 : List String) (res1 res2 : SolvencyResult)
    (hnd : o1.Nodup) (hperm : o1.Perm o2)
    (hnode : ∀ z ∈ o1, z ∈ nodeIds entities)
    (hv1 : ValidOrder (buildEdges entities) o1)
    (hv2 : ValidOrder (buildEdges entities) o2)
    (h1 : checkEntitySolvencyWithOrder entities prices o1 = Except.ok res1)
    (h2 : checkEntitySolvencyWithOrder entities prices o2 = Except.ok res2) :
    res1.isSolvent = res2.isSolvent ∧
    res1.insolventEntities = res2.insolventEntities ∧
    List.Forall₂ RecordEquiv res1.details res2.details := by
  unfold checkEntitySolvencyWithOrder at h1 h2
  cases hfp : firstPass entities prices with
  | error m =>
      rw [hfp] at h1
      exact Except.noConfusion h1
  | ok st =>
      rw [hfp] at h1 h2
      rw [Except.ok.injEq] at h1 h2
      subst h1
      subst h2
      have hkeys : (mkeys st).Nodup := firstPass_keys_nodup entities prices st hfp
      have hsbc : NodupSBC st := firstPass_sbcNodup entities prices st hfp
      have hrun := runPropagation_perm entities prices o1 o2 hperm hnd hnode hv1
        hv2 st hsbc
      have hndk : (mkeys (runPropagation o1 st entities prices)).Nodup := by
        rw [mkeys_runPropagation]
        exact hkeys
      have hf2 := state_forall2 _ _ hrun hndk
      have hcl : classify (runPropagation o1 st entities prices) =
          classify (runPropagation o2 st entities prices) := classify_congr _ _ hf2
      refine ⟨?_, ?_, ?_⟩
      · show (classify (runPropagation o1 st entities prices)).isEmpty =
          (classify (runPropagation o2 st entities prices)).isEmpty
        rw [hcl]
      · show classify (runPropagation o1 st entities prices) =
          classify (runPropagation o2 st entities prices)
        exact hcl
      · exact details_forall2 hf2

/-- C8 witness: `c8_amended` applied to the diamond input and its two valid
topological orders. -/
theorem c8_witness :
    (["A", "B", "C", "D"] : List String).Nodup ∧
    (["A", "B", "C", "D"] : List String).Perm ["A", "C", "B", "D"] ∧
    (∀ z ∈ (["A", "B", "C", "D"] : List String), z ∈ nodeIds diamondEntities) ∧
    ValidOrder (buildEdges diamondEntities) ["A", "B", "C", "D"] ∧
    ValidOrder (buildEdges diamondEntities) ["A", "C", "B", "D"] ∧
    ∃ res1 res2,
      checkEntitySolvencyWithOrder diamondEntities diamondPrices
        ["A", "B", "C", "D"] = Except.ok res1 ∧
      checkEntitySolvencyWithOrder diamondEntities diamondPrices
        ["A", "C", "B", "D"] = Except.ok res2 ∧
      (res1.isSolvent = res2.isSolvent ∧
       res1.insolventEntities = res2.insolventEntities ∧
       List.Forall₂ RecordEquiv res1.details res2.details) := by
  refine ⟨by decide, by decide, by decide, by unfold ValidOrder; decide,
    by unfold ValidOrder; decide, _, _, rfl, rfl, ?_⟩
  exact c8_amended diamondEntities diamondPrices ["A", "B", "C", "D"]
    ["A", "C", "B", "D"] _ _ (by decide) (by decide) (by decide)
    (by unfold ValidOrder; decide) (by unfold ValidOrder; decide) rfl rfl

end ClaimProofs

end Solvency
